import Mathlib

/-!
# GCTA multivariate set-based association test (`mbat.cpp`)

A shallow embedding of the index bookkeeping and quality-control stages of
`src/mbat.cpp`, followed by the properties established about them.

Conventions of the embedding:

* vectors (`eigenVector`, `VectorXf`, `vector<T>`) are lists, matrices
  (`MatrixXf`, `eigenMatrix`) are lists of rows;
* positions and sizes (`int` in the source, never negative where they are
  used as positions) are natural numbers; integers are kept where the source
  relies on them: the position returned by `sbat_VIF_iter_rm_colin`, whose
  sentinel is `-1`, and the local `int` constants;
* numeric values live in an arbitrary linearly ordered field `α`, so that the
  arithmetic is exact: rounding of `float`/`double` is not modelled.  The
  definitions are computable and can be run at `α := ℚ`;
* library routines that are not part of the repository sources (`sqrt`, the
  Eigen self-adjoint eigen-solver, the LDLT inverse, the chi-square tail) are
  parameters of the functions that call them;
* console and file output is not modelled.
-/

namespace gcta

/-! ## Data model -/

/-- Cell `(i, j)` of a matrix stored as a list of rows, `none` outside the matrix. -/
def entry? {α : Type} (C : List (List α)) (i j : Nat) : Option α :=
  (C[i]?).bind (fun row => row[j]?)

/-- Cell `(i, j)` of a matrix stored as a list of rows (`C(i,j)` in the source);
cells outside the matrix read as `0`. -/
def entry {α : Type} [Zero α] (C : List (List α)) (i j : Nat) : α :=
  (C.getD i []).getD j 0

/-- Assignment `D(i,j) = x`. -/
def setEntry {α : Type} (D : List (List α)) (i j : Nat) (x : α) : List (List α) :=
  D.set i ((D.getD i []).set j x)

/-- The parallel per-variant structures of one set: effect sizes, standard
errors, names and the correlation matrix (`set_beta`, `set_se`, `snp_kept`,
`C` in `sbat_multi_calcu_V`). -/
structure SetData (α : Type) where
  snp_beta : List α
  snp_btse : List α
  snp_keep : List String
  C : List (List α)
deriving DecidableEq

/-! ## IndexRebuilder: `recalculate_ndx` and `rebuild_matrix` -/

/-- Body of the `for` loop of `recalculate_ndx` (mbat.cpp:285-292); the state
is `(alt, new_C_indx)`. -/
def recalculate_ndx_step (rm_ID1 : List Nat) (st : Nat × List Nat) (i : Nat) :
    Nat × List Nat :=
  if h : rm_ID1.length > st.1 then
    if rm_ID1[st.1] = i then (st.1 + 1, st.2)
    else (st.1, st.2 ++ [i])
  else (st.1, st.2 ++ [i])

/-- Embedding of `gcta::recalculate_ndx` (mbat.cpp:282-293): the third argument is the
previous content of the output vector, which `resize(0)` discards. -/
def recalculate_ndx (msnps : Nat) (rm_ID1 : List Nat) (new_C_indx : List Nat) : List Nat :=
  let new_C_indx := new_C_indx.take 0
  ((List.range msnps).foldl (recalculate_ndx_step rm_ID1) (0, new_C_indx)).2

/-- Inner `for j` loop of `rebuild_matrix` (mbat.cpp:268-270): fills row `i` of `D`. -/
def rebuild_matrix_row {α : Type} [Zero α] (C : List (List α)) (new_C_indx : List Nat)
    (i : Nat) (D : List (List α)) : List (List α) :=
  (List.range new_C_indx.length).foldl
    (fun D j => setEntry D i j (entry C (new_C_indx.getD i 0) (new_C_indx.getD j 0))) D

/-- Body of the outer `for i` loop of `rebuild_matrix` (mbat.cpp:267-274).  The source
reads `tmp_beta`, `tmp_btse`, `tmp_keep` and `C` at `new_C_indx[i]` without a check;
outside the vectors its behaviour is undefined and the embedding reads the default, so
the embedding stands for the source only where these positions are in range. -/
def rebuild_matrix_step {α : Type} [Zero α] (old : SetData α) (new_C_indx : List Nat)
    (s : SetData α) (i : Nat) : SetData α :=
  { C := rebuild_matrix_row old.C new_C_indx i s.C
    snp_beta := s.snp_beta.set i (old.snp_beta.getD (new_C_indx.getD i 0) 0)
    snp_btse := s.snp_btse.set i (old.snp_btse.getD (new_C_indx.getD i 0) 0)
    snp_keep := s.snp_keep ++ [old.snp_keep.getD (new_C_indx.getD i 0) ""] }

/-- Embedding of `gcta::rebuild_matrix` (mbat.cpp:252-278).  The temporaries are the
fields of the incoming state; the resized vectors and the fresh matrix `D` start
filled with `0` (their content is unspecified in the source and is overwritten). -/
def rebuild_matrix {α : Type} [Zero α] (st : SetData α) (new_C_indx : List Nat) :
    SetData α :=
  let k := new_C_indx.length
  let init : SetData α :=
    { snp_beta := List.replicate k 0
      snp_btse := List.replicate k 0
      snp_keep := []
      C := List.replicate k (List.replicate k 0) }
  (List.range k).foldl (rebuild_matrix_step st new_C_indx) init

/-! ## Sorting helpers of the filter stages -/

/-- `std::stable_sort` on positions: the ascending rearrangement of the list (for
integers the result of a stable sort is the only sorted permutation). -/
def stable_sort (l : List Nat) : List Nat :=
  l.insertionSort (· ≤ ·)

/-- `v.erase(std::unique(v.begin(), v.end()), v.end())`: one element is kept of every
run of equal neighbours. -/
def unique {β : Type} [DecidableEq β] : List β → List β
  | [] => []
  | [a] => [a]
  | a :: b :: t => if a = b then unique (b :: t) else a :: unique (b :: t)

/-- Conversion of a floating-point value to `int` (truncation toward zero). -/
def double_to_int (x : ℚ) : Int :=
  if 0 ≤ x then ⌊x⌋ else ⌈x⌉

/-! ## SignMismatchFilter: `rm_ld_inv_beta` -/

/-- The local `int STN_DEV = 1.96;` of `rm_ld_inv_beta` (mbat.cpp:598): the literal is
converted to `int`. -/
def STN_DEV : Int :=
  double_to_int (196 / 100)

/-- The three output vectors of `rm_ld_inv_beta`. -/
structure BetaPairs where
  rm_ID0 : List Nat
  rm_IDi : List Nat
  rm_IDj : List Nat
deriving DecidableEq

/-- Body of the inner loop of `rm_ld_inv_beta` (mbat.cpp:608-615). -/
def rm_ld_inv_beta_body {α : Type} [LinearOrderedField α] (VR : List (List α))
    (off_m off_sd : α) (i : Nat) (s : BetaPairs) (j : Nat) : BetaPairs :=
  if entry VR i j < 0 then
    if entry VR i j - off_m < ((-STN_DEV : Int) : α) * off_sd then
      { rm_ID0 := s.rm_ID0 ++ [i] ++ [j]
        rm_IDi := s.rm_IDi ++ [i]
        rm_IDj := s.rm_IDj ++ [j] }
    else s
  else s

/-- Embedding of `gcta::rm_ld_inv_beta` (mbat.cpp:591-622); the last three arguments are
the incoming contents of the output vectors (empty at the only call site). -/
def rm_ld_inv_beta {α : Type} [LinearOrderedField α] (VR : List (List α)) (m : Nat)
    (off_m off_sd : α) (rm_ID0 rm_IDi rm_IDj : List Nat) : BetaPairs :=
  let s := (List.range m).foldl
    (fun s i => (List.range i).foldl (rm_ld_inv_beta_body VR off_m off_sd i) s)
    { rm_ID0 := rm_ID0, rm_IDi := rm_IDi, rm_IDj := rm_IDj }
  { s with rm_ID0 := unique (stable_sort s.rm_ID0) }

/-! ## PairwisePruner: `rm_cor_sbat` -/

/-- Body of the inner loop of `rm_cor_sbat` (mbat.cpp:702-707); the state is
`(rm_ID1, rm_ID2)`. -/
def rm_cor_sbat_body {α : Type} [LinearOrderedField α] (R : List (List α)) (R_cutoff : α)
    (i : Nat) (s : List Nat × List Nat) (j : Nat) : List Nat × List Nat :=
  let aval := entry R i j
  if |aval| > R_cutoff then (s.1 ++ [i], s.2 ++ [j]) else s

/-- Value found in the `map<int,int>` `rm_uni_ID_count` for a key (`find(..)->second`). -/
def rm_uni_ID_count_find (rm_uni_ID_count : List (Nat × Nat)) (key : Nat) : Nat :=
  (rm_uni_ID_count.lookup key).getD 0

/-- Body of the swapping loop of `rm_cor_sbat` (mbat.cpp:725-731). -/
def rm_cor_sbat_swap (rm_uni_ID_count : List (Nat × Nat)) (s : List Nat × List Nat)
    (i : Nat) : List Nat × List Nat :=
  let iter1 := rm_uni_ID_count_find rm_uni_ID_count (s.1.getD i 0)
  let iter2 := rm_uni_ID_count_find rm_uni_ID_count (s.2.getD i 0)
  if iter1 < iter2 then
    let i_buf := s.1.getD i 0
    let rm_ID1 := s.1.set i (s.2.getD i 0)
    let rm_ID2 := s.2.set i i_buf
    (rm_ID1, rm_ID2)
  else s

/-- Embedding of `gcta::rm_cor_sbat` (mbat.cpp:687-738); the last argument is the incoming
content of the output vector `rm_ID1` (empty at the only call site). -/
def rm_cor_sbat {α : Type} [LinearOrderedField α] (R : List (List α)) (R_cutoff : α)
    (m : Nat) (rm_ID1 : List Nat) : List Nat :=
  let rm_ID2 : List Nat := []
  let s := (List.range m).foldl
    (fun s i => (List.range i).foldl (rm_cor_sbat_body R R_cutoff i) s) (rm_ID1, rm_ID2)
  let rm_uni_ID := unique (stable_sort (s.1 ++ s.2))
  let rm_uni_ID_count := rm_uni_ID.map (fun x => (x, s.1.count x + s.2.count x))
  let s := (List.range s.1.length).foldl (rm_cor_sbat_swap rm_uni_ID_count) s
  unique (stable_sort s.1)

/-! ## CollinearityReducer: `sbat_VIF_iter_rm_colin` -/

/-- What the source reads from Eigen's `SelfAdjointEigenSolver`: the eigenvalues and the
matrix whose columns are the eigenvectors. -/
structure EigenSolver (α : Type) where
  eigenvalues : List α
  eigenvectors : List (List α)

/-- Product of two `n x n` matrices. -/
def mat_mul {α : Type} [LinearOrderedField α] (n : Nat) (A B : List (List α)) :
    List (List α) :=
  (List.range n).map (fun i => (List.range n).map (fun j =>
    ((List.range n).map (fun k => entry A i k * entry B k j)).sum))

/-- Transpose of an `n x n` matrix. -/
def mat_transpose {α : Type} [LinearOrderedField α] (n : Nat) (A : List (List α)) :
    List (List α) :=
  (List.range n).map (fun i => (List.range n).map (fun j => entry A j i))

/-- The diagonal matrix of a vector (`asDiagonal`). -/
def as_diagonal {α : Type} [LinearOrderedField α] (n : Nat) (d : List α) : List (List α) :=
  (List.range n).map (fun i => (List.range n).map (fun j => if i = j then d.getD i 0 else 0))

/-- The treated eigenvalues `d_i` (mbat.cpp:33-42): eigenvalues below `1e-5` become `0`,
the others are inverted. -/
def VIF_d_i {α : Type} [LinearOrderedField α] (eigenvalues : List α) (size : Nat) : List α :=
  (List.range size).map (fun j =>
    if eigenvalues.getD j 0 < 1 / 100000 then 0 else 1 / eigenvalues.getD j 0)

/-- The pseudo-inverse `R_i` (mbat.cpp:44). -/
def VIF_R_i {α : Type} [LinearOrderedField α] (pca : List (List α) → EigenSolver α)
    (R : List (List α)) : List (List α) :=
  let size := R.length
  mat_mul size
    (mat_mul size (pca R).eigenvectors (as_diagonal size (VIF_d_i (pca R).eigenvalues size)))
    (mat_transpose size (pca R).eigenvectors)

/-- The vector `Q_diag` (mbat.cpp:47-48): column `j` of `R_i` times row `j` of `R`. -/
def VIF_Q_diag {α : Type} [LinearOrderedField α] (R_i R : List (List α)) : List α :=
  (List.range R.length).map (fun j =>
    ((List.range R.length).map (fun k => entry R_i k j * entry R j k)).sum)

/-- First pass over `multi_rsq_buf` (mbat.cpp:51-55).  The division by `R_i(j,j)` is
a division of the field (`1 / 0 = 0`); IEEE infinities are not modelled. -/
def VIF_multi_rsq_init {α : Type} [LinearOrderedField α] (R_i R : List (List α)) : List α :=
  (List.range R.length).map (fun j =>
    let v := if |(VIF_Q_diag R_i R).getD j 0 - 1| < 1 / 100 then 1 - 1 / entry R_i j j else 1
    if v > 1 then 1 else v)

/-- The matrix of squared correlations with zeroed diagonal (mbat.cpp:59-60). -/
def VIF_R_sq {α : Type} [LinearOrderedField α] (R : List (List α)) : List (List α) :=
  (List.range R.length).map (fun i => (List.range R.length).map (fun j =>
    (if i = j then 0 else entry R i j) * (if i = j then 0 else entry R i j)))

/-- Position of the first largest coefficient of a vector (`maxCoeff(&pos)`). -/
def maxCoeff {α : Type} [LinearOrderedField α] (v : List α) : Nat :=
  ((List.range v.length).foldl
    (fun (best : Nat × α) k => if v.getD k 0 > best.2 then (k, v.getD k 0) else best)
    (0, v.getD 0 0)).1

/-- The vector `max_rsq_buf` (mbat.cpp:65-68): largest squared correlation of each column. -/
def VIF_max_rsq {α : Type} [LinearOrderedField α] (R : List (List α)) : List α :=
  (List.range R.length).map (fun j =>
    let col := (List.range R.length).map (fun i => entry (VIF_R_sq R) i j)
    col.getD (maxCoeff col) 0)

/-- The vector `multi_rsq_buf` when the last loop starts (mbat.cpp:69). -/
def VIF_multi_rsq {α : Type} [LinearOrderedField α] (pca : List (List α) → EigenSolver α)
    (R : List (List α)) : List α :=
  (List.range R.length).map (fun j =>
    if (VIF_multi_rsq_init (VIF_R_i pca R) R).getD j 0 < (VIF_max_rsq R).getD j 0
    then (VIF_max_rsq R).getD j 0
    else (VIF_multi_rsq_init (VIF_R_i pca R) R).getD j 0)

/-- The local `int threshold = 10;` of `sbat_VIF_iter_rm_colin`. -/
def VIF_threshold : Int := 10

/-- State of the last loop of `sbat_VIF_iter_rm_colin`: the vector `vif`, `max`, `pos`. -/
structure VIFState (α : Type) where
  vif : List α
  max : α
  pos : Int

/-- The value stored in `vif[j]` for a given `multi_rsq_buf[j]` (mbat.cpp:78-83). -/
def VIF_value {α : Type} [LinearOrderedField α] (multi_rsq : α) : α :=
  if |1 - multi_rsq| < 1 / 100000 then 100000000 else |1 / (1 - multi_rsq)|

/-- Body of the last loop of `sbat_VIF_iter_rm_colin` (mbat.cpp:78-87). -/
def VIF_step {α : Type} [LinearOrderedField α] (multi_rsq_buf : List α) (s : VIFState α)
    (j : Nat) : VIFState α :=
  let vif := s.vif.set j (VIF_value (multi_rsq_buf.getD j 0))
  if vif.getD j 0 > s.max ∧ vif.getD j 0 > (VIF_threshold : α) then
    { vif := vif, max := vif.getD j 0, pos := (j : Int) }
  else { vif := vif, max := s.max, pos := s.pos }

/-- The last loop of `sbat_VIF_iter_rm_colin` (mbat.cpp:72-88). -/
def VIF_final {α : Type} [LinearOrderedField α] (pca : List (List α) → EigenSolver α)
    (R : List (List α)) : VIFState α :=
  (List.range R.length).foldl (VIF_step (VIF_multi_rsq pca R))
    { vif := List.replicate R.length 0, max := 0, pos := -1 }

/-- The vector `vif` computed by `sbat_VIF_iter_rm_colin`. -/
def sbat_VIF_vif {α : Type} [LinearOrderedField α] (pca : List (List α) → EigenSolver α)
    (R : List (List α)) : List α :=
  (VIF_final pca R).vif

/-- Embedding of `gcta::sbat_VIF_iter_rm_colin` (mbat.cpp:26-91); the eigen-solver is a parameter. -/
def sbat_VIF_iter_rm_colin {α : Type} [LinearOrderedField α]
    (pca : List (List α) → EigenSolver α) (R : List (List α)) : Int :=
  (VIF_final pca R).pos

/-! ## CorrelationBuilder: `make_cor_matrix` -/

/-- Dot product of columns `i` and `j` of the sample-by-variant matrix `X`. -/
def col_dot {α : Type} [LinearOrderedField α] (X : List (List α)) (i j : Nat) : α :=
  (X.map (fun row => row.getD i 0 * row.getD j 0)).sum

/-- Embedding of `gcta::make_cor_matrix` (mbat.cpp:177-199).  `X` is the matrix that
`make_XMat_subset` builds for `snp_indx` (one row per sample, one column per variant). -/
def make_cor_matrix {α : Type} [LinearOrderedField α] (sqrt : α → α) (X : List (List α))
    (snp_indx : List Nat) : List (List α) :=
  let msnps := snp_indx.length
  let sumsq_x := (List.range msnps).map (fun j => col_dot X j j)
  let C := (List.range msnps).map (fun i => (List.range msnps).map (fun j => col_dot X i j))
  (List.range msnps).map (fun i => (List.range msnps).map (fun j =>
    let d_buf := sqrt (sumsq_x.getD i 0 * sumsq_x.getD j 0)
    if d_buf > 0 then entry C i j / d_buf else 0))

/-! ## SignMismatchFilter driver: `beta_qc` -/

/-- The matrix `VR = C .* (beta * beta^T)` (mbat.cpp:214-215). -/
def beta_qc_VR {α : Type} [LinearOrderedField α] (C : List (List α)) (beta : List α) :
    List (List α) :=
  let B := beta.map (fun bi => beta.map (fun bj => bi * bj))
  List.zipWith (fun rowC rowB => List.zipWith (fun c b => c * b) rowC rowB) C B

/-- The value `off_num` (mbat.cpp:224). -/
def beta_qc_off_num {α : Type} [LinearOrderedField α] (msnps : Nat) : α :=
  1 / 2 * (msnps : α) * ((msnps : α) - 1)

/-- The mean `off_m` of the strictly lower triangle of `VR` (mbat.cpp:225-226). -/
def beta_qc_off_m {α : Type} [LinearOrderedField α] (VR : List (List α)) (msnps : Nat) : α :=
  (List.range' 1 (msnps - 1)).foldl (fun off_m i => off_m + ((VR.getD i []).take i).sum) 0
    / beta_qc_off_num msnps

/-- The variance `off_v` of the strictly lower triangle of `VR` (mbat.cpp:227-228).
For a set of two variants the source divides `0` by `off_num - 1 = 0` and obtains a NaN,
which makes every comparison in `rm_ld_inv_beta` false; in a field `0 / 0 = 0`, which
gives the same outcome whenever `sqrt 0 = 0`.  Sets of three or more variants never
divide by zero. -/
def beta_qc_off_v {α : Type} [LinearOrderedField α] (VR : List (List α)) (msnps : Nat)
    (off_m : α) : α :=
  (List.range' 1 (msnps - 1)).foldl
    (fun off_v i => off_v + (((VR.getD i []).take i).map (fun x => (x - off_m) * (x - off_m))).sum) 0
    / (beta_qc_off_num msnps - 1)

/-- Embedding of `gcta::beta_qc` (mbat.cpp:201-247): returns the updated structures and
`beta_inv_remain`.  When no variant remains the structures are returned untouched
(early `return` at mbat.cpp:240). -/
def beta_qc {α : Type} [LinearOrderedField α] (sqrt : α → α) (st : SetData α) :
    SetData α × Nat :=
  let VR := beta_qc_VR st.C st.snp_beta
  let msnps := (st.C.getD 0 []).length
  let off_m := beta_qc_off_m VR msnps
  let off_v := beta_qc_off_v VR msnps off_m
  let off_sd := sqrt off_v
  let rm := rm_ld_inv_beta VR msnps off_m off_sd [] [] []
  let new_C_indx := recalculate_ndx msnps rm.rm_ID0 []
  let beta_inv_remain := new_C_indx.length
  if new_C_indx.length = 0 then (st, beta_inv_remain)
  else (rebuild_matrix st new_C_indx, beta_inv_remain)

/-! ## The per-set pipeline: `sbat_multi_calcu_V` -/

/-- Routines that `sbat_multi_calcu_V` calls and that are not part of the repository
sources: `sqrt`, Eigen's self-adjoint eigen-solver, `comput_inverse_logdet_LDLT` (the
success flag and the matrix it leaves in `V`) and `StatFunc::pchisq`. -/
structure Lib (α : Type) where
  sqrt : α → α
  pca : List (List α) → EigenSolver α
  comput_inverse_logdet_LDLT : List (List α) → Bool × List (List α)
  pchisq : α → Nat → α

/-- The `for` loop inside the collinearity loop (mbat.cpp:149-151): the positions
other than `pos`. -/
def colin_new_C_indx (size : Nat) (pos : Int) : List Nat :=
  (List.range size).foldl
    (fun (new_C_indx : List Nat) (i : Nat) =>
      if pos ≠ (i : Int) then new_C_indx ++ [i] else new_C_indx) []

/-- What the collinearity loop leaves behind: the structures, the last keep list and
the number of iterations (`count`). -/
structure ColinOut (α : Type) where
  st : SetData α
  new_C_indx : List Nat
  count : Nat
deriving DecidableEq

/-- The `do .. while (pos > -1)` loop of `sbat_multi_calcu_V` (mbat.cpp:145-156), with a
bound on the number of iterations; `none` when the bound is reached before the loop
ends. -/
def colin_loop {α : Type} [LinearOrderedField α] (pca : List (List α) → EigenSolver α) :
    Nat → SetData α → Nat → Option (ColinOut α)
  | 0, _, _ => none
  | fuel + 1, st, count =>
    let pos := sbat_VIF_iter_rm_colin pca st.C
    let new_C_indx := colin_new_C_indx st.C.length pos
    let st := rebuild_matrix st new_C_indx
    let count := count + 1
    if pos > -1 then colin_loop pca fuel st count
    else some { st := st, new_C_indx := new_C_indx, count := count }

/-- Outputs of `sbat_multi_calcu_V`: the reference parameters `Vchisq`, `Vpvalue`,
`snp_count` and `snp_kept`, the local structures when the function returns, the stage
counts it prints, and whether the final test was reached. -/
structure CalcuOut (α : Type) where
  Vchisq : α
  Vpvalue : α
  snp_count : Nat
  snp_kept : List String
  st : SetData α
  beta_inv_remain : Nat
  pairwise_remain : Nat
  removed_colinear : Nat
  tested : Bool
deriving DecidableEq

/-- Quadratic form `beta^T * V * beta`. -/
def quad_form {α : Type} [LinearOrderedField α] (beta : List α) (V : List (List α)) : α :=
  ((List.range beta.length).map (fun i =>
    ((List.range beta.length).map (fun j => beta.getD i 0 * entry V i j * beta.getD j 0)).sum)).sum

/-- Embedding of `gcta::sbat_multi_calcu_V` (mbat.cpp:101-175).  `X` is the genotype
matrix that `make_XMat_subset` builds for `snp_indx`; `Vchisq`, `Vpvalue`, `snp_count`
and `snp_kept` are the incoming values of the reference parameters; `fuel` bounds the
iterations of the collinearity loop (`none` when it is exhausted).  The parameter
`set_A1` only feeds the report of `write_beta_summary` and is left out with it.  The
name list `snp_kept` is read at every set position (`sbat_multi_reads_ok`); the
embedding stands for the source where it has at least `snp_indx.size()` entries. -/
def sbat_multi_calcu_V {α : Type} [LinearOrderedField α] (lib : Lib α) (fuel : Nat)
    (X : List (List α)) (snp_indx : List Nat) (set_beta set_se : List α)
    (Vchisq Vpvalue : α) (snp_count : Nat) (snp_kept : List String) :
    Option (CalcuOut α) :=
  let maxRval : α := 9 / 10
  let new_cutoff := lib.sqrt maxRval
  let C := make_cor_matrix lib.sqrt X snp_indx
  let qc := beta_qc lib.sqrt { snp_beta := set_beta, snp_btse := set_se, snp_keep := snp_kept, C := C }
  let beta_inv_remain := qc.2
  if beta_inv_remain < 1 then
    some { Vchisq := Vchisq, Vpvalue := 2, snp_count := snp_count, snp_kept := qc.1.snp_keep,
           st := qc.1, beta_inv_remain := beta_inv_remain, pairwise_remain := 0,
           removed_colinear := 0, tested := false }
  else
    let msnps := beta_inv_remain
    let rm_ID1 := rm_cor_sbat qc.1.C new_cutoff msnps []
    let new_C_indx := recalculate_ndx msnps rm_ID1 []
    let st := rebuild_matrix qc.1 new_C_indx
    let pairwise_remain := new_C_indx.length
    match colin_loop lib.pca fuel st 0 with
    | none => none
    | some out =>
      let snp_count := out.new_C_indx.length
      let SE := out.st.snp_btse.map (fun a => out.st.snp_btse.map (fun b => a * b))
      let V := List.zipWith (fun rowS rowC => List.zipWith (fun x c => x * c) rowS rowC)
        SE out.st.C
      let V := (lib.comput_inverse_logdet_LDLT V).2
      let Vchisq := quad_form out.st.snp_beta V
      let Vpvalue := lib.pchisq Vchisq out.st.snp_beta.length
      some { Vchisq := Vchisq, Vpvalue := Vpvalue, snp_count := snp_count,
             snp_kept := out.st.snp_keep, st := out.st, beta_inv_remain := beta_inv_remain,
             pairwise_remain := pairwise_remain, removed_colinear := out.count - 1,
             tested := true }

/-! ## Specification-side vocabulary -/

/-- The pairs `(i, j)`, `j < i < m`, in the order in which the nested loops of the
filter stages visit them. -/
def lower_pairs (m : Nat) : List (Nat × Nat) :=
  (List.range m).flatMap (fun i => (List.range i).map (fun j => (i, j)))

/-- The pairs that `rm_ld_inv_beta` flags. -/
def beta_flagged {α : Type} [LinearOrderedField α] (VR : List (List α)) (m : Nat)
    (off_m off_sd : α) : List (Nat × Nat) :=
  (lower_pairs m).filter (fun p =>
    decide (entry VR p.1 p.2 < 0 ∧ entry VR p.1 p.2 - off_m < ((-STN_DEV : Int) : α) * off_sd))

/-- The violating pairs of `rm_cor_sbat`: `|R(i,j)| > R_cutoff`, `j < i < m`. -/
def cor_pairs {α : Type} [LinearOrderedField α] (R : List (List α)) (R_cutoff : α)
    (m : Nat) : List (Nat × Nat) :=
  (lower_pairs m).filter (fun p => decide (|entry R p.1 p.2| > R_cutoff))

/-- Incidence count of a position: the number of violating pairs it takes part in. -/
def cor_count {α : Type} [LinearOrderedField α] (R : List (List α)) (R_cutoff : α)
    (m : Nat) (x : Nat) : Nat :=
  ((cor_pairs R R_cutoff m).map Prod.fst).count x
    + ((cor_pairs R R_cutoff m).map Prod.snd).count x

/-- The member of a violating pair that `rm_cor_sbat` puts in the removal list. -/
def cor_choice {α : Type} [LinearOrderedField α] (R : List (List α)) (R_cutoff : α)
    (m : Nat) (p : Nat × Nat) : Nat :=
  if cor_count R R_cutoff m p.1 < cor_count R R_cutoff m p.2 then p.2 else p.1

/-- Shape of a correlation matrix of `n` variants: `n` rows of `n` cells and a unit
diagonal. -/
def unit_diag_square {α : Type} [LinearOrderedField α] (n : Nat) (C : List (List α)) : Prop :=
  C.length = n ∧ (∀ row ∈ C, row.length = n) ∧ ∀ i, i < n → entry C i i = 1

/-- The structures `st` are what is left of the structures `st0` at the strictly
ascending list `K` of original positions (all below `m`), in the same order. -/
def selects {α : Type} [LinearOrderedField α] (st0 : SetData α) (m : Nat) (K : List Nat)
    (st : SetData α) : Prop :=
  K.Pairwise (· < ·) ∧ (∀ a ∈ K, a < m) ∧
  st.snp_beta = K.map (fun a => st0.snp_beta.getD a 0) ∧
  st.snp_btse = K.map (fun a => st0.snp_btse.getD a 0) ∧
  st.snp_keep = K.map (fun a => st0.snp_keep.getD a "") ∧
  st.C.length = K.length

/-! ## Concrete inputs used in the evaluations -/

/-- A positive definite correlation matrix of three variants whose strictly lower
triangle `-1/2, 3/16, 5/16` has mean `0` and sample standard deviation `7/16`. -/
def C_band : List (List ℚ) :=
  [[1, -1/2, 3/16], [-1/2, 1, 5/16], [3/16, 5/16, 1]]

/-- An eigen-solver that is exact on diagonal matrices: the diagonal as eigenvalues,
the identity as eigenvectors. -/
def pca_diag (R : List (List ℚ)) : EigenSolver ℚ :=
  { eigenvalues := (List.range R.length).map (fun i => entry R i i)
    eigenvectors := as_diagonal R.length (List.replicate R.length 1) }

/-- Library routines for the evaluations: a `sqrt` that is exact on `0` and `1`, the
solver `pca_diag`, an inverse that is exact on the identity, and a constant tail
probability. -/
def lib_unit : Lib ℚ :=
  { sqrt := fun x => x
    pca := pca_diag
    comput_inverse_logdet_LDLT := fun V => (true, V)
    pchisq := fun _ _ => 1 / 2 }

/-- Two variants with correlation `19/20`, above the cutoff `9/10`. -/
def R_pair : List (List ℚ) :=
  [[1, 19/20], [19/20, 1]]

/-- Four variants on a cycle: neighbours correlate at `19/20`, opposite variants at
`23/25`; with eigenvalues `191/50`, `2/25`, `2/25`, `1/50` the matrix is a positive
definite correlation matrix. -/
def R_cycle : List (List ℚ) :=
  [[1, 19/20, 23/25, 19/20], [19/20, 1, 19/20, 23/25], [23/25, 19/20, 1, 19/20],
   [19/20, 23/25, 19/20, 1]]

/-- The output vectors of `rm_ld_inv_beta` as `beta_qc` obtains them (mbat.cpp:214-234). -/
def beta_qc_rm {α : Type} [LinearOrderedField α] (sqrt : α → α) (st : SetData α) :
    BetaPairs :=
  let VR := beta_qc_VR st.C st.snp_beta
  let msnps := (st.C.getD 0 []).length
  let off_m := beta_qc_off_m VR msnps
  let off_v := beta_qc_off_v VR msnps off_m
  let off_sd := sqrt off_v
  rm_ld_inv_beta VR msnps off_m off_sd [] [] []

/-- Newton iteration for the integer square root, from a guess `g` that is not below
the root. -/
def isqrt_iter (n : Nat) : Nat → Nat → Nat
  | 0, g => g
  | fuel + 1, g => if (g + n / g) / 2 < g then isqrt_iter n fuel ((g + n / g) / 2) else g

/-- Integer square root (rounded down), for the evaluations. -/
def isqrt (n : Nat) : Nat :=
  if n ≤ 1 then n else isqrt_iter n 200 n

/-- A rational square root for the evaluations: exact on the squares of rationals,
and otherwise rounded down by less than `1/10000`. -/
def sqrt_rat (x : ℚ) : ℚ :=
  (isqrt (x.num.toNat * x.den * 100000000) : ℚ) / ((x.den : ℚ) * 10000)

/-- Library routines for the evaluations, with the square root `sqrt_rat`. -/
def lib_rat : Lib ℚ :=
  { sqrt := sqrt_rat
    pca := pca_diag
    comput_inverse_logdet_LDLT := fun V => (true, V)
    pchisq := fun _ _ => 1 / 2 }

/-- Genotypes of four samples at two variants with unit sums of squares and dot
product `-9/10`: the correlation matrix is `[[1, -9/10], [-9/10, 1]]`. -/
def X_neg : List (List ℚ) :=
  [[1, -9/10], [0, 3/10], [0, 3/10], [0, 1/10]]

/-- A positive definite (diagonally dominant) correlation matrix of seven variants:
the pair `(1, 0)` correlates at `-1/10`, the pair `(6, 5)` at `-4/5`, all other pairs
are uncorrelated. -/
def C_twice : List (List ℚ) :=
  [[1, -1/10, 0, 0, 0, 0, 0], [-1/10, 1, 0, 0, 0, 0, 0], [0, 0, 1, 0, 0, 0, 0],
   [0, 0, 0, 1, 0, 0, 0], [0, 0, 0, 0, 1, 0, 0], [0, 0, 0, 0, 0, 1, -4/5],
   [0, 0, 0, 0, 0, -4/5, 1]]

/-- The leading `5 x 5` block of `C_twice`. -/
def C_twice_block : List (List ℚ) :=
  [[1, -1/10, 0, 0, 0], [-1/10, 1, 0, 0, 0], [0, 0, 1, 0, 0], [0, 0, 0, 1, 0],
   [0, 0, 0, 0, 1]]

/-- Genotypes of five samples at two variants with unit sums of squares and dot
product `19/20`: the correlation matrix is `[[1, 19/20], [19/20, 1]]`. -/
def X_pos : List (List ℚ) :=
  [[1, 19/20], [0, 1/4], [0, 3/20], [0, 1/10], [0, 1/20]]

/-- The `n x n` identity matrix. -/
def identity_matrix {α : Type} [LinearOrderedField α] (n : Nat) : List (List α) :=
  (List.range n).map (fun i => (List.range n).map (fun j => if i = j then 1 else 0))

/-- An inverse routine that is exact on diagonal matrices with non-zero diagonal. -/
def inv_diag (V : List (List ℚ)) : Bool × List (List ℚ) :=
  (true, as_diagonal V.length ((List.range V.length).map (fun i => 1 / entry V i i)))

/-- Library routines for the evaluations on diagonal matrices: the square root
`sqrt_rat`, the solver `pca_diag`, the inverse `inv_diag` and a constant tail
probability. -/
def lib_diag : Lib ℚ :=
  { sqrt := sqrt_rat
    pca := pca_diag
    comput_inverse_logdet_LDLT := inv_diag
    pchisq := fun _ _ => 1 / 2 }

/-- Genotypes of three samples at three variants, one carrier each: the correlation
matrix is the `3 x 3` identity. -/
def X_id3 : List (List ℚ) :=
  [[1, 0, 0], [0, 1, 0], [0, 0, 1]]

/-- Genotypes of eight samples at eight variants in four blocks of two: within a block
the two columns have unit sums of squares and dot product `-3/5`, columns of different
blocks are orthogonal. -/
def X_blocks : List (List ℚ) :=
  [[1, -3/5, 0, 0, 0, 0, 0, 0], [0, 4/5, 0, 0, 0, 0, 0, 0],
   [0, 0, 1, -3/5, 0, 0, 0, 0], [0, 0, 0, 4/5, 0, 0, 0, 0],
   [0, 0, 0, 0, 1, -3/5, 0, 0], [0, 0, 0, 0, 0, 4/5, 0, 0],
   [0, 0, 0, 0, 0, 0, 1, -3/5], [0, 0, 0, 0, 0, 0, 0, 4/5]]

/-- A correlation matrix of six variants: the pairs `(1, 0)` and `(3, 2)` correlate at
`-3/5`, all other pairs are uncorrelated. -/
def C_pairs : List (List ℚ) :=
  [[1, -3/5, 0, 0, 0, 0], [-3/5, 1, 0, 0, 0, 0], [0, 0, 1, -3/5, 0, 0],
   [0, 0, -3/5, 1, 0, 0], [0, 0, 0, 0, 1, 0], [0, 0, 0, 0, 0, 1]]

/-- Twenty thousand distinct variant names. -/
@[irreducible]
def names_20000 : List String :=
  (List.range 20000).map (fun k => "rs" ++ Nat.repr k)

/-! ## The driver: `sbat_multi` -/

/-- Lookup in `snp_name_map` (mbat.cpp:376, 382): the map is filled with
`insert(pair(snp_name[i], i))` for ascending `i`, which keeps the first position of a
name that occurs more than once. -/
def snp_name_map_find (snp_name : List String) (s : String) : Option Nat :=
  List.lookup s (List.zip snp_name (List.range snp_name.length))

/-- The vector `snp_indx` of a set (mbat.cpp:380-384): the positions of the members
that are found in `snp_name_map`, in the order of the set. -/
def sbat_multi_snp_indx (snp_name : List String) (snpset_i : List String) : List Nat :=
  snpset_i.filterMap (snp_name_map_find snp_name)

/-- One call of `sbat_multi_calcu_V` from `sbat_multi` (mbat.cpp:415): the loop index
`i` and the arguments that are passed. -/
structure CalcuCall (α : Type) where
  i : Nat
  snp_indx : List Nat
  set_beta : List α
  set_se : List α
  snp_kept : List String
  set_A1 : List String
deriving DecidableEq

/-- The variables of `sbat_multi` that change in its main loop, together with the
trace of the calls of `sbat_multi_calcu_V`. -/
structure MultiState (α : Type) where
  snp_name : List String
  set_A1 : List String
  Vchisq : α
  Vpvalue : α
  snp_count : Nat
  set_pval : List α
  chisq_o : List α
  snp_num_in_set : List Nat
  num_snp_tested : List Nat
  calls : List (CalcuCall α)
deriving DecidableEq

/-- The condition `skip` of the main loop (mbat.cpp:378-390): the set is empty, or
more than 20000 of its members are mapped. -/
def sbat_multi_skip (snp_name_map : List String) (snpset_i : List String) : Bool :=
  decide (snpset_i.length < 1) ||
    decide ((sbat_multi_snp_indx snp_name_map snpset_i).length > 20000)

/-- The reads of one iteration of the main loop that the source does not check: the
association vectors at the mapped positions (`snp_beta[snp_indx[ii]]`,
`snp_btse[snp_indx[ii]]`, `snp_A1[snp_indx[ii]]`, mbat.cpp:404-409) and, inside
`sbat_multi_calcu_V`, the name list `snp_kept` at every set position: `beta_qc` reads
it at the members of the flagged pairs in `write_beta_summary` (mbat.cpp:311-317) and
at the kept positions in `rebuild_matrix` (mbat.cpp:274), which together are all
positions below `snp_indx.size()`.  A read outside a vector is undefined behaviour. -/
def sbat_multi_reads_ok {α : Type} (snp_A1 : List String) (snp_beta snp_btse : List α)
    (snp_name : List String) (snp_indx : List Nat) : Bool :=
  snp_indx.all (fun k =>
      decide (k < snp_beta.length) && decide (k < snp_btse.length) &&
        decide (k < snp_A1.length)) &&
    decide (snp_indx.length ≤ snp_name.length)

/-- One iteration of the main loop of `sbat_multi` (mbat.cpp:377-420).  `XMat` is
`make_XMat_subset`, `snp_name_map` the name list from which the map was filled before
the loop.  The result is `none` where the source reads outside a vector: `snpset[i]`
beyond the list of sets, or one of the reads of `sbat_multi_reads_ok`; inside their
range the reads with a default are the reads of the source.  The collinearity loop is
given one iteration more than the set has members, which is always enough
(`sbat_multi_calcu_V_returns`). -/
def sbat_multi_step {α : Type} [LinearOrderedField α] (lib : Lib α)
    (XMat : List Nat → List (List α)) (snp_name_map snp_A1 : List String)
    (snp_beta snp_btse : List α) (snpset : List (List String))
    (s : MultiState α) (i : Nat) : Option (MultiState α) :=
  if i < snpset.length then
    let snpset_i := snpset.getD i []
    let snp_indx := sbat_multi_snp_indx snp_name_map snpset_i
    if sbat_multi_skip snp_name_map snpset_i then
      some { s with set_pval := s.set_pval.set i 2, snp_num_in_set := (s.snp_num_in_set.set i snp_indx.length).set i 0, num_snp_tested := s.num_snp_tested.set i 0 }
    else if sbat_multi_reads_ok snp_A1 snp_beta snp_btse s.snp_name snp_indx then
      let set_beta := snp_indx.map (fun k => snp_beta.getD k 0)
      let set_se := snp_indx.map (fun k => snp_btse.getD k 0)
      let set_A1 := s.set_A1 ++ snp_indx.map (fun k => snp_A1.getD k "")
      let call : CalcuCall α := ⟨i, snp_indx, set_beta, set_se, s.snp_name, set_A1⟩
      match sbat_multi_calcu_V lib (snp_indx.length + 1) (XMat snp_indx) snp_indx set_beta
          set_se s.Vchisq s.Vpvalue 0 s.snp_name with
      | none => none
      | some out =>
        some ⟨out.snp_kept, set_A1, out.Vchisq, out.Vpvalue, out.snp_count,
          s.set_pval.set i out.Vpvalue, (s.chisq_o.set i 0).set i out.Vchisq,
          s.snp_num_in_set.set i snp_indx.length, s.num_snp_tested.set i out.snp_count,
          s.calls ++ [call]⟩
    else none
  else none

/-- The first `n` iterations of the main loop of `sbat_multi` from the state `s0`;
`none` as soon as an iteration reads outside a vector. -/
def sbat_multi_fold {α : Type} [LinearOrderedField α] (lib : Lib α)
    (XMat : List Nat → List (List α)) (snp_name_map snp_A1 : List String)
    (snp_beta snp_btse : List α) (snpset : List (List String))
    (s0 : MultiState α) (n : Nat) : Option (MultiState α) :=
  (List.range n).foldl
    (fun (r : Option (MultiState α)) (i : Nat) =>
      r.bind (fun s => sbat_multi_step lib XMat snp_name_map snp_A1 snp_beta snp_btse snpset s i))
    (some s0)

/-- The main loop of `sbat_multi` (mbat.cpp:371-420) from the state in which the
result vectors have `set_num` zero entries. -/
def sbat_multi_loop {α : Type} [LinearOrderedField α] (lib : Lib α)
    (XMat : List Nat → List (List α)) (snp_name snp_A1 : List String)
    (snp_beta snp_btse : List α) (snpset : List (List String)) (set_num : Nat) :
    Option (MultiState α) :=
  sbat_multi_fold lib XMat snp_name snp_A1 snp_beta snp_btse snpset
    ⟨snp_name, [], 0, 0, 0, List.replicate set_num 0, List.replicate set_num 0,
      List.replicate set_num 0, List.replicate set_num 0, []⟩ set_num

/-- A line of the result file (mbat.cpp:434), with the loop index `i` at which it is
written. -/
structure MbatRow (α : Type) where
  i : Nat
  set_name : String
  snp_num_in_set : Nat
  num_snp_tested : Nat
  chisq_o : α
  set_pval : α
deriving DecidableEq

/-- The lines written by the output loop of `sbat_multi` (mbat.cpp:432-435). -/
def sbat_multi_rows {α : Type} [LinearOrderedField α] (set_name : List String)
    (s : MultiState α) : List (MbatRow α) :=
  (List.range set_name.length).foldl
    (fun (rows : List (MbatRow α)) (i : Nat) =>
      if s.set_pval.getD i 0 > 3 / 2 then rows
      else rows ++ [⟨i, set_name.getD i "", s.snp_num_in_set.getD i 0,
        s.num_snp_tested.getD i 0, s.chisq_o.getD i 0, s.set_pval.getD i 0⟩]) []

/-- Embedding of `gcta::sbat_multi` (mbat.cpp:341-436): `set_name` and `snpset` are
what `sbat_read_snpset` returns, the four association vectors what
`sbat_multi_read_snpAssoc` returns.  The result is the final state of the main loop
and the lines of the result file, written after the loop; it is `none` when the main
loop reads outside a vector, where the behaviour of the source is undefined and no
line is written by a run that stops there. -/
def sbat_multi {α : Type} [LinearOrderedField α] (lib : Lib α)
    (XMat : List Nat → List (List α)) (snp_name snp_A1 : List String)
    (snp_beta snp_btse : List α) (set_name : List String) (snpset : List (List String)) :
    Option (MultiState α × List (MbatRow α)) :=
  (sbat_multi_loop lib XMat snp_name snp_A1 snp_beta snp_btse snpset set_name.length).map
    (fun s => (s, sbat_multi_rows set_name s))

/-- A genotype matrix with one sample that carries every variant. -/
def XMat_ones (snp_indx : List Nat) : List (List ℚ) :=
  [snp_indx.map (fun _ => 1)]

/-! ## Reading the association records: `sbat_multi_read_snpAssoc` -/

/-- One line of the association file after `split_string` and `atof` (mbat.cpp:463-470):
the name `vs_buf[0]`, the alleles `vs_buf[1]` and `vs_buf[2]`, the effect `vs_buf[4]`,
the standard error `vs_buf[5]` and the p-value `vs_buf[6]`.  The frequency `vs_buf[3]`
and the eighth field are read but never used; a line without eight fields raises an
exception and is not modelled. -/
structure AssocRecord (α : Type) where
  name : String
  A1 : String
  A2 : String
  beta : α
  se : α
  pval : α
deriving DecidableEq

/-- The vectors that the reading loop of `sbat_multi_read_snpAssoc` fills, with the
member `_ref_A` that it updates.  The members `_other_A` and `_mu` and the lists of
rejected variants do not feed the outputs and are left out. -/
structure AssocBuf (α : Type) where
  ref_A : List String
  snp_name : List String
  snp_beta : List α
  snp_btse : List α
  snp_pval : List α
  snp_A1 : List String
deriving DecidableEq

/-- One iteration of the reading loop (mbat.cpp:463-527).  `snp_name_map`, `allele1`
and `allele2` are the members `_snp_name_map`, `_allele1` and `_allele2`.  A record is
dropped when its name is not in the map or one of its alleles is not an allele of the
reference variant; otherwise `_ref_A` is set to the reference allele that equals `A1`
and the record is appended to the five vectors. -/
def read_snpAssoc_line {α : Type} (snp_name_map : List (String × Nat))
    (allele1 allele2 : List String) (s : AssocBuf α) (r : AssocRecord α) : AssocBuf α :=
  match List.lookup r.name snp_name_map with
  | none => s
  | some i =>
    if r.A1 ≠ allele1.getD i "" ∧ r.A1 ≠ allele2.getD i "" then s
    else if r.A2 ≠ allele1.getD i "" ∧ r.A2 ≠ allele2.getD i "" then s
    else
      let ref_A :=
        if r.A1 = allele1.getD i "" then s.ref_A.set i (allele1.getD i "")
        else if r.A1 = allele2.getD i "" then s.ref_A.set i (allele2.getD i "")
        else s.ref_A
      ⟨ref_A, s.snp_name ++ [r.name], s.snp_beta ++ [r.beta], s.snp_btse ++ [r.se],
        s.snp_pval ++ [r.pval], s.snp_A1 ++ [ref_A.getD i ""]⟩

/-- The vectors after the reading loop (mbat.cpp:463-527), before the removal of
repeated names. -/
def read_snpAssoc_loop {α : Type} (snp_name_map : List (String × Nat))
    (allele1 allele2 ref_A : List String) (records : List (AssocRecord α)) : AssocBuf α :=
  records.foldl (read_snpAssoc_line snp_name_map allele1 allele2) ⟨ref_A, [], [], [], [], []⟩

/-- The buffers `snp_name_buf`, `snp_beta_buf`, `snp_btse_buf`, `snp_pval_buf` and
`snp_A1_buf` (mbat.cpp:533, 548-552): `erase(unique(..))` is applied to `snp_name`
only. -/
def read_snpAssoc_buffers {α : Type} (snp_name_map : List (String × Nat))
    (allele1 allele2 ref_A : List String) (records : List (AssocRecord α)) : AssocBuf α :=
  let s := read_snpAssoc_loop snp_name_map allele1 allele2 ref_A records
  { s with snp_name := unique s.snp_name }

/-- The output vectors of `sbat_multi_read_snpAssoc`. -/
structure AssocOut (α : Type) where
  snp_name : List String
  snp_pval : List α
  snp_beta : List α
  snp_btse : List α
  snp_A1 : List String
deriving DecidableEq

/-- Embedding of `gcta::sbat_multi_read_snpAssoc` (mbat.cpp:438-573).  `records` are
the lines of the file, `gcta_snp_name` is the member `_snp_name` and `gcta_include` the
member `_include` as `update_id_map_kp` leaves it (a routine outside these sources).
The map `snp_name_buf_map` is filled like `snp_name_map` of `sbat_multi`, so
`snp_name_map_find` is its lookup.  The result is `none` when the name of an included
variant is not in `snp_name_buf_map`, where the source dereferences `end()`.  The
outputs `snp_chr` and `snp_bp` are copies of members and are left out. -/
def sbat_multi_read_snpAssoc {α : Type} [Zero α] (snp_name_map : List (String × Nat))
    (allele1 allele2 ref_A gcta_snp_name : List String) (gcta_include : List Nat)
    (records : List (AssocRecord α)) : Option (AssocOut α) :=
  let buf := read_snpAssoc_buffers snp_name_map allele1 allele2 ref_A records
  let iters := gcta_include.map
    (fun k => snp_name_map_find buf.snp_name (gcta_snp_name.getD k ""))
  if iters.all Option.isSome then
    some ⟨iters.map (fun it => buf.snp_name.getD (it.getD 0) ""),
      iters.map (fun it => buf.snp_pval.getD (it.getD 0) 0),
      iters.map (fun it => buf.snp_beta.getD (it.getD 0) 0),
      iters.map (fun it => buf.snp_btse.getD (it.getD 0) 0),
      iters.map (fun it => buf.snp_A1.getD (it.getD 0) "")⟩
  else none

/-- Three lines of an association file: two consecutive lines for `rs1` (the second
with the alleles exchanged) and one line for `rs2`. -/
def records_dup : List (AssocRecord ℚ) :=
  [⟨"rs1", "A", "G", 1, 1 / 10, 1 / 2⟩, ⟨"rs1", "G", "A", 2, 1 / 5, 1 / 4⟩,
   ⟨"rs2", "C", "T", 3, 3 / 10, 1 / 8⟩]

end gcta

namespace gcta

/-! ## Properties of `recalculate_ndx` -/

/-- Loop invariant of `recalculate_ndx` after the iterations `0 .. n-1`. -/
theorem recalculate_ndx_invariant (rm : List Nat) (hs : rm.Pairwise (· < ·)) (n : Nat) :
    let st := (List.range n).foldl (recalculate_ndx_step rm) (0, [])
    st.2 = (List.range n).filter (fun i => decide (i ∉ rm)) ∧
    st.1 ≤ rm.length ∧
    (∀ k (hk : k < rm.length), k < st.1 ↔ rm[k] < n) ∧
    st.2.length + st.1 = n := by
  induction n with
  | zero => simp
  | succ n ih =>
    simp only [List.range_succ, List.foldl_append, List.foldl_cons, List.foldl_nil,
      List.filter_append] at ih ⊢
    obtain ⟨h1, h2, h3, h4⟩ := ih
    generalize (List.range n).foldl (recalculate_ndx_step rm) (0, []) = st at h1 h2 h3 h4
    obtain ⟨alt, out⟩ := st
    simp only at h1 h2 h3 h4
    have hmono : ∀ i j (hi : i < rm.length) (hj : j < rm.length), i < j → rm[i] < rm[j] :=
      List.pairwise_iff_getElem.mp hs
    unfold recalculate_ndx_step
    by_cases hlt : rm.length > alt
    · have hge : n ≤ rm[alt] := by
        by_contra hc
        have := (h3 alt hlt).mpr (by omega)
        omega
      by_cases heq : rm[alt] = n
      · have hmem : n ∈ rm := heq ▸ List.getElem_mem hlt
        simp only [hlt, heq, dite_true, if_true]
        refine ⟨?_, by omega, ?_, by omega⟩
        · simp [h1, hmem]
        · intro k hk
          constructor
          · intro hka
            by_cases hk2 : k < alt
            · have := (h3 k hk).mp hk2; omega
            · have : k = alt := by omega
              subst this; omega
          · intro hr
            by_contra hc
            have := hmono alt k hlt hk (by omega)
            omega
      · have hnot : n ∉ rm := by
          intro hmem
          obtain ⟨k, hk, hkn⟩ := List.getElem_of_mem hmem
          by_cases hk2 : k < alt
          · have := (h3 k hk).mp hk2; omega
          · by_cases hk3 : k = alt
            · subst hk3; exact heq hkn
            · have := hmono alt k hlt hk (by omega); omega
        simp only [hlt, heq, dite_true, if_false]
        refine ⟨?_, h2, ?_, by simp; omega⟩
        · simp [h1, hnot]
        · intro k hk
          constructor
          · intro hka
            have := (h3 k hk).mp hka; omega
          · intro hr
            by_contra hc
            by_cases hk3 : k = alt
            · subst hk3; omega
            · have := hmono alt k hlt hk (by omega); omega
    · have hnot : n ∉ rm := by
        intro hmem
        obtain ⟨k, hk, hkn⟩ := List.getElem_of_mem hmem
        have := (h3 k hk).mp (by omega)
        omega
      simp only [hlt, dite_false]
      refine ⟨?_, h2, ?_, by simp; omega⟩
      · simp [h1, hnot]
      · intro k hk
        constructor
        · intro _
          have := (h3 k hk).mp (by omega); omega
        · intro _; omega

/-- Position of `alt` when the loop of `recalculate_ndx` ends: the whole removal list
has been consumed. -/
theorem recalculate_ndx_alt_end (msnps : Nat) (rm : List Nat)
    (hsorted : rm.Pairwise (· < ·)) (hrange : ∀ x ∈ rm, x < msnps) :
    ((List.range msnps).foldl (recalculate_ndx_step rm) (0, [])).1 = rm.length := by
  have hinv := recalculate_ndx_invariant rm hsorted msnps
  simp only at hinv
  obtain ⟨_, h2, h3, _⟩ := hinv
  by_contra hne
  have hlt : ((List.range msnps).foldl (recalculate_ndx_step rm) (0, [])).1
      < rm.length := by omega
  have := (h3 _ hlt).mpr (hrange _ (List.getElem_mem hlt))
  omega

/-- The keep list computed by `recalculate_ndx`, as a filter of `0 .. msnps-1`. -/
theorem recalculate_ndx_filter (msnps : Nat) (rm prev : List Nat)
    (hsorted : rm.Pairwise (· < ·)) :
    recalculate_ndx msnps rm prev = (List.range msnps).filter (fun i => decide (i ∉ rm)) := by
  unfold recalculate_ndx
  simp only [List.take_zero]
  exact (recalculate_ndx_invariant rm hsorted msnps).1

/-- The keep list computed by `recalculate_ndx` is strictly ascending. -/
theorem recalculate_ndx_strict (msnps : Nat) (rm prev : List Nat)
    (hsorted : rm.Pairwise (· < ·)) :
    (recalculate_ndx msnps rm prev).Pairwise (· < ·) := by
  rw [recalculate_ndx_filter msnps rm prev hsorted]
  exact (List.pairwise_lt_range msnps).filter _

/-- Membership in the keep list computed by `recalculate_ndx`. -/
theorem mem_recalculate_ndx (msnps : Nat) (rm prev : List Nat)
    (hsorted : rm.Pairwise (· < ·)) (a : Nat) :
    a ∈ recalculate_ndx msnps rm prev ↔ a < msnps ∧ a ∉ rm := by
  rw [recalculate_ndx_filter msnps rm prev hsorted, List.mem_filter, List.mem_range]
  simp

/-! ## Properties of `rebuild_matrix` -/

/-- A loop that overwrites the cells listed in `l` (each once) with a value computed
from the previous content of the cell. -/
theorem foldl_set_getElem? {β : Type} (F : Nat → β → β) (d : β) (l : List Nat)
    (hl : l.Nodup) (v : List β) (n : Nat) :
    (l.foldl (fun v i => v.set i (F i (v.getD i d))) v)[n]?
      = if n ∈ l ∧ n < v.length then some (F n (v.getD n d)) else v[n]? := by
  induction l generalizing v with
  | nil => simp
  | cons a t ih =>
    rw [List.nodup_cons] at hl
    rw [List.foldl_cons, ih hl.2]
    simp only [List.length_set, List.mem_cons, List.getD_eq_getElem?_getD, List.getElem?_set]
    by_cases hnt : n ∈ t
    · have hna : a ≠ n := fun h => hl.1 (h ▸ hnt)
      simp [hnt, hna]
    · by_cases hna : a = n
      · subst hna
        by_cases hlen : a < v.length
        · simp [hnt, hlen]
        · simp [hnt, hlen]
          omega
      · have hna2 : ¬ n = a := fun h => hna h.symm
        simp [hnt, hna, hna2]

/-- Length is unchanged by a loop of cell assignments. -/
theorem foldl_set_length {β : Type} (F : Nat → β → β) (d : β) (l : List Nat) (v : List β) :
    (l.foldl (fun v i => v.set i (F i (v.getD i d))) v).length = v.length := by
  induction l generalizing v with
  | nil => rfl
  | cons a t ih => rw [List.foldl_cons, ih]; simp

/-- Filling every cell `0 .. k-1` of a vector of size `k` yields the tabulated values. -/
theorem foldl_set_range {β : Type} (F : Nat → β → β) (d : β) (k : Nat) (v : List β)
    (hv : v.length = k) :
    (List.range k).foldl (fun v i => v.set i (F i (v.getD i d))) v
      = (List.range k).map (fun i => F i (v.getD i d)) := by
  apply List.ext_getElem?
  intro n
  rw [foldl_set_getElem? F d _ (List.nodup_range k), List.getElem?_map]
  by_cases hn : n < k
  · simp [hn, hv, List.getElem?_range hn]
  · have h1 : v[n]? = none := List.getElem?_eq_none (by omega)
    have h2 : (List.range k)[n]? = none := List.getElem?_eq_none (by simp; omega)
    simp [hn, h1, h2]

/-- The inner loop of `rebuild_matrix` rewrites row `i` only. -/
theorem rebuild_matrix_row_eq {α : Type} [Zero α] (C : List (List α)) (idx : List Nat)
    (i : Nat) (D : List (List α)) :
    rebuild_matrix_row C idx i D
      = D.set i ((List.range idx.length).foldl
          (fun r j => r.set j (entry C (idx.getD i 0) (idx.getD j 0))) (D.getD i [])) := by
  unfold rebuild_matrix_row
  generalize List.range idx.length = l
  induction l generalizing D with
  | nil =>
    simp only [List.foldl_nil]
    apply List.ext_getElem?
    intro n
    rw [List.getElem?_set, List.getD_eq_getElem?_getD]
    by_cases hn : i = n
    · subst hn
      by_cases hlen : i < D.length
      · simp [hlen, List.getElem?_eq_getElem hlen]
      · simp [hlen, List.getElem?_eq_none (Nat.le_of_not_lt hlen)]
    · simp [hn]
  | cons a t ih =>
    rw [List.foldl_cons, ih, List.foldl_cons]
    unfold setEntry
    by_cases hlen : i < D.length
    · have h1 : (D.set i ((D.getD i []).set a (entry C (idx.getD i 0) (idx.getD a 0)))).getD i []
          = (D.getD i []).set a (entry C (idx.getD i 0) (idx.getD a 0)) := by
        rw [List.getD_eq_getElem?_getD, List.getElem?_set]
        simp [hlen]
      rw [h1, List.set_set]
    · have h0 : ∀ r, D.set i r = D := fun r => by
        apply List.ext_getElem?
        intro n
        rw [List.getElem?_set]
        by_cases hn : i = n
        · subst hn; simp [hlen, List.getElem?_eq_none (Nat.le_of_not_lt hlen)]
        · simp [hn]
      simp only [h0]

/-- Projections of the outer loop of `rebuild_matrix`: each structure is updated by
its own loop. -/
theorem rebuild_matrix_fold {α : Type} [Zero α] (old : SetData α) (idx : List Nat)
    (l : List Nat) (s : SetData α) :
    (l.foldl (rebuild_matrix_step old idx) s).snp_beta
        = l.foldl (fun v i => v.set i
            ((fun i (_ : α) => old.snp_beta.getD (idx.getD i 0) 0) i (v.getD i 0))) s.snp_beta ∧
      (l.foldl (rebuild_matrix_step old idx) s).snp_btse
        = l.foldl (fun v i => v.set i
            ((fun i (_ : α) => old.snp_btse.getD (idx.getD i 0) 0) i (v.getD i 0))) s.snp_btse ∧
      (l.foldl (rebuild_matrix_step old idx) s).snp_keep
        = s.snp_keep ++ l.map (fun i => old.snp_keep.getD (idx.getD i 0) "") ∧
      (l.foldl (rebuild_matrix_step old idx) s).C
        = l.foldl (fun D i => D.set i
            ((fun i (row : List α) => (List.range idx.length).foldl
              (fun r j => r.set j (entry old.C (idx.getD i 0) (idx.getD j 0))) row)
              i (D.getD i []))) s.C := by
  induction l generalizing s with
  | nil => simp
  | cons a t ih =>
    simp only [List.foldl_cons, List.map_cons]
    obtain ⟨h1, h2, h3, h4⟩ := ih (rebuild_matrix_step old idx s a)
    refine ⟨h1, h2, ?_, ?_⟩
    · rw [h3]; simp [rebuild_matrix_step]
    · rw [h4]; simp only [rebuild_matrix_step, rebuild_matrix_row_eq]

/-- Tabulating over the positions of a list is mapping over the list. -/
theorem map_range_getD {β γ : Type} (idx : List β) (d : β) (f : β → γ) :
    (List.range idx.length).map (fun i => f (idx.getD i d)) = idx.map f := by
  apply List.ext_getElem?
  intro n
  simp only [List.getElem?_map]
  by_cases hn : n < idx.length
  · simp [List.getElem?_range hn, List.getD_eq_getElem?_getD, List.getElem?_eq_getElem hn]
  · have h1 : idx[n]? = none := List.getElem?_eq_none (by omega)
    have h2 : (List.range idx.length)[n]? = none := List.getElem?_eq_none (by simp; omega)
    simp [h1, h2]

/-- Closed form of `rebuild_matrix`: every structure is re-indexed through the keep list. -/
theorem rebuild_matrix_eq {α : Type} [Zero α] (st : SetData α) (idx : List Nat) :
    rebuild_matrix st idx =
      { snp_beta := idx.map (fun a => st.snp_beta.getD a 0)
        snp_btse := idx.map (fun a => st.snp_btse.getD a 0)
        snp_keep := idx.map (fun a => st.snp_keep.getD a "")
        C := idx.map (fun a => idx.map (fun b => entry st.C a b)) } := by
  unfold rebuild_matrix
  obtain ⟨h1, h2, h3, h4⟩ := rebuild_matrix_fold st idx (List.range idx.length)
    { snp_beta := List.replicate idx.length 0
      snp_btse := List.replicate idx.length 0
      snp_keep := []
      C := List.replicate idx.length (List.replicate idx.length 0) }
  have b1 := foldl_set_range (fun i (_ : α) => st.snp_beta.getD (idx.getD i 0) 0) 0
    idx.length (List.replicate idx.length 0) (by simp)
  have b2 := foldl_set_range (fun i (_ : α) => st.snp_btse.getD (idx.getD i 0) 0) 0
    idx.length (List.replicate idx.length 0) (by simp)
  have b4 := foldl_set_range (fun i (row : List α) => (List.range idx.length).foldl
      (fun r j => r.set j (entry st.C (idx.getD i 0) (idx.getD j 0))) row) []
    idx.length (List.replicate idx.length (List.replicate idx.length 0)) (by simp)
  rw [b1] at h1
  rw [b2] at h2
  rw [b4] at h4
  have e1 := map_range_getD idx 0 (fun a => st.snp_beta.getD a 0)
  have e2 := map_range_getD idx 0 (fun a => st.snp_btse.getD a 0)
  have e3 := map_range_getD idx 0 (fun a => st.snp_keep.getD a "")
  have e4 := map_range_getD idx 0 (fun a => idx.map (fun b => entry st.C a b))
  simp only at h1 h2 h3 h4 e1 e2 e3 e4
  generalize (List.range idx.length).foldl (rebuild_matrix_step st idx) _ = r at h1 h2 h3 h4
  obtain ⟨rb, rs, rk, rC⟩ := r
  simp only at h1 h2 h3 h4
  simp only [SetData.mk.injEq]
  refine ⟨by rw [h1, e1], by rw [h2, e2], by rw [h3]; simpa using e3, ?_⟩
  rw [h4, ← e4]
  apply List.map_congr_left
  intro i hi
  rw [List.mem_range] at hi
  have hrow : (List.replicate idx.length (List.replicate idx.length (0 : α))).getD i []
      = List.replicate idx.length 0 := by
    rw [List.getD_eq_getElem?_getD, List.getElem?_replicate]
    simp [hi]
  rw [hrow]
  have := foldl_set_range (fun j (_ : α) => entry st.C (idx.getD i 0) (idx.getD j 0)) 0
    idx.length (List.replicate idx.length 0) (by simp)
  simp only at this
  rw [this]
  exact map_range_getD idx 0 (fun b => entry st.C (idx.getD i 0) b)

/-- C1: for a strictly ascending removal list with entries in `[0, msnps)`,
`recalculate_ndx` returns exactly the ascending list of the positions of
`[0, msnps)` that are not removed; its length is `msnps - |rm_ID1|` and the
previous content of the output vector plays no role. -/
theorem recalculate_ndx_complement (msnps : Nat) (rm_ID1 prev : List Nat)
    (hsorted : rm_ID1.Pairwise (· < ·)) (hrange : ∀ x ∈ rm_ID1, x < msnps) :
    recalculate_ndx msnps rm_ID1 prev
        = (List.range msnps).filter (fun i => decide (i ∉ rm_ID1)) ∧
      (recalculate_ndx msnps rm_ID1 prev).length = msnps - rm_ID1.length := by
  have hinv := recalculate_ndx_invariant rm_ID1 hsorted msnps
  simp only at hinv
  obtain ⟨h1, _, _, h4⟩ := hinv
  have hall := recalculate_ndx_alt_end msnps rm_ID1 hsorted hrange
  unfold recalculate_ndx
  simp only [List.take_zero]
  refine ⟨h1, ?_⟩
  omega

/-- Witness for C1: removing positions 1 and 3 out of 5 keeps 0, 2, 4. -/
theorem recalculate_ndx_complement_witness :
    recalculate_ndx 5 [1, 3] [7, 7]
        = (List.range 5).filter (fun i => decide (i ∉ [1, 3])) ∧
      (recalculate_ndx 5 [1, 3] [7, 7]).length = 5 - [1, 3].length :=
  recalculate_ndx_complement 5 [1, 3] [7, 7] (by decide) (by decide)

/-- Reading a valid position with a default yields the stored value. -/
theorem some_getD_of_lt {β : Type} (l : List β) (d : β) (a : Nat) (h : a < l.length) :
    some (l.getD a d) = l[a]? := by
  rw [List.getD_eq_getElem?_getD, List.getElem?_eq_getElem h]
  rfl

/-- A matrix cell that exists is the one read by `entry`. -/
theorem some_entry_of_isSome {α : Type} [Zero α] (C : List (List α)) (a b : Nat)
    (h : (entry? C a b).isSome) : some (entry C a b) = entry? C a b := by
  unfold entry? at h ⊢
  unfold entry
  rw [List.getD_eq_getElem?_getD, List.getD_eq_getElem?_getD]
  cases hr : C[a]? with
  | none => simp [hr] at h
  | some row =>
    simp only [hr, Option.some_bind] at h ⊢
    cases hc : row[b]? with
    | none => simp [hc] at h
    | some x => simp [hc]

/-- C2: after `rebuild_matrix` with a keep list of `k` valid positions, the effect
sizes, the standard errors, the names and the correlation matrix all have size `k`
(the matrix is `k x k`), and position `i` (cell `(i,j)`) holds what position
`new_C_indx[i]` (cell `(new_C_indx[i], new_C_indx[j])`) held before the call. -/
theorem rebuild_matrix_lockstep {α : Type} [Zero α] (st : SetData α) (new_C_indx : List Nat)
    (hb : ∀ a ∈ new_C_indx, a < st.snp_beta.length)
    (hs : ∀ a ∈ new_C_indx, a < st.snp_btse.length)
    (hk : ∀ a ∈ new_C_indx, a < st.snp_keep.length)
    (hC : ∀ a ∈ new_C_indx, ∀ b ∈ new_C_indx, (entry? st.C a b).isSome) :
    (rebuild_matrix st new_C_indx).snp_beta.length = new_C_indx.length ∧
    (rebuild_matrix st new_C_indx).snp_btse.length = new_C_indx.length ∧
    (rebuild_matrix st new_C_indx).snp_keep.length = new_C_indx.length ∧
    (rebuild_matrix st new_C_indx).C.length = new_C_indx.length ∧
    (∀ row ∈ (rebuild_matrix st new_C_indx).C, row.length = new_C_indx.length) ∧
    ∀ i (hi : i < new_C_indx.length),
      (rebuild_matrix st new_C_indx).snp_beta[i]? = st.snp_beta[new_C_indx[i]]? ∧
      (rebuild_matrix st new_C_indx).snp_btse[i]? = st.snp_btse[new_C_indx[i]]? ∧
      (rebuild_matrix st new_C_indx).snp_keep[i]? = st.snp_keep[new_C_indx[i]]? ∧
      ∀ j (hj : j < new_C_indx.length),
        entry? (rebuild_matrix st new_C_indx).C i j
          = entry? st.C new_C_indx[i] new_C_indx[j] := by
  rw [rebuild_matrix_eq]
  refine ⟨by simp, by simp, by simp, by simp, ?_, ?_⟩
  · intro row hrow
    simp only [List.mem_map] at hrow
    obtain ⟨a, _, rfl⟩ := hrow
    simp
  · intro i hi
    have hmi : new_C_indx[i] ∈ new_C_indx := List.getElem_mem hi
    refine ⟨?_, ?_, ?_, ?_⟩
    · simp only [List.getElem?_map, List.getElem?_eq_getElem hi, Option.map_some']
      exact some_getD_of_lt _ _ _ (hb _ hmi)
    · simp only [List.getElem?_map, List.getElem?_eq_getElem hi, Option.map_some']
      exact some_getD_of_lt _ _ _ (hs _ hmi)
    · simp only [List.getElem?_map, List.getElem?_eq_getElem hi, Option.map_some']
      exact some_getD_of_lt _ _ _ (hk _ hmi)
    · intro j hj
      have hmj : new_C_indx[j] ∈ new_C_indx := List.getElem_mem hj
      rw [← some_entry_of_isSome _ _ _ (hC _ hmi _ hmj)]
      simp [entry?, List.getElem?_eq_getElem hi, List.getElem?_eq_getElem hj]

/-- Witness for C2: keeping positions 0 and 2 of a three-variant set. -/
theorem rebuild_matrix_lockstep_witness :
    (rebuild_matrix (⟨[1, 2, 3], [4, 5, 6], ["a", "b", "c"],
        [[1, 0, 0], [0, 1, 0], [0, 0, 1]]⟩ : SetData ℚ) [0, 2]).snp_beta.length = 2 ∧
    (rebuild_matrix (⟨[1, 2, 3], [4, 5, 6], ["a", "b", "c"],
        [[1, 0, 0], [0, 1, 0], [0, 0, 1]]⟩ : SetData ℚ) [0, 2]).snp_keep[1]? = some "c" := by
  have h := rebuild_matrix_lockstep (⟨[1, 2, 3], [4, 5, 6], ["a", "b", "c"],
      [[1, 0, 0], [0, 1, 0], [0, 0, 1]]⟩ : SetData ℚ) [0, 2]
    (by decide) (by decide) (by decide) (by decide)
  exact ⟨h.1, (h.2.2.2.2.2 1 (by decide)).2.2.1⟩

/-! ## Sorting helpers -/

/-- `unique` neither adds nor loses values. -/
theorem mem_unique {β : Type} [DecidableEq β] (x : β) :
    ∀ l : List β, x ∈ unique l ↔ x ∈ l
  | [] => by simp [unique]
  | [a] => by simp [unique]
  | a :: b :: t => by
    have ih := mem_unique x (b :: t)
    unfold unique
    by_cases hab : a = b
    · subst hab
      simp only [if_true, ih, List.mem_cons]
      tauto
    · simp only [hab, if_false, List.mem_cons] at ih ⊢
      rw [ih]

/-- On an ascending list `unique` leaves a strictly ascending list. -/
theorem unique_strict : ∀ l : List Nat, l.Pairwise (· ≤ ·) → (unique l).Pairwise (· < ·)
  | [], _ => by simp [unique]
  | [a], _ => by simp [unique]
  | a :: b :: t, h => by
    have ht : (b :: t).Pairwise (· ≤ ·) := (List.pairwise_cons.mp h).2
    have ih := unique_strict (b :: t) ht
    unfold unique
    by_cases hab : a = b
    · simp only [hab, if_true]
      exact ih
    · simp only [hab, if_false, List.pairwise_cons]
      refine ⟨?_, ih⟩
      intro x hx
      rw [mem_unique] at hx
      have hax : a ≤ b := (List.pairwise_cons.mp h).1 b (by simp)
      have hbx : b ≤ x := by
        rcases List.mem_cons.mp hx with rfl | hx2
        · exact le_refl _
        · exact (List.pairwise_cons.mp ht).1 x hx2
      omega

/-- Sorting and deduplicating yields a strictly ascending list. -/
theorem unique_stable_sort_strict (l : List Nat) :
    (unique (stable_sort l)).Pairwise (· < ·) :=
  unique_strict _ (List.sorted_insertionSort (· ≤ ·) l)

/-- Sorting and deduplicating keeps the set of values. -/
theorem mem_unique_stable_sort (l : List Nat) (x : Nat) :
    x ∈ unique (stable_sort l) ↔ x ∈ l := by
  rw [mem_unique]
  exact (List.perm_insertionSort (· ≤ ·) l).mem_iff

/-- Writing a cell with the value it holds changes nothing. -/
theorem set_getD_self {β : Type} (l : List β) (i : Nat) (d : β) : l.set i (l.getD i d) = l := by
  apply List.ext_getElem?
  intro n
  rw [List.getElem?_set, List.getD_eq_getElem?_getD]
  by_cases hn : i = n
  · subst hn
    by_cases hlen : i < l.length
    · simp [hlen, List.getElem?_eq_getElem hlen]
    · simp [hlen, List.getElem?_eq_none (Nat.le_of_not_lt hlen)]
  · simp [hn]

/-! ## The nested loops over the strictly lower triangle -/

/-- The two nested `for` loops `i < m`, `j < i` visit `lower_pairs m` in order. -/
theorem nested_foldl_lower_pairs {σ : Type} (body : Nat → σ → Nat → σ) (m : Nat) (s : σ) :
    (List.range m).foldl (fun s i => (List.range i).foldl (body i) s) s
      = (lower_pairs m).foldl (fun s p => body p.1 s p.2) s := by
  unfold lower_pairs List.flatMap
  rw [List.foldl_flatten, List.foldl_map]
  simp only [List.foldl_map]

/-- Membership in `lower_pairs`. -/
theorem mem_lower_pairs (m : Nat) (p : Nat × Nat) :
    p ∈ lower_pairs m ↔ p.2 < p.1 ∧ p.1 < m := by
  unfold lower_pairs
  simp only [List.mem_flatMap, List.mem_range, List.mem_map]
  constructor
  · rintro ⟨i, hi, j, hj, rfl⟩
    exact ⟨hj, hi⟩
  · rintro ⟨h1, h2⟩
    exact ⟨p.1, h2, p.2, h1, rfl⟩

/-! ## Closed form of `rm_ld_inv_beta` -/

/-- The pushes of `rm_ld_inv_beta` over a list of visited pairs. -/
theorem rm_ld_inv_beta_fold {α : Type} [LinearOrderedField α] (VR : List (List α))
    (off_m off_sd : α) (l : List (Nat × Nat)) (s : BetaPairs) :
    l.foldl (fun s p => rm_ld_inv_beta_body VR off_m off_sd p.1 s p.2) s
      = { rm_ID0 := s.rm_ID0 ++ (l.filter (fun p => decide (entry VR p.1 p.2 < 0 ∧
              entry VR p.1 p.2 - off_m < ((-STN_DEV : Int) : α) * off_sd))).flatMap
                (fun p => [p.1, p.2])
          rm_IDi := s.rm_IDi ++ (l.filter (fun p => decide (entry VR p.1 p.2 < 0 ∧
              entry VR p.1 p.2 - off_m < ((-STN_DEV : Int) : α) * off_sd))).map Prod.fst
          rm_IDj := s.rm_IDj ++ (l.filter (fun p => decide (entry VR p.1 p.2 < 0 ∧
              entry VR p.1 p.2 - off_m < ((-STN_DEV : Int) : α) * off_sd))).map Prod.snd } := by
  induction l generalizing s with
  | nil => simp
  | cons p t ih =>
    rw [List.foldl_cons, ih]
    by_cases hP : entry VR p.1 p.2 < 0 ∧
        entry VR p.1 p.2 - off_m < ((-STN_DEV : Int) : α) * off_sd
    · have hb : rm_ld_inv_beta_body VR off_m off_sd p.1 s p.2
          = { rm_ID0 := s.rm_ID0 ++ [p.1] ++ [p.2]
              rm_IDi := s.rm_IDi ++ [p.1]
              rm_IDj := s.rm_IDj ++ [p.2] } := by
        unfold rm_ld_inv_beta_body
        rw [if_pos hP.1, if_pos hP.2]
      rw [hb, List.filter_cons_of_pos (by simpa using hP)]
      simp [List.flatMap_cons]
    · have hb : rm_ld_inv_beta_body VR off_m off_sd p.1 s p.2 = s := by
        unfold rm_ld_inv_beta_body
        by_cases h1 : entry VR p.1 p.2 < 0
        · rw [if_pos h1, if_neg (fun h2 => hP ⟨h1, h2⟩)]
        · rw [if_neg h1]
      rw [hb, List.filter_cons_of_neg (by simpa using hP)]

/-- Closed form of `rm_ld_inv_beta` started from empty vectors: `rm_IDi`/`rm_IDj` list
the flagged pairs and `rm_ID0` is the sorted, deduplicated list of their members. -/
theorem rm_ld_inv_beta_eq {α : Type} [LinearOrderedField α] (VR : List (List α)) (m : Nat)
    (off_m off_sd : α) :
    rm_ld_inv_beta VR m off_m off_sd [] [] []
      = { rm_ID0 := unique (stable_sort
            ((beta_flagged VR m off_m off_sd).flatMap (fun p => [p.1, p.2])))
          rm_IDi := (beta_flagged VR m off_m off_sd).map Prod.fst
          rm_IDj := (beta_flagged VR m off_m off_sd).map Prod.snd } := by
  unfold rm_ld_inv_beta beta_flagged
  rw [nested_foldl_lower_pairs (rm_ld_inv_beta_body VR off_m off_sd), rm_ld_inv_beta_fold]
  simp

/-! ## Closed form of `rm_cor_sbat` -/

/-- The pushes of `rm_cor_sbat` over a list of visited pairs. -/
theorem rm_cor_sbat_fold {α : Type} [LinearOrderedField α] (R : List (List α)) (c : α)
    (l : List (Nat × Nat)) (s : List Nat × List Nat) :
    l.foldl (fun s p => rm_cor_sbat_body R c p.1 s p.2) s
      = (s.1 ++ (l.filter (fun p => decide (|entry R p.1 p.2| > c))).map Prod.fst,
         s.2 ++ (l.filter (fun p => decide (|entry R p.1 p.2| > c))).map Prod.snd) := by
  induction l generalizing s with
  | nil => simp
  | cons p t ih =>
    rw [List.foldl_cons, ih]
    by_cases hP : |entry R p.1 p.2| > c
    · have hb : rm_cor_sbat_body R c p.1 s p.2 = (s.1 ++ [p.1], s.2 ++ [p.2]) := by
        unfold rm_cor_sbat_body
        simp only [if_pos hP]
      rw [hb, List.filter_cons_of_pos (by simpa using hP)]
      simp
    · have hb : rm_cor_sbat_body R c p.1 s p.2 = s := by
        unfold rm_cor_sbat_body
        simp only [if_neg hP]
      rw [hb, List.filter_cons_of_neg (by simpa using hP)]

/-- Looking a key up in the table built by tabulating `f` over the keys `U`. -/
theorem lookup_map_pair (f : Nat → Nat) (key : Nat) (U : List Nat) :
    (U.map (fun x => (x, f x))).lookup key = if key ∈ U then some (f key) else none := by
  induction U with
  | nil => simp
  | cons a t ih =>
    rw [List.map_cons, List.lookup_cons, ih]
    by_cases h : key = a
    · subst h; simp
    · have h2 : (key == a) = false := by simpa using h
      simp [h2, h]

/-- The count table of `rm_cor_sbat` returns, for every key, its number of
occurrences in the two pair lists. -/
theorem rm_uni_ID_count_find_eq (l1 l2 : List Nat) (key : Nat) :
    rm_uni_ID_count_find
        ((unique (stable_sort (l1 ++ l2))).map (fun x => (x, l1.count x + l2.count x))) key
      = l1.count key + l2.count key := by
  unfold rm_uni_ID_count_find
  rw [lookup_map_pair (fun x => l1.count x + l2.count x)]
  by_cases h : key ∈ unique (stable_sort (l1 ++ l2))
  · simp [h]
  · have h2 : key ∉ l1 ++ l2 := fun hm => h ((mem_unique_stable_sort _ _).mpr hm)
    rw [List.mem_append, not_or] at h2
    simp [h, List.count_eq_zero.mpr h2.1, List.count_eq_zero.mpr h2.2]

/-- Reading a cell after an assignment. -/
theorem getD_set {β : Type} (l : List β) (i n : Nat) (x d : β) :
    (l.set i x).getD n d = if i = n ∧ n < l.length then x else l.getD n d := by
  rw [List.getD_eq_getElem?_getD, List.getD_eq_getElem?_getD, List.getElem?_set]
  by_cases h : i = n
  · subst h
    by_cases hl : i < l.length
    · simp [hl]
    · simp [hl, List.getElem?_eq_none (Nat.le_of_not_lt hl)]
  · simp [h]

/-- One step of the swapping loop, as a pair of cell assignments. -/
theorem rm_cor_sbat_swap_eq (cnt : List (Nat × Nat)) (s : List Nat × List Nat) (i : Nat) :
    rm_cor_sbat_swap cnt s i
      = (s.1.set i (if rm_uni_ID_count_find cnt (s.1.getD i 0)
            < rm_uni_ID_count_find cnt (s.2.getD i 0) then s.2.getD i 0 else s.1.getD i 0),
         s.2.set i (if rm_uni_ID_count_find cnt (s.1.getD i 0)
            < rm_uni_ID_count_find cnt (s.2.getD i 0) then s.1.getD i 0 else s.2.getD i 0)) := by
  unfold rm_cor_sbat_swap
  by_cases h : rm_uni_ID_count_find cnt (s.1.getD i 0) < rm_uni_ID_count_find cnt (s.2.getD i 0)
  · simp only [if_pos h]
  · simp only [if_neg h, set_getD_self]

/-- A loop that rewrites, at each visited position, the cells of two parallel vectors
from their previous content. -/
theorem foldl_set_pair (g1 g2 : Nat → Nat → Nat) (l : List Nat) (hl : l.Nodup)
    (l1 l2 : List Nat) (hlen : l1.length = l2.length) (n : Nat) (hn : n < l1.length) :
    (l.foldl (fun s i => (s.1.set i (g1 (s.1.getD i 0) (s.2.getD i 0)),
        s.2.set i (g2 (s.1.getD i 0) (s.2.getD i 0)))) (l1, l2)).1.length = l1.length ∧
    (l.foldl (fun s i => (s.1.set i (g1 (s.1.getD i 0) (s.2.getD i 0)),
        s.2.set i (g2 (s.1.getD i 0) (s.2.getD i 0)))) (l1, l2)).1.getD n 0
      = (if n ∈ l then g1 (l1.getD n 0) (l2.getD n 0) else l1.getD n 0) ∧
    (l.foldl (fun s i => (s.1.set i (g1 (s.1.getD i 0) (s.2.getD i 0)),
        s.2.set i (g2 (s.1.getD i 0) (s.2.getD i 0)))) (l1, l2)).2.getD n 0
      = (if n ∈ l then g2 (l1.getD n 0) (l2.getD n 0) else l2.getD n 0) := by
  induction l generalizing l1 l2 with
  | nil => simp
  | cons a t ih =>
    rw [List.nodup_cons] at hl
    rw [List.foldl_cons]
    obtain ⟨h1, h3, h4⟩ := ih hl.2 (l1.set a (g1 (l1.getD a 0) (l2.getD a 0)))
      (l2.set a (g2 (l1.getD a 0) (l2.getD a 0))) (by simp [hlen]) (by simpa using hn)
    have hn2 : n < l2.length := hlen ▸ hn
    refine ⟨by rw [h1]; simp, ?_, ?_⟩
    · rw [h3]
      simp only [getD_set, List.mem_cons]
      by_cases hnt : n ∈ t
      · have hna : ¬ a = n := fun h => hl.1 (h ▸ hnt)
        simp [hnt, hna]
      · by_cases hna : a = n
        · subst hna
          simp [hnt, hn]
        · have hna2 : ¬ n = a := fun h => hna h.symm
          simp [hnt, hna, hna2]
    · rw [h4]
      simp only [getD_set, List.mem_cons]
      by_cases hnt : n ∈ t
      · have hna : ¬ a = n := fun h => hl.1 (h ▸ hnt)
        simp [hnt, hna]
      · by_cases hna : a = n
        · subst hna
          simp [hnt, hn2]
        · have hna2 : ¬ n = a := fun h => hna h.symm
          simp [hnt, hna, hna2]

/-- The rewriting loop over two parallel vectors keeps their sizes. -/
theorem foldl_set_pair_length (g1 g2 : Nat → Nat → Nat) (l : List Nat) (l1 l2 : List Nat) :
    (l.foldl (fun s i => (s.1.set i (g1 (s.1.getD i 0) (s.2.getD i 0)),
        s.2.set i (g2 (s.1.getD i 0) (s.2.getD i 0)))) (l1, l2)).1.length = l1.length := by
  induction l generalizing l1 l2 with
  | nil => simp
  | cons a t ih => rw [List.foldl_cons, ih]; simp

/-- Closed form of `rm_cor_sbat` started from an empty vector: the sorted, deduplicated
list of the members chosen from the violating pairs. -/
theorem rm_cor_sbat_eq {α : Type} [LinearOrderedField α] (R : List (List α)) (c : α)
    (m : Nat) :
    rm_cor_sbat R c m []
      = unique (stable_sort ((cor_pairs R c m).map (cor_choice R c m))) := by
  unfold rm_cor_sbat
  simp only
  rw [nested_foldl_lower_pairs (rm_cor_sbat_body R c), rm_cor_sbat_fold]
  simp only [List.nil_append]
  rw [show (lower_pairs m).filter (fun p => decide (|entry R p.1 p.2| > c)) = cor_pairs R c m
    from rfl]
  have hstep : rm_cor_sbat_swap
      ((unique (stable_sort ((cor_pairs R c m).map Prod.fst ++ (cor_pairs R c m).map Prod.snd))).map
        (fun x => (x, ((cor_pairs R c m).map Prod.fst).count x
          + ((cor_pairs R c m).map Prod.snd).count x)))
      = fun s i => (s.1.set i (if cor_count R c m (s.1.getD i 0) < cor_count R c m (s.2.getD i 0)
            then s.2.getD i 0 else s.1.getD i 0),
          s.2.set i (if cor_count R c m (s.1.getD i 0) < cor_count R c m (s.2.getD i 0)
            then s.1.getD i 0 else s.2.getD i 0)) := by
    funext s i
    rw [rm_cor_sbat_swap_eq]
    simp only [rm_uni_ID_count_find_eq]
    rfl
  rw [hstep]
  congr 2
  apply List.ext_getElem
  · exact (foldl_set_pair_length
      (fun a b => if cor_count R c m a < cor_count R c m b then b else a)
      (fun a b => if cor_count R c m a < cor_count R c m b then a else b)
      (List.range ((cor_pairs R c m).map Prod.fst).length)
      ((cor_pairs R c m).map Prod.fst) ((cor_pairs R c m).map Prod.snd)).trans (by simp)
  · intro n hn1 hn2
    simp only [List.length_map] at hn2
    have h3 := (foldl_set_pair
      (fun a b => if cor_count R c m a < cor_count R c m b then b else a)
      (fun a b => if cor_count R c m a < cor_count R c m b then a else b)
      (List.range ((cor_pairs R c m).map Prod.fst).length) (List.nodup_range _)
      ((cor_pairs R c m).map Prod.fst) ((cor_pairs R c m).map Prod.snd) (by simp) n
      (by simpa using hn2)).2.1
    rw [List.getD_eq_getElem _ _ hn1] at h3
    rw [h3]
    have hn3 : n ∈ List.range ((cor_pairs R c m).map Prod.fst).length := by
      simp [hn2]
    simp only [hn3, if_true]
    have e1 : ((cor_pairs R c m).map Prod.fst).getD n 0 = ((cor_pairs R c m)[n]).1 := by
      rw [List.getD_eq_getElem _ _ (by simpa using hn2)]; simp
    have e2 : ((cor_pairs R c m).map Prod.snd).getD n 0 = ((cor_pairs R c m)[n]).2 := by
      rw [List.getD_eq_getElem _ _ (by simpa using hn2)]; simp
    rw [e1, e2, List.getElem_map]
    rfl

/-! ## Well-formed removal lists -/

/-- Every position chosen by `rm_cor_sbat` belongs to a violating pair, hence is below `m`. -/
theorem cor_choice_lt {α : Type} [LinearOrderedField α] (R : List (List α)) (c : α)
    (m : Nat) (p : Nat × Nat) (hp : p ∈ cor_pairs R c m) : cor_choice R c m p < m := by
  have hp2 := (mem_lower_pairs m p).mp (List.mem_of_mem_filter hp)
  unfold cor_choice
  split <;> omega

/-- The removal list of `rm_cor_sbat` is strictly ascending. -/
theorem rm_cor_sbat_strict {α : Type} [LinearOrderedField α] (R : List (List α)) (c : α)
    (m : Nat) : (rm_cor_sbat R c m []).Pairwise (· < ·) := by
  rw [rm_cor_sbat_eq]
  exact unique_stable_sort_strict _

/-- The removal list of `rm_ld_inv_beta` is strictly ascending. -/
theorem rm_ld_inv_beta_strict {α : Type} [LinearOrderedField α] (VR : List (List α))
    (m : Nat) (off_m off_sd : α) :
    ((rm_ld_inv_beta VR m off_m off_sd [] [] []).rm_ID0).Pairwise (· < ·) := by
  rw [rm_ld_inv_beta_eq]
  exact unique_stable_sort_strict _

/-- C3: the removal list `rm_ID0` of `rm_ld_inv_beta` and the removal list `rm_ID1` of
`rm_cor_sbat` (both started from empty vectors) are strictly ascending and all their
entries lie in `[0, m)`, whatever the matrix, the size and the thresholds. -/
theorem removal_lists_well_formed {α : Type} [LinearOrderedField α] (VR R : List (List α))
    (m : Nat) (off_m off_sd R_cutoff : α) :
    ((rm_ld_inv_beta VR m off_m off_sd [] [] []).rm_ID0).Pairwise (· < ·) ∧
    (∀ x ∈ (rm_ld_inv_beta VR m off_m off_sd [] [] []).rm_ID0, x < m) ∧
    (rm_cor_sbat R R_cutoff m []).Pairwise (· < ·) ∧
    (∀ x ∈ rm_cor_sbat R R_cutoff m [], x < m) := by
  rw [rm_ld_inv_beta_eq, rm_cor_sbat_eq]
  refine ⟨unique_stable_sort_strict _, ?_, unique_stable_sort_strict _, ?_⟩
  · intro x hx
    rw [mem_unique_stable_sort, List.mem_flatMap] at hx
    obtain ⟨p, hp, hxp⟩ := hx
    have hp2 := (mem_lower_pairs m p).mp (List.mem_of_mem_filter hp)
    simp only [List.mem_cons, List.mem_singleton, List.not_mem_nil, or_false] at hxp
    rcases hxp with rfl | rfl <;> omega
  · intro x hx
    rw [mem_unique_stable_sort, List.mem_map] at hx
    obtain ⟨p, hp, rfl⟩ := hx
    exact cor_choice_lt R R_cutoff m p hp

/-! ## Pairwise pruning leaves no over-correlated pair -/

/-- Every violating pair has a member in the removal list of `rm_cor_sbat`. -/
theorem rm_cor_sbat_covers {α : Type} [LinearOrderedField α] (R : List (List α)) (c : α)
    (m i j : Nat) (hji : j < i) (him : i < m) (hv : |entry R i j| > c) :
    i ∈ rm_cor_sbat R c m [] ∨ j ∈ rm_cor_sbat R c m [] := by
  have hp : (i, j) ∈ cor_pairs R c m := by
    unfold cor_pairs
    rw [List.mem_filter]
    exact ⟨(mem_lower_pairs m (i, j)).mpr ⟨hji, him⟩, by simpa using hv⟩
  have hch : cor_choice R c m (i, j) ∈ rm_cor_sbat R c m [] := by
    rw [rm_cor_sbat_eq, mem_unique_stable_sort]
    exact List.mem_map_of_mem _ hp
  unfold cor_choice at hch
  simp only at hch
  split at hch
  · exact Or.inr hch
  · exact Or.inl hch

/-- C4: for a symmetric `m x m` matrix `R` and any cutoff, with `rm` the list produced by
`rm_cor_sbat` and `keep = recalculate_ndx(m, rm)`, every two distinct kept positions
satisfy `|R(a,b)| <= cutoff`; equivalently every violating pair `(i, j)`, `j < i < m`,
has at least one member in `rm`. -/
theorem rm_cor_sbat_no_correlated_pair {α : Type} [LinearOrderedField α]
    (R : List (List α)) (R_cutoff : α) (m : Nat)
    (hsym : ∀ i j, i < m → j < m → entry R i j = entry R j i) :
    (∀ a ∈ recalculate_ndx m (rm_cor_sbat R R_cutoff m []) [],
      ∀ b ∈ recalculate_ndx m (rm_cor_sbat R R_cutoff m []) [],
        a ≠ b → |entry R a b| ≤ R_cutoff) ∧
    (∀ i j, j < i → i < m → |entry R i j| > R_cutoff →
      i ∈ rm_cor_sbat R R_cutoff m [] ∨ j ∈ rm_cor_sbat R R_cutoff m []) := by
  have hs := rm_cor_sbat_strict R R_cutoff m
  refine ⟨?_, fun i j hji him hv => rm_cor_sbat_covers R R_cutoff m i j hji him hv⟩
  intro a ha b hb hab
  rw [mem_recalculate_ndx m _ [] hs] at ha hb
  have hna := ha.2
  have hnb := hb.2
  by_contra hgt
  rw [not_le] at hgt
  rcases Nat.lt_or_gt_of_ne hab with hlt | hlt
  · have hv : |entry R b a| > R_cutoff := by rw [← hsym a b ha.1 hb.1]; exact hgt
    rcases rm_cor_sbat_covers R R_cutoff m b a hlt hb.1 hv with h | h
    · exact hnb h
    · exact hna h
  · rcases rm_cor_sbat_covers R R_cutoff m a b hlt ha.1 hgt with h | h
    · exact hna h
    · exact hnb h

/-! ## The threshold of the sign-mismatch filter -/

/-- The threshold constant of `rm_ld_inv_beta` is `1`: the literal `1.96` is stored in an `int`. -/
theorem STN_DEV_eq : STN_DEV = 1 := by
  unfold STN_DEV double_to_int
  norm_num [Int.floor_eq_iff]

/-- The flag rule that `rm_ld_inv_beta` applies: a pair `(i, j)`, `j < i < m`, is flagged
exactly when `VR(i,j) < 0` and `VR(i,j) - off_m < -off_sd`. -/
theorem mem_beta_flagged {α : Type} [LinearOrderedField α] (VR : List (List α)) (m : Nat)
    (off_m off_sd : α) (p : Nat × Nat) :
    p ∈ beta_flagged VR m off_m off_sd
      ↔ (p.2 < p.1 ∧ p.1 < m) ∧ entry VR p.1 p.2 < 0 ∧ entry VR p.1 p.2 - off_m < -off_sd := by
  unfold beta_flagged
  rw [List.mem_filter, mem_lower_pairs, STN_DEV_eq]
  simp

/-- C5, the code at the failing input: for the three-variant matrix `C_band` with unit
effect sizes, `off_m = 0` and `off_sd = 7/16` are the mean and the sample standard
deviation of the strictly lower triangle of `VR`; the pair `(1, 0)` has
`VR(1,0) - off_m = -1/2`, which is not below `-1.96 * off_sd`, yet `rm_ld_inv_beta`
flags it and puts both positions in the removal list. -/
theorem rm_ld_inv_beta_flags_inside_band :
    beta_qc_VR C_band [1, 1, 1] = C_band ∧
    beta_qc_off_m C_band 3 = 0 ∧
    beta_qc_off_v C_band 3 0 = 7 / 16 * (7 / 16) ∧
    ¬ (entry C_band 1 0 - 0 < -(196 / 100) * (7 / 16)) ∧
    rm_ld_inv_beta C_band 3 0 (7 / 16) [] [] []
      = { rm_ID0 := [0, 1], rm_IDi := [1], rm_IDj := [0] } := by
  refine ⟨?_, ?_, ?_, ?_, ?_⟩
  · norm_num [beta_qc_VR, C_band]
  · norm_num [beta_qc_off_m, beta_qc_off_num, C_band, List.range']
  · norm_num [beta_qc_off_v, beta_qc_off_num, C_band, List.range']
  · norm_num [entry, C_band]
  · rw [rm_ld_inv_beta_eq]
    have h : beta_flagged C_band 3 0 (7 / 16) = [(1, 0)] := by
      unfold beta_flagged
      rw [STN_DEV_eq]
      simp [lower_pairs, List.range_succ, List.filter_cons, entry, C_band]
      norm_num
    rw [h]
    decide

/-- Witness for C4: two variants with correlation `19/20` and cutoff `9/10`. -/
theorem rm_cor_sbat_no_correlated_pair_witness :
    (∀ a ∈ recalculate_ndx 2 (rm_cor_sbat R_pair (9 / 10) 2 []) [],
      ∀ b ∈ recalculate_ndx 2 (rm_cor_sbat R_pair (9 / 10) 2 []) [],
        a ≠ b → |entry R_pair a b| ≤ 9 / 10) ∧
    (∀ i j, j < i → i < 2 → |entry R_pair i j| > 9 / 10 →
      i ∈ rm_cor_sbat R_pair (9 / 10) 2 [] ∨ j ∈ rm_cor_sbat R_pair (9 / 10) 2 []) :=
  rm_cor_sbat_no_correlated_pair R_pair (9 / 10) 2 (by
    intro i j hi hj
    interval_cases i <;> interval_cases j <;> rfl)

/-! ## Return rule of one collinearity step -/

/-- Invariant of the last loop of `sbat_VIF_iter_rm_colin` after the iterations
`0 .. k-1`, for a vector `vif` of size `n`. -/
theorem VIF_fold_invariant {α : Type} [LinearOrderedField α] (multi : List α) (n k : Nat)
    (hk : k ≤ n) :
    ((List.range k).foldl (VIF_step multi)
        { vif := List.replicate n 0, max := 0, pos := -1 }).vif.length = n ∧
    (∀ j, j < k → ((List.range k).foldl (VIF_step multi)
        { vif := List.replicate n 0, max := 0, pos := -1 }).vif.getD j 0
          = VIF_value (multi.getD j 0)) ∧
    ((((List.range k).foldl (VIF_step multi)
          { vif := List.replicate n 0, max := 0, pos := -1 }).pos = -1 ∧
        ((List.range k).foldl (VIF_step multi)
          { vif := List.replicate n 0, max := 0, pos := -1 }).max = 0 ∧
        ∀ j, j < k → VIF_value (multi.getD j 0) ≤ 10) ∨
      ∃ p : Nat, p < k ∧
        ((List.range k).foldl (VIF_step multi)
          { vif := List.replicate n 0, max := 0, pos := -1 }).pos = (p : Int) ∧
        ((List.range k).foldl (VIF_step multi)
          { vif := List.replicate n 0, max := 0, pos := -1 }).max
            = VIF_value (multi.getD p 0) ∧
        10 < VIF_value (multi.getD p 0) ∧
        (∀ j, j < k → VIF_value (multi.getD j 0) ≤ VIF_value (multi.getD p 0)) ∧
        (∀ j, j < p → VIF_value (multi.getD j 0) < VIF_value (multi.getD p 0))) := by
  induction k with
  | zero =>
    refine ⟨by simp, fun j hj => absurd hj (Nat.not_lt_zero j), Or.inl ⟨by simp, by simp, ?_⟩⟩
    intro j hj
    exact absurd hj (Nat.not_lt_zero j)
  | succ k ih =>
    obtain ⟨hlen, hval, hsel⟩ := ih (by omega)
    rw [List.range_succ, List.foldl_append, List.foldl_cons, List.foldl_nil]
    generalize (List.range k).foldl (VIF_step multi)
      { vif := List.replicate n 0, max := 0, pos := -1 } = s at hlen hval hsel
    have hread : (s.vif.set k (VIF_value (multi.getD k 0))).getD k 0
        = VIF_value (multi.getD k 0) := by
      rw [getD_set]; simp; omega
    have hvif : (VIF_step multi s k).vif = s.vif.set k (VIF_value (multi.getD k 0)) := by
      unfold VIF_step
      simp only
      split <;> rfl
    have hthr : ((VIF_threshold : Int) : α) = 10 := by simp [VIF_threshold]
    refine ⟨by rw [hvif]; simpa using hlen, ?_, ?_⟩
    · intro j hj
      rw [hvif, getD_set]
      by_cases hjk : k = j
      · subst hjk; simp; intro h; omega
      · simp only [hjk, false_and, if_false]
        exact hval j (by omega)
    · by_cases hc : VIF_value (multi.getD k 0) > s.max ∧ VIF_value (multi.getD k 0) > 10
      · have hst : VIF_step multi s k =
            { vif := s.vif.set k (VIF_value (multi.getD k 0))
              max := VIF_value (multi.getD k 0)
              pos := (k : Int) } := by
          unfold VIF_step
          simp only [hread, hthr, if_pos hc]
        rw [hst]
        refine Or.inr ⟨k, by omega, rfl, rfl, hc.2, ?_, ?_⟩
        · intro j hj
          by_cases hjk : j = k
          · subst hjk; exact le_refl _
          · rcases hsel with ⟨_, _, hall⟩ | ⟨p, _, _, hmax, _, hall, _⟩
            · exact le_of_lt (lt_of_le_of_lt (hall j (by omega)) hc.2)
            · exact le_of_lt (lt_of_le_of_lt (hall j (by omega)) (hmax ▸ hc.1))
        · intro j hj
          rcases hsel with ⟨_, _, hall⟩ | ⟨p, _, _, hmax, _, hall, _⟩
          · exact lt_of_le_of_lt (hall j hj) hc.2
          · exact lt_of_le_of_lt (hall j hj) (hmax ▸ hc.1)
      · have hst : VIF_step multi s k =
            { vif := s.vif.set k (VIF_value (multi.getD k 0))
              max := s.max
              pos := s.pos } := by
          unfold VIF_step
          simp only [hread, hthr, if_neg hc]
        rw [hst]
        rcases hsel with ⟨hpos, hmax, hall⟩ | ⟨p, hpk, hpos, hmax, hgt, hall, hfirst⟩
        · refine Or.inl ⟨hpos, hmax, ?_⟩
          intro j hj
          by_cases hjk : j = k
          · subst hjk
            by_contra hgt
            rw [not_le] at hgt
            exact hc ⟨by rw [hmax]; exact lt_trans (by norm_num) hgt, hgt⟩
          · exact hall j (by omega)
        · refine Or.inr ⟨p, by omega, hpos, hmax, hgt, ?_, hfirst⟩
          intro j hj
          by_cases hjk : j = k
          · subst hjk
            by_contra hlt
            rw [not_le] at hlt
            exact hc ⟨hmax ▸ hlt, lt_trans hgt hlt⟩
          · exact hall j (by omega)

/-- C6: with `vif` the vector computed by `sbat_VIF_iter_rm_colin` on a matrix of size
`n`, the function returns `-1` exactly when no `vif[j]` exceeds `10`; otherwise it
returns a position `p < n` with `vif[p] > 10`, `vif[p] >= vif[j]` for all `j`, and `p`
is the smallest position attaining that maximum. -/
theorem sbat_VIF_return_rule {α : Type} [LinearOrderedField α]
    (pca : List (List α) → EigenSolver α) (R : List (List α)) :
    (sbat_VIF_vif pca R).length = R.length ∧
    (sbat_VIF_iter_rm_colin pca R = -1
      ↔ ∀ j, j < R.length → (sbat_VIF_vif pca R).getD j 0 ≤ 10) ∧
    (sbat_VIF_iter_rm_colin pca R ≠ -1 →
      ∃ p : Nat, sbat_VIF_iter_rm_colin pca R = (p : Int) ∧ p < R.length ∧
        (sbat_VIF_vif pca R).getD p 0 > 10 ∧
        (∀ j, j < R.length → (sbat_VIF_vif pca R).getD j 0 ≤ (sbat_VIF_vif pca R).getD p 0) ∧
        (∀ j, j < p → (sbat_VIF_vif pca R).getD j 0 < (sbat_VIF_vif pca R).getD p 0)) := by
  obtain ⟨hlen, hval, hsel⟩ :=
    VIF_fold_invariant (VIF_multi_rsq pca R) R.length R.length (le_refl _)
  unfold sbat_VIF_vif sbat_VIF_iter_rm_colin VIF_final
  generalize (List.range R.length).foldl (VIF_step (VIF_multi_rsq pca R))
    { vif := List.replicate R.length 0, max := 0, pos := -1 } = s at hlen hval hsel
  refine ⟨hlen, ?_, ?_⟩
  · constructor
    · intro hpos j hj
      rcases hsel with ⟨_, _, hall⟩ | ⟨p, _, hp, _⟩
      · rw [hval j hj]; exact hall j hj
      · rw [hp] at hpos; omega
    · intro hall
      rcases hsel with ⟨hpos, _, _⟩ | ⟨p, hpn, _, _, hgt, _, _⟩
      · exact hpos
      · have := hall p hpn
        rw [hval p hpn] at this
        exact absurd hgt (not_lt.mpr this)
  · intro hne
    rcases hsel with ⟨hpos, _, _⟩ | ⟨p, hpn, hp, _, hgt, hall, hfirst⟩
    · exact absurd hpos hne
    · refine ⟨p, hp, hpn, by rw [hval p hpn]; exact hgt, ?_, ?_⟩
      · intro j hj
        rw [hval j hj, hval p hpn]
        exact hall j hj
      · intro j hj
        rw [hval j (by omega), hval p hpn]
        exact hfirst j hj

/-! ## Convergence of the collinearity loop -/

/-- The keep list built inside the collinearity loop, as a filter. -/
theorem colin_new_C_indx_eq (size : Nat) (pos : Int) :
    colin_new_C_indx size pos = (List.range size).filter (fun (i : Nat) => decide (pos ≠ (i : Int))) := by
  unfold colin_new_C_indx
  induction size with
  | zero => rfl
  | succ n ih =>
    rw [List.range_succ, List.foldl_append, ih, List.filter_append]
    by_cases h : pos ≠ (n : Int)
    · simp [h]
    · simp [h]

/-- On the `1 x 1` matrix `[1]`, with an exact eigen-solver, no position is returned. -/
theorem VIF_one {α : Type} [LinearOrderedField α] (pca : List (List α) → EigenSolver α)
    (hpca : (pca [[1]]).eigenvalues = [1] ∧
      ∃ v, (pca [[1]]).eigenvectors = [[v]] ∧ v * v = 1) :
    sbat_VIF_iter_rm_colin pca [[1]] = -1 := by
  obtain ⟨hev, v, hvec, hvv⟩ := hpca
  have hRi : VIF_R_i pca [[1]] = [[1]] := by
    unfold VIF_R_i
    simp [hev, hvec, mat_mul, mat_transpose, as_diagonal, VIF_d_i, entry, List.range_succ]
    norm_num
    exact hvv
  have hm : VIF_multi_rsq pca [[1]] = [0] := by
    unfold VIF_multi_rsq
    rw [hRi]
    simp [VIF_multi_rsq_init, VIF_Q_diag, VIF_max_rsq, VIF_R_sq, maxCoeff, entry, List.range_succ]
  unfold sbat_VIF_iter_rm_colin VIF_final
  rw [hm]
  simp [VIF_step, VIF_value, VIF_threshold, List.range_succ]
  norm_num

/-- A `1 x 1` matrix with unit diagonal is `[1]`. -/
theorem unit_diag_square_one {α : Type} [LinearOrderedField α] (C : List (List α))
    (h : unit_diag_square 1 C) : C = [[1]] := by
  obtain ⟨h1, h2, h3⟩ := h
  match C, h1 with
  | [row], _ =>
    have hr := h2 row (by simp)
    match row, hr with
    | [x], _ =>
      have := h3 0 (by omega)
      simp [entry] at this
      rw [this]

/-- Number of positions left once one valid position is dropped. -/
theorem length_filter_ne (n p : Nat) :
    ((List.range n).filter (fun (i : Nat) => decide ((p : Int) ≠ (i : Int)))).length
      = if p < n then n - 1 else n := by
  induction n with
  | zero => simp
  | succ n ih =>
    rw [List.range_succ, List.filter_append, List.length_append, ih]
    by_cases hpn : p = n
    · subst hpn; simp
    · by_cases hlt : p < n
      · have hlt2 : p < n + 1 := by omega
        simp [hpn, hlt, hlt2]; omega
      · have hlt2 : ¬ p < n + 1 := by omega
        simp [hpn, hlt, hlt2]

/-- Re-indexing through positions below `n` keeps the shape of a correlation matrix. -/
theorem unit_diag_square_rebuild {α : Type} [LinearOrderedField α] (n : Nat) (st : SetData α)
    (idx : List Nat) (h : unit_diag_square n st.C) (hidx : ∀ a ∈ idx, a < n) :
    unit_diag_square idx.length (rebuild_matrix st idx).C := by
  rw [rebuild_matrix_eq]
  refine ⟨by simp, ?_, ?_⟩
  · intro row hrow
    simp only [List.mem_map] at hrow
    obtain ⟨a, _, rfl⟩ := hrow
    simp
  · intro i hi
    have hai : idx[i] < n := hidx _ (List.getElem_mem hi)
    have := h.2.2 idx[i] hai
    simp only [entry, List.getD_eq_getElem?_getD, List.getElem?_map,
      List.getElem?_eq_getElem hi, Option.map_some', Option.getD_some] at this ⊢
    exact this

/-- Termination of the collinearity loop, for any starting value of `count`. -/
theorem colin_loop_terminates {α : Type} [LinearOrderedField α]
    (pca : List (List α) → EigenSolver α)
    (hpca : (pca [[1]]).eigenvalues = [1] ∧
      ∃ v, (pca [[1]]).eigenvectors = [[v]] ∧ v * v = 1)
    (fuel n : Nat) (st : SetData α) (count : Nat)
    (hn : 1 ≤ n) (hfuel : n ≤ fuel) (hC : unit_diag_square n st.C) :
    ∃ out, colin_loop pca fuel st count = some out ∧ count + 1 ≤ out.count ∧
      out.st.C.length + (out.count - (count + 1)) = n ∧ 1 ≤ out.st.C.length ∧
      out.new_C_indx = List.range out.st.C.length := by
  induction fuel generalizing n st count with
  | zero => omega
  | succ fuel ih =>
    unfold colin_loop
    simp only
    have hlen : st.C.length = n := hC.1
    obtain ⟨_, hret, hpos⟩ := VIF_fold_invariant (VIF_multi_rsq pca st.C) st.C.length
      st.C.length (le_refl _)
    have hposdef : sbat_VIF_iter_rm_colin pca st.C
        = ((List.range st.C.length).foldl (VIF_step (VIF_multi_rsq pca st.C))
            { vif := List.replicate st.C.length 0, max := 0, pos := -1 }).pos := rfl
    rcases hpos with ⟨hneg, _, _⟩ | ⟨p, hpn, hpp, _, _, _, _⟩
    · rw [← hposdef] at hneg
      rw [hneg]
      have hidx : colin_new_C_indx st.C.length (-1) = List.range st.C.length := by
        rw [colin_new_C_indx_eq]
        apply List.filter_eq_self.mpr
        intro a _
        simp only [decide_eq_true_eq]
        omega
      have hsh := unit_diag_square_rebuild n st (List.range st.C.length) hC
        (fun a ha => by rw [List.mem_range] at ha; omega)
      simp only [List.length_range] at hsh
      have hng : ¬ ((-1 : Int) > -1) := by omega
      simp only [hng, if_false, hidx]
      refine ⟨_, rfl, by simp, ?_, ?_, ?_⟩
      · simp only [hsh.1]; omega
      · simp only [hsh.1]; omega
      · simp only [hsh.1]
    · rw [← hposdef] at hpp
      rw [hpp]
      have hn2 : 2 ≤ n := by
        by_contra hlt
        have h1 : n = 1 := by omega
        subst h1
        have hC1 := unit_diag_square_one st.C hC
        have := VIF_one pca hpca
        rw [hC1] at hpp
        rw [hpp] at this
        omega
      have hidxlen : (colin_new_C_indx st.C.length (p : Int)).length = n - 1 := by
        rw [colin_new_C_indx_eq, length_filter_ne, if_pos hpn]
        omega
      have hsh := unit_diag_square_rebuild n st (colin_new_C_indx st.C.length (p : Int)) hC
        (fun a ha => by
          rw [colin_new_C_indx_eq, List.mem_filter, List.mem_range] at ha
          omega)
      rw [hidxlen] at hsh
      have hgt : ((p : Int) > -1) := by omega
      simp only [hgt, if_true]
      obtain ⟨out, ho, hc1, hc2, hc3, hc4⟩ := ih (n - 1)
        (rebuild_matrix st (colin_new_C_indx st.C.length (p : Int))) (count + 1)
        (by omega) (by omega) hsh
      exact ⟨out, ho, by omega, by omega, hc3, hc4⟩

/-- C7: for every `N >= 1` and every `N x N` matrix with unit diagonal (symmetry and the
bound on the other cells are not needed), with an eigen-solver that is exact on the
`1 x 1` matrix `[1]`, the `do .. while` loop of `sbat_multi_calcu_V` ends within `N`
iterations, having removed at most `N - 1` variants, so that at least one variant is
left; and `sbat_VIF_iter_rm_colin` returns `-1` on the `1 x 1` matrix `[1]`. -/
theorem colin_loop_converges {α : Type} [LinearOrderedField α]
    (pca : List (List α) → EigenSolver α)
    (hpca : (pca [[1]]).eigenvalues = [1] ∧
      ∃ v, (pca [[1]]).eigenvectors = [[v]] ∧ v * v = 1)
    (N : Nat) (hN : 1 ≤ N) (st : SetData α) (hC : unit_diag_square N st.C)
    (fuel : Nat) (hfuel : N ≤ fuel) :
    sbat_VIF_iter_rm_colin pca [[1]] = -1 ∧
    ∃ out, colin_loop pca fuel st 0 = some out ∧
      out.count ≤ N ∧
      out.count - 1 ≤ N - 1 ∧
      out.st.C.length = N - (out.count - 1) ∧
      1 ≤ out.st.C.length := by
  refine ⟨VIF_one pca hpca, ?_⟩
  obtain ⟨out, ho, hc1, hc2, hc3, _⟩ := colin_loop_terminates pca hpca fuel N st 0 hN hfuel hC
  refine ⟨out, ho, ?_, ?_, ?_, hc3⟩
  · omega
  · omega
  · omega

/-- Witness for C7: two uncorrelated variants and the solver that is exact on diagonal
matrices. -/
theorem colin_loop_converges_witness :
    sbat_VIF_iter_rm_colin pca_diag [[1]] = -1 ∧
    ∃ out, colin_loop pca_diag 2
        { snp_beta := [1, 2], snp_btse := [1, 1], snp_keep := ["a", "b"],
          C := [[1, 0], [0, 1]] } 0 = some out ∧
      out.count ≤ 2 ∧
      out.count - 1 ≤ 2 - 1 ∧
      out.st.C.length = 2 - (out.count - 1) ∧
      1 ≤ out.st.C.length :=
  colin_loop_converges pca_diag
    ⟨by simp [pca_diag, entry, List.range_succ], 1,
      by simp [pca_diag, as_diagonal, List.range_succ], by norm_num⟩
    2 (by decide)
    { snp_beta := [1, 2], snp_btse := [1, 1], snp_keep := ["a", "b"], C := [[1, 0], [0, 1]] }
    ⟨rfl, by simp, by intro i hi; interval_cases i <;> simp [entry]⟩
    2 (le_refl 2)

/-! ## The correlation matrix -/

/-- Reading a cell of a tabulated matrix. -/
theorem entry_tabulate {α : Type} [LinearOrderedField α] (m : Nat) (f : Nat → Nat → α)
    (i j : Nat) :
    entry ((List.range m).map (fun i => (List.range m).map (fun j => f i j))) i j
      = if i < m ∧ j < m then f i j else 0 := by
  unfold entry
  rw [List.getD_eq_getElem?_getD, List.getD_eq_getElem?_getD, List.getElem?_map]
  by_cases hi : i < m
  · rw [List.getElem?_range hi]
    simp only [Option.map_some', Option.getD_some, List.getElem?_map]
    by_cases hj : j < m
    · rw [List.getElem?_range hj]; simp [hi, hj]
    · have hn : (List.range m)[j]? = none := List.getElem?_eq_none (by simp; omega)
      rw [hn]; simp [hj]
  · have hn : (List.range m)[i]? = none := List.getElem?_eq_none (by simp; omega)
    rw [hn]; simp [hi]

/-- Reading a cell of a tabulated vector. -/
theorem getD_tabulate {β : Type} (m : Nat) (f : Nat → β) (d : β) (i : Nat) :
    ((List.range m).map f).getD i d = if i < m then f i else d := by
  rw [List.getD_eq_getElem?_getD, List.getElem?_map]
  by_cases hi : i < m
  · rw [List.getElem?_range hi]; simp [hi]
  · have hn : (List.range m)[i]? = none := List.getElem?_eq_none (by simp; omega)
    rw [hn]; simp [hi]

/-- Closed form of a cell of `make_cor_matrix`. -/
theorem make_cor_matrix_entry {α : Type} [LinearOrderedField α] (sqrt : α → α)
    (X : List (List α)) (snp_indx : List Nat) (i j : Nat) :
    entry (make_cor_matrix sqrt X snp_indx) i j
      = if i < snp_indx.length ∧ j < snp_indx.length then
          (if sqrt (col_dot X i i * col_dot X j j) > 0
            then col_dot X i j / sqrt (col_dot X i i * col_dot X j j) else 0)
        else 0 := by
  unfold make_cor_matrix
  simp only
  rw [entry_tabulate]
  by_cases h : i < snp_indx.length ∧ j < snp_indx.length
  · simp only [h, and_self, if_true, getD_tabulate, entry_tabulate]
  · simp only [h, if_false]

/-- The dot product of two columns does not depend on their order. -/
theorem col_dot_comm {α : Type} [LinearOrderedField α] (X : List (List α)) (i j : Nat) :
    col_dot X i j = col_dot X j i := by
  unfold col_dot
  congr 1
  apply List.map_congr_left
  intro row _
  exact mul_comm _ _

/-- A sum of squares is not negative. -/
theorem col_dot_self_nonneg {α : Type} [LinearOrderedField α] (X : List (List α)) (i : Nat) :
    0 ≤ col_dot X i i := by
  unfold col_dot
  apply List.sum_nonneg
  intro x hx
  rw [List.mem_map] at hx
  obtain ⟨row, _, rfl⟩ := hx
  exact mul_self_nonneg _

/-- The sum of squares of `X_i * t + X_j` as a quadratic in `t`. -/
theorem col_dot_quadratic {α : Type} [LinearOrderedField α] (X : List (List α)) (i j : Nat)
    (t : α) :
    (X.map (fun row => (row.getD i 0 * t + row.getD j 0) * (row.getD i 0 * t + row.getD j 0))).sum
      = col_dot X i i * (t * t) + 2 * col_dot X i j * t + col_dot X j j := by
  unfold col_dot
  induction X with
  | nil => simp
  | cons row rest ih =>
    simp only [List.map_cons, List.sum_cons, ih]
    ring

/-- Cauchy-Schwarz inequality for two columns of `X`. -/
theorem col_dot_cauchy_schwarz {α : Type} [LinearOrderedField α] (X : List (List α))
    (i j : Nat) : col_dot X i j ^ 2 ≤ col_dot X i i * col_dot X j j := by
  have h : ∀ t : α, 0 ≤ col_dot X i i * (t * t) + 2 * col_dot X i j * t + col_dot X j j := by
    intro t
    rw [← col_dot_quadratic]
    apply List.sum_nonneg
    intro x hx
    rw [List.mem_map] at hx
    obtain ⟨row, _, rfl⟩ := hx
    exact mul_self_nonneg _
  have := discrim_le_zero h
  unfold discrim at this
  nlinarith

/-- C8: in exact real arithmetic, for every sample-by-variant matrix `X`,
`make_cor_matrix` yields `C(i,j) = <X_i, X_j> / sqrt(sumsq(X_i) * sumsq(X_j))` when that
square root is positive and `0` otherwise; the result is symmetric, every cell has
magnitude at most `1`, the diagonal cell of a column with non-zero sum of squares is
`1`, and the row and the column of a column with zero sum of squares are `0`. -/
theorem make_cor_matrix_properties (X : List (List ℝ)) (snp_indx : List Nat) :
    (∀ i j, i < snp_indx.length → j < snp_indx.length →
      entry (make_cor_matrix Real.sqrt X snp_indx) i j
        = if Real.sqrt (col_dot X i i * col_dot X j j) > 0
          then col_dot X i j / Real.sqrt (col_dot X i i * col_dot X j j) else 0) ∧
    (∀ i j, entry (make_cor_matrix Real.sqrt X snp_indx) i j
        = entry (make_cor_matrix Real.sqrt X snp_indx) j i) ∧
    (∀ i j, |entry (make_cor_matrix Real.sqrt X snp_indx) i j| ≤ 1) ∧
    (∀ i, i < snp_indx.length → col_dot X i i ≠ 0 →
      entry (make_cor_matrix Real.sqrt X snp_indx) i i = 1) ∧
    (∀ i, i < snp_indx.length → col_dot X i i = 0 →
      ∀ j, entry (make_cor_matrix Real.sqrt X snp_indx) i j = 0 ∧
        entry (make_cor_matrix Real.sqrt X snp_indx) j i = 0) := by
  refine ⟨?_, ?_, ?_, ?_, ?_⟩
  · intro i j hi hj
    rw [make_cor_matrix_entry, if_pos ⟨hi, hj⟩]
  · intro i j
    rw [make_cor_matrix_entry, make_cor_matrix_entry]
    by_cases h : i < snp_indx.length ∧ j < snp_indx.length
    · have h2 : j < snp_indx.length ∧ i < snp_indx.length := ⟨h.2, h.1⟩
      simp only [if_pos h, if_pos h2]
      rw [col_dot_comm X i j, mul_comm (col_dot X i i) (col_dot X j j)]
    · have h2 : ¬ (j < snp_indx.length ∧ i < snp_indx.length) := fun h2 => h ⟨h2.2, h2.1⟩
      simp only [if_neg h, if_neg h2]
  · intro i j
    rw [make_cor_matrix_entry]
    by_cases h : i < snp_indx.length ∧ j < snp_indx.length
    · rw [if_pos h]
      by_cases hpos : Real.sqrt (col_dot X i i * col_dot X j j) > 0
      · rw [if_pos hpos, abs_div, abs_of_pos hpos, div_le_one hpos]
        exact Real.abs_le_sqrt (col_dot_cauchy_schwarz X i j)
      · rw [if_neg hpos]; simp
    · rw [if_neg h]; simp
  · intro i hi hne
    rw [make_cor_matrix_entry, if_pos ⟨hi, hi⟩, Real.sqrt_mul_self (col_dot_self_nonneg X i)]
    have hpos : col_dot X i i > 0 := lt_of_le_of_ne (col_dot_self_nonneg X i) (Ne.symm hne)
    rw [if_pos hpos, div_self hne]
  · intro i _ hz j
    rw [make_cor_matrix_entry, make_cor_matrix_entry, hz]
    simp


/-! ## The pipeline only removes, and keeps the order -/

/-- A strictly ascending list of positions below `m` is a sublist of `0 .. m-1`. -/
theorem sublist_range_of_strict (K : List Nat) (m : Nat) (hK : K.Pairwise (· < ·))
    (hm : ∀ a ∈ K, a < m) : K.Sublist (List.range m) := by
  have hnd : K.Nodup := hK.imp (fun h => Nat.ne_of_lt h)
  have hsub : K ⊆ List.range m := fun a ha => List.mem_range.mpr (hm a ha)
  exact List.sublist_of_subperm_of_sorted (List.subperm_of_subset hnd hsub) hK
    (List.pairwise_lt_range m)

/-- Re-indexing a selection: the structures stay a selection of the original ones,
through a strictly ascending list of original positions. -/
theorem selects_rebuild {α : Type} [LinearOrderedField α] (st0 st : SetData α) (m : Nat)
    (K idx : List Nat) (h : selects st0 m K st) (hidx : idx.Pairwise (· < ·))
    (hlt : ∀ a ∈ idx, a < st.C.length) :
    selects st0 m (idx.map (fun a => K.getD a 0)) (rebuild_matrix st idx) := by
  obtain ⟨hK, hKm, hb, hs, hk, hC⟩ := h
  have hmono : ∀ i j (hi : i < K.length) (hj : j < K.length), i < j → K[i] < K[j] :=
    List.pairwise_iff_getElem.mp hK
  rw [rebuild_matrix_eq]
  refine ⟨?_, ?_, ?_, ?_, ?_, by simp⟩
  · rw [List.pairwise_map]
    refine List.Pairwise.imp_of_mem ?_ hidx
    intro a b ha hb hab
    have ha2 : a < K.length := hC ▸ hlt a ha
    have hb2 : b < K.length := hC ▸ hlt b hb
    rw [List.getD_eq_getElem _ _ ha2, List.getD_eq_getElem _ _ hb2]
    exact hmono a b ha2 hb2 hab
  · intro x hx
    rw [List.mem_map] at hx
    obtain ⟨a, ha, rfl⟩ := hx
    have ha2 : a < K.length := hC ▸ hlt a ha
    rw [List.getD_eq_getElem _ _ ha2]
    exact hKm _ (List.getElem_mem ha2)
  · simp only [List.map_map]
    apply List.map_congr_left
    intro a ha
    have ha2 : a < K.length := hC ▸ hlt a ha
    simp only [Function.comp, hb]
    rw [List.getD_eq_getElem _ _ (by simpa using ha2), List.getD_eq_getElem _ _ ha2]
    simp
  · simp only [List.map_map]
    apply List.map_congr_left
    intro a ha
    have ha2 : a < K.length := hC ▸ hlt a ha
    simp only [Function.comp, hs]
    rw [List.getD_eq_getElem _ _ (by simpa using ha2), List.getD_eq_getElem _ _ ha2]
    simp
  · simp only [List.map_map]
    apply List.map_congr_left
    intro a ha
    have ha2 : a < K.length := hC ▸ hlt a ha
    simp only [Function.comp, hk]
    rw [List.getD_eq_getElem _ _ (by simpa using ha2), List.getD_eq_getElem _ _ ha2]
    simp

/-- A first re-indexing through a strictly ascending keep list is a selection. -/
theorem selects_first {α : Type} [LinearOrderedField α] (st0 : SetData α) (m : Nat)
    (K : List Nat) (hK : K.Pairwise (· < ·)) (hm : ∀ a ∈ K, a < m) :
    selects st0 m K (rebuild_matrix st0 K) := by
  rw [rebuild_matrix_eq]
  exact ⟨hK, hm, rfl, rfl, rfl, by simp⟩

/-- The keep list built inside the collinearity loop is strictly ascending and within
the current size. -/
theorem colin_new_C_indx_strict (size : Nat) (pos : Int) :
    (colin_new_C_indx size pos).Pairwise (· < ·) ∧
    ∀ a ∈ colin_new_C_indx size pos, a < size := by
  rw [colin_new_C_indx_eq]
  refine ⟨(List.pairwise_lt_range size).filter _, ?_⟩
  intro a ha
  exact List.mem_range.mp (List.mem_of_mem_filter ha)

/-- The collinearity loop only re-indexes: what it returns is still a selection of the
original structures. -/
theorem colin_loop_selects {α : Type} [LinearOrderedField α]
    (pca : List (List α) → EigenSolver α) (st0 : SetData α) (m : Nat) (fuel : Nat)
    (st : SetData α) (count : Nat) (K : List Nat) (out : ColinOut α)
    (h : selects st0 m K st) (hrun : colin_loop pca fuel st count = some out) :
    ∃ K', selects st0 m K' out.st := by
  induction fuel generalizing st count K with
  | zero => simp [colin_loop] at hrun
  | succ fuel ih =>
    unfold colin_loop at hrun
    simp only at hrun
    have hidx := colin_new_C_indx_strict st.C.length (sbat_VIF_iter_rm_colin pca st.C)
    have hsel := selects_rebuild st0 st m K _ h hidx.1 hidx.2
    split at hrun
    · exact ih _ _ _ hsel hrun
    · simp only [Option.some.injEq] at hrun
      rw [← hrun]
      exact ⟨_, hsel⟩

/-- The collinearity loop ends whenever the bound exceeds the current size. -/
theorem colin_loop_total {α : Type} [LinearOrderedField α]
    (pca : List (List α) → EigenSolver α) (fuel : Nat) (st : SetData α) (count : Nat)
    (hfuel : st.C.length < fuel) :
    ∃ out, colin_loop pca fuel st count = some out := by
  induction fuel generalizing st count with
  | zero => omega
  | succ fuel ih =>
    unfold colin_loop
    simp only
    obtain ⟨_, _, hpos⟩ := VIF_fold_invariant (VIF_multi_rsq pca st.C) st.C.length
      st.C.length (le_refl _)
    have hposdef : sbat_VIF_iter_rm_colin pca st.C
        = ((List.range st.C.length).foldl (VIF_step (VIF_multi_rsq pca st.C))
            { vif := List.replicate st.C.length 0, max := 0, pos := -1 }).pos := rfl
    rcases hpos with ⟨hneg, _, _⟩ | ⟨p, hpn, hpp, _, _, _, _⟩
    · rw [← hposdef] at hneg
      rw [hneg]
      have hng : ¬ ((-1 : Int) > -1) := by omega
      simp only [hng, if_false]
      exact ⟨_, rfl⟩
    · rw [← hposdef] at hpp
      rw [hpp]
      have hgt : ((p : Int) > -1) := by omega
      simp only [hgt, if_true]
      apply ih
      rw [rebuild_matrix_eq]
      simp only [List.length_map]
      rw [colin_new_C_indx_eq, length_filter_ne, if_pos hpn]
      omega

/-- What `beta_qc` does, in terms of its keep list. -/
theorem beta_qc_keep {α : Type} [LinearOrderedField α] (sqrt : α → α) (st0 : SetData α) :
    ∃ keep : List Nat, keep.Pairwise (· < ·) ∧ (∀ a ∈ keep, a < (st0.C.getD 0 []).length) ∧
      (beta_qc sqrt st0).2 = keep.length ∧
      (keep.length = 0 → (beta_qc sqrt st0).1 = st0) ∧
      (keep.length ≠ 0 → (beta_qc sqrt st0).1 = rebuild_matrix st0 keep) := by
  have hs := rm_ld_inv_beta_strict (beta_qc_VR st0.C st0.snp_beta) (st0.C.getD 0 []).length
    (beta_qc_off_m (beta_qc_VR st0.C st0.snp_beta) (st0.C.getD 0 []).length)
    (sqrt (beta_qc_off_v (beta_qc_VR st0.C st0.snp_beta) (st0.C.getD 0 []).length
      (beta_qc_off_m (beta_qc_VR st0.C st0.snp_beta) (st0.C.getD 0 []).length)))
  refine ⟨recalculate_ndx (st0.C.getD 0 []).length
    (rm_ld_inv_beta (beta_qc_VR st0.C st0.snp_beta) (st0.C.getD 0 []).length
      (beta_qc_off_m (beta_qc_VR st0.C st0.snp_beta) (st0.C.getD 0 []).length)
      (sqrt (beta_qc_off_v (beta_qc_VR st0.C st0.snp_beta) (st0.C.getD 0 []).length
        (beta_qc_off_m (beta_qc_VR st0.C st0.snp_beta) (st0.C.getD 0 []).length)))
      [] [] []).rm_ID0 [],
    recalculate_ndx_strict _ _ _ hs, ?_, ?_, ?_, ?_⟩
  · intro a ha
    exact ((mem_recalculate_ndx _ _ _ hs a).mp ha).1
  · unfold beta_qc
    simp only
    split <;> rfl
  · intro h0
    unfold beta_qc
    simp only [h0, if_true]
  · intro h0
    unfold beta_qc
    simp only [h0, if_false]

/-- The first row of the matrix built by `make_cor_matrix` has at most one cell per variant. -/
theorem make_cor_matrix_cols {α : Type} [LinearOrderedField α] (sqrt : α → α)
    (X : List (List α)) (snp_indx : List Nat) :
    ((make_cor_matrix sqrt X snp_indx).getD 0 []).length ≤ snp_indx.length := by
  unfold make_cor_matrix
  simp only
  rw [getD_tabulate]
  split <;> simp

/-- Zipping three vectors of which the last two have size `m` and the first at least `m`. -/
theorem zip3_eq_map_range {α : Type} [LinearOrderedField α] (names : List String)
    (beta se : List α) (m : Nat) (hb : beta.length = m) (hs : se.length = m)
    (hk : m ≤ names.length) :
    List.zip names (List.zip beta se)
      = (List.range m).map (fun a => (names.getD a "", beta.getD a 0, se.getD a 0)) := by
  apply List.ext_getElem
  · simp [hb, hs, hk]
  · intro n h1 h2
    simp only [List.length_zip, hb, hs] at h1
    have hn : n < m := by omega
    simp only [List.getElem_zip, List.getElem_map, List.getElem_range]
    rw [List.getD_eq_getElem _ _ (by omega), List.getD_eq_getElem _ _ (by omega),
      List.getD_eq_getElem _ _ (by omega)]

/-- Every run of `sbat_multi_calcu_V` either stops at the soft failure with the
structures that `beta_qc` returned, or goes through pairwise pruning and the
collinearity loop. -/
theorem sbat_multi_calcu_V_run {α : Type} [LinearOrderedField α] (lib : Lib α) (fuel : Nat)
    (X : List (List α)) (snp_indx : List Nat) (set_beta set_se : List α)
    (Vchisq Vpvalue : α) (snp_count : Nat) (snp_kept : List String) (out : CalcuOut α)
    (hrun : sbat_multi_calcu_V lib fuel X snp_indx set_beta set_se Vchisq Vpvalue snp_count
      snp_kept = some out) :
    ((beta_qc lib.sqrt ⟨set_beta, set_se, snp_kept, make_cor_matrix lib.sqrt X snp_indx⟩).2 < 1 ∧
      out.tested = false ∧ out.Vpvalue = 2 ∧ out.Vchisq = Vchisq ∧ out.snp_count = snp_count ∧
      out.pairwise_remain = 0 ∧ out.removed_colinear = 0) ∨
    (1 ≤ (beta_qc lib.sqrt ⟨set_beta, set_se, snp_kept, make_cor_matrix lib.sqrt X snp_indx⟩).2 ∧
      out.tested = true ∧
      out.Vpvalue = lib.pchisq out.Vchisq out.st.snp_beta.length ∧
      out.snp_kept = out.st.snp_keep ∧
      ∃ o, colin_loop lib.pca fuel
        (rebuild_matrix (beta_qc lib.sqrt ⟨set_beta, set_se, snp_kept, make_cor_matrix lib.sqrt X snp_indx⟩).1
          (recalculate_ndx (beta_qc lib.sqrt ⟨set_beta, set_se, snp_kept, make_cor_matrix lib.sqrt X snp_indx⟩).2
            (rm_cor_sbat (beta_qc lib.sqrt ⟨set_beta, set_se, snp_kept, make_cor_matrix lib.sqrt X snp_indx⟩).1.C
              (lib.sqrt (9 / 10))
              (beta_qc lib.sqrt ⟨set_beta, set_se, snp_kept, make_cor_matrix lib.sqrt X snp_indx⟩).2 []) []))
        0 = some o ∧ out.st = o.st) := by
  unfold sbat_multi_calcu_V at hrun
  simp only at hrun
  split at hrun
  · rename_i hlt
    simp only [Option.some.injEq] at hrun
    subst hrun
    exact Or.inl ⟨hlt, rfl, rfl, rfl, rfl, rfl, rfl⟩
  · rename_i hge
    split at hrun
    · simp at hrun
    · rename_i o ho
      simp only [Option.some.injEq] at hrun
      subst hrun
      exact Or.inr ⟨by omega, rfl, rfl, rfl, o, ho, rfl⟩

/-- The keep list of `recalculate_ndx` never has more than `msnps` positions. -/
theorem recalculate_ndx_length_le (msnps : Nat) (rm prev : List Nat)
    (hsorted : rm.Pairwise (· < ·)) : (recalculate_ndx msnps rm prev).length ≤ msnps := by
  rw [recalculate_ndx_filter msnps rm prev hsorted]
  exact (List.length_filter_le _ _).trans (by simp)

/-- C9: in every run of `sbat_multi_calcu_V` that reaches the final test, the surviving
names, effect sizes and standard errors are those of a strictly ascending list of
original positions, so the surviving `(name, beta, standardError)` sequence is a
subsequence of the input sequence: stages only remove, and never reorder. -/
theorem sbat_multi_calcu_V_order_preserved {α : Type} [LinearOrderedField α] (lib : Lib α)
    (fuel : Nat) (X : List (List α)) (snp_indx : List Nat) (set_beta set_se : List α)
    (Vchisq Vpvalue : α) (snp_count : Nat) (snp_kept : List String) (out : CalcuOut α)
    (hb : set_beta.length = snp_indx.length) (hs : set_se.length = snp_indx.length)
    (hk : snp_indx.length ≤ snp_kept.length)
    (hrun : sbat_multi_calcu_V lib fuel X snp_indx set_beta set_se Vchisq Vpvalue snp_count
      snp_kept = some out)
    (htested : out.tested = true) :
    ∃ keep : List Nat, keep.Pairwise (· < ·) ∧ (∀ a ∈ keep, a < snp_indx.length) ∧
      out.snp_kept = keep.map (fun a => snp_kept.getD a "") ∧
      out.st.snp_beta = keep.map (fun a => set_beta.getD a 0) ∧
      out.st.snp_btse = keep.map (fun a => set_se.getD a 0) ∧
      (List.zip out.snp_kept (List.zip out.st.snp_beta out.st.snp_btse)).Sublist
        (List.zip snp_kept (List.zip set_beta set_se)) := by
  rcases sbat_multi_calcu_V_run lib fuel X snp_indx set_beta set_se Vchisq Vpvalue snp_count
    snp_kept out hrun with ⟨_, hf, _⟩ | ⟨hge, _, _, hkept, o, ho, hst⟩
  · rw [hf] at htested
    exact absurd htested (by decide)
  · obtain ⟨keep1, hk1, hk1m, hlen, _, hreb⟩ := beta_qc_keep lib.sqrt
      (⟨set_beta, set_se, snp_kept, make_cor_matrix lib.sqrt X snp_indx⟩ : SetData α)
    have hcols := make_cor_matrix_cols lib.sqrt X snp_indx
    have hsel1 := selects_first
      (⟨set_beta, set_se, snp_kept, make_cor_matrix lib.sqrt X snp_indx⟩ : SetData α)
      snp_indx.length keep1 hk1 (fun a ha => lt_of_lt_of_le (hk1m a ha) hcols)
    rw [← hreb (by omega)] at hsel1
    have hrm := rm_cor_sbat_strict
      (beta_qc lib.sqrt ⟨set_beta, set_se, snp_kept, make_cor_matrix lib.sqrt X snp_indx⟩).1.C
      (lib.sqrt (9 / 10))
      (beta_qc lib.sqrt ⟨set_beta, set_se, snp_kept, make_cor_matrix lib.sqrt X snp_indx⟩).2
    have hsel2 := selects_rebuild _ _ _ _ _ hsel1 (recalculate_ndx_strict _ _ [] hrm)
      (fun a ha => by
        have := ((mem_recalculate_ndx _ _ [] hrm a).mp ha).1
        rw [hsel1.2.2.2.2.2, ← hlen]
        exact this)
    obtain ⟨K, hK, hKm, hKb, hKs, hKk, _⟩ := colin_loop_selects lib.pca _ _ _ _ _ _ o hsel2 ho
    rw [← hst] at hKb hKs hKk
    simp only at hKb hKs hKk
    refine ⟨K, hK, hKm, by rw [hkept, hKk], hKb, hKs, ?_⟩
    rw [hkept, hKk, hKb, hKs, List.zip_map', List.zip_map',
      zip3_eq_map_range snp_kept set_beta set_se snp_indx.length hb hs hk]
    exact (sublist_range_of_strict K snp_indx.length hK hKm).map _

/-- Witness for C9: two uncorrelated variants go through every stage. -/
theorem sbat_multi_calcu_V_order_preserved_witness :
    ∃ keep : List Nat, keep.Pairwise (· < ·) ∧ (∀ a ∈ keep, a < [4, 7].length) ∧
      ["rs1", "rs2"] = keep.map (fun a => ["rs1", "rs2"].getD a "") ∧
      [1, 2] = keep.map (fun a => ([1, 2] : List ℚ).getD a 0) ∧
      [1, 1] = keep.map (fun a => ([1, 1] : List ℚ).getD a 0) ∧
      (List.zip ["rs1", "rs2"] (List.zip ([1, 2] : List ℚ) ([1, 1] : List ℚ))).Sublist
        (List.zip ["rs1", "rs2"] (List.zip [1, 2] [1, 1])) :=
  sbat_multi_calcu_V_order_preserved lib_unit 3 [[1, 0], [0, 1]] [4, 7] [1, 2] [1, 1] 0 0 0
    ["rs1", "rs2"]
    { Vchisq := 5, Vpvalue := 1 / 2, snp_count := 2, snp_kept := ["rs1", "rs2"],
      st := ⟨[1, 2], [1, 1], ["rs1", "rs2"], [[1, 0], [0, 1]]⟩,
      beta_inv_remain := 2, pairwise_remain := 2, removed_colinear := 0, tested := true }
    rfl rfl (by decide) (by decide!) rfl

/-- C10: with a bound on the collinearity loop above the size of the set,
`sbat_multi_calcu_V` returns.  When `beta_qc` leaves no variant (its keep list is empty)
the p-value output is the sentinel `2`, the chi-square and surviving-count outputs are
unchanged, and pruning, the collinearity loop and the test are not run.  When at least
one variant is left the test is run and the p-value output is the value of the
chi-square tail function, hence not `2` when that function returns probabilities. -/
theorem sbat_multi_calcu_V_soft_failure {α : Type} [LinearOrderedField α] (lib : Lib α)
    (fuel : Nat) (X : List (List α)) (snp_indx : List Nat) (set_beta set_se : List α)
    (Vchisq Vpvalue : α) (snp_count : Nat) (snp_kept : List String)
    (hfuel : snp_indx.length < fuel) :
    ∃ out, sbat_multi_calcu_V lib fuel X snp_indx set_beta set_se Vchisq Vpvalue snp_count
        snp_kept = some out ∧
      ((beta_qc lib.sqrt ⟨set_beta, set_se, snp_kept, make_cor_matrix lib.sqrt X snp_indx⟩).2 = 0 →
        out.Vpvalue = 2 ∧ out.Vchisq = Vchisq ∧ out.snp_count = snp_count ∧
        out.tested = false ∧ out.pairwise_remain = 0 ∧ out.removed_colinear = 0) ∧
      (1 ≤ (beta_qc lib.sqrt ⟨set_beta, set_se, snp_kept, make_cor_matrix lib.sqrt X snp_indx⟩).2 →
        out.tested = true ∧
        out.Vpvalue = lib.pchisq out.Vchisq out.st.snp_beta.length ∧
        ((∀ x df, lib.pchisq x df ≤ 1) → out.Vpvalue ≠ 2)) := by
  have hex : ∃ out, sbat_multi_calcu_V lib fuel X snp_indx set_beta set_se Vchisq Vpvalue
      snp_count snp_kept = some out := by
    unfold sbat_multi_calcu_V
    simp only
    split
    · exact ⟨_, rfl⟩
    · obtain ⟨keep1, _, hk1m, hlen, _, _⟩ := beta_qc_keep lib.sqrt
        (⟨set_beta, set_se, snp_kept, make_cor_matrix lib.sqrt X snp_indx⟩ : SetData α)
      have hcols := make_cor_matrix_cols lib.sqrt X snp_indx
      have hk1len : keep1.length ≤ snp_indx.length := by
        have hsub := sublist_range_of_strict keep1 _ ‹keep1.Pairwise (· < ·)› hk1m
        have := hsub.length_le
        simp only [List.length_range] at this
        simp only at hcols
        omega
      have hrm := rm_cor_sbat_strict
        (beta_qc lib.sqrt ⟨set_beta, set_se, snp_kept, make_cor_matrix lib.sqrt X snp_indx⟩).1.C
        (lib.sqrt (9 / 10))
        (beta_qc lib.sqrt ⟨set_beta, set_se, snp_kept, make_cor_matrix lib.sqrt X snp_indx⟩).2
      have hk2 := recalculate_ndx_length_le
        (beta_qc lib.sqrt ⟨set_beta, set_se, snp_kept, make_cor_matrix lib.sqrt X snp_indx⟩).2
        _ [] hrm
      obtain ⟨o, ho⟩ := colin_loop_total lib.pca fuel
        (rebuild_matrix (beta_qc lib.sqrt
            ⟨set_beta, set_se, snp_kept, make_cor_matrix lib.sqrt X snp_indx⟩).1
          (recalculate_ndx (beta_qc lib.sqrt
              ⟨set_beta, set_se, snp_kept, make_cor_matrix lib.sqrt X snp_indx⟩).2
            (rm_cor_sbat (beta_qc lib.sqrt
                ⟨set_beta, set_se, snp_kept, make_cor_matrix lib.sqrt X snp_indx⟩).1.C
              (lib.sqrt (9 / 10))
              (beta_qc lib.sqrt
                ⟨set_beta, set_se, snp_kept, make_cor_matrix lib.sqrt X snp_indx⟩).2 []) []))
        0 (by rw [rebuild_matrix_eq]; simp only [List.length_map]; omega)
      rw [ho]
      exact ⟨_, rfl⟩
  obtain ⟨out, hrun⟩ := hex
  refine ⟨out, hrun, ?_, ?_⟩
  · intro h0
    rcases sbat_multi_calcu_V_run lib fuel X snp_indx set_beta set_se Vchisq Vpvalue snp_count
      snp_kept out hrun with ⟨_, h1, h2, h3, h4, h5, h6⟩ | ⟨hge, _⟩
    · exact ⟨h2, h3, h4, h1, h5, h6⟩
    · omega
  · intro h1
    rcases sbat_multi_calcu_V_run lib fuel X snp_indx set_beta set_se Vchisq Vpvalue snp_count
      snp_kept out hrun with ⟨hlt, _⟩ | ⟨_, ht, hp, _⟩
    · omega
    · refine ⟨ht, hp, ?_⟩
      intro hprob h2
      have := hprob out.Vchisq out.st.snp_beta.length
      rw [← hp, h2] at this
      norm_num at this

/-- Witness for C10, both branches.  On the eight variants of `X_blocks` with unit
effect sizes the four cells of the blocks are `-3/5` and all other cells `0`; mean
`-3/35`, variance `8/175`; the four cells lie below the mean by more than `1.96`
standard deviations (`(49/25)^2 * 8/175 < (18/35)^2`), every variant is in a flagged
pair, `beta_qc` leaves no variant, and the run returns the sentinel `2` with the
incoming `Vchisq = 7` and `snp_count = 5` untouched.  On two uncorrelated variants the
test is run and the p-value output is the value of the tail function. -/
theorem sbat_multi_calcu_V_soft_failure_witness :
    (beta_qc_rm lib_rat.sqrt ⟨[1, 1, 1, 1, 1, 1, 1, 1], [1, 1, 1, 1, 1, 1, 1, 1],
        ["rs1", "rs2", "rs3", "rs4", "rs5", "rs6", "rs7", "rs8"],
        make_cor_matrix lib_rat.sqrt X_blocks [0, 1, 2, 3, 4, 5, 6, 7]⟩
      = ⟨[0, 1, 2, 3, 4, 5, 6, 7], [1, 3, 5, 7], [0, 2, 4, 6]⟩) ∧
    (∃ out, sbat_multi_calcu_V lib_rat 9 X_blocks [0, 1, 2, 3, 4, 5, 6, 7]
        [1, 1, 1, 1, 1, 1, 1, 1] [1, 1, 1, 1, 1, 1, 1, 1] 7 0 5
        ["rs1", "rs2", "rs3", "rs4", "rs5", "rs6", "rs7", "rs8"] = some out ∧
      out.Vpvalue = 2 ∧ out.Vchisq = 7 ∧ out.snp_count = 5 ∧
      out.tested = false ∧ out.pairwise_remain = 0 ∧ out.removed_colinear = 0) ∧
    (∃ out, sbat_multi_calcu_V lib_unit 3 [[1, 0], [0, 1]] [4, 7] [1, 2] [1, 1] 0 0 0
        ["rs1", "rs2"] = some out ∧
      out.tested = true ∧
      out.Vpvalue = lib_unit.pchisq out.Vchisq out.st.snp_beta.length ∧
      out.Vpvalue ≠ 2) := by
  refine ⟨by decide!, ?_, ?_⟩
  · obtain ⟨out, hrun, h0, _⟩ := sbat_multi_calcu_V_soft_failure lib_rat 9 X_blocks
      [0, 1, 2, 3, 4, 5, 6, 7] [1, 1, 1, 1, 1, 1, 1, 1] [1, 1, 1, 1, 1, 1, 1, 1] 7 0 5
      ["rs1", "rs2", "rs3", "rs4", "rs5", "rs6", "rs7", "rs8"] (by decide)
    exact ⟨out, hrun, h0 (by decide!)⟩
  · obtain ⟨out, hrun, _, h1⟩ := sbat_multi_calcu_V_soft_failure lib_unit 3 [[1, 0], [0, 1]]
      [4, 7] [1, 2] [1, 1] 0 0 0 ["rs1", "rs2"] (by decide)
    obtain ⟨ht, hp, hne⟩ := h1 (by decide!)
    refine ⟨out, hrun, ht, hp, hne ?_⟩
    intro x df
    show (1 / 2 : ℚ) ≤ 1
    norm_num

/-- The flagged cells of the eight-variant witness of C10 lie outside the band of
`1.96` standard deviations as well: mean `-3/35`, variance `8/175`, and
`(49/25)^2 * 8/175 < (-3/5 + 3/35)^2`. -/
theorem X_blocks_outside_band :
    beta_qc_off_m (beta_qc_VR (make_cor_matrix lib_rat.sqrt X_blocks [0, 1, 2, 3, 4, 5, 6, 7])
      [1, 1, 1, 1, 1, 1, 1, 1]) 8 = -3 / 35 ∧
    beta_qc_off_v (beta_qc_VR (make_cor_matrix lib_rat.sqrt X_blocks [0, 1, 2, 3, 4, 5, 6, 7])
      [1, 1, 1, 1, 1, 1, 1, 1]) 8 (-3 / 35) = 8 / 175 ∧
    entry (beta_qc_VR (make_cor_matrix lib_rat.sqrt X_blocks [0, 1, 2, 3, 4, 5, 6, 7])
      [1, 1, 1, 1, 1, 1, 1, 1]) 1 0 = -3 / 5 ∧
    ((49 / 25 : ℚ) ^ 2 * (8 / 175) < (-3 / 5 - -3 / 35) ^ 2) := by
  refine ⟨by decide!, by decide!, by decide!, by norm_num⟩

/-! ## The choice made by the pairwise pruner -/

/-- Membership in the list of violating pairs of `rm_cor_sbat`. -/
theorem mem_cor_pairs {α : Type} [LinearOrderedField α] (R : List (List α)) (c : α)
    (m : Nat) (p : Nat × Nat) :
    p ∈ cor_pairs R c m ↔ (p.2 < p.1 ∧ p.1 < m) ∧ |entry R p.1 p.2| > c := by
  unfold cor_pairs
  rw [List.mem_filter, mem_lower_pairs]
  simp

/-- Occurrences of a position among the members of a list of pairs with distinct
members: the number of pairs that contain it. -/
theorem count_fst_add_count_snd (l : List (Nat × Nat)) (hl : ∀ p ∈ l, p.2 < p.1) (x : Nat) :
    (l.map Prod.fst).count x + (l.map Prod.snd).count x
      = (l.filter (fun p => decide (p.1 = x) || decide (p.2 = x))).length := by
  induction l with
  | nil => simp
  | cons p t ih =>
    have hp := hl p (by simp)
    have iht := ih (fun q hq => hl q (by simp [hq]))
    simp only [List.map_cons, List.count_cons, List.filter_cons]
    by_cases h1 : p.1 = x
    · have h2 : ¬ p.2 = x := by omega
      simp only [h1, h2, beq_self_eq_true, if_true, decide_True, decide_False, Bool.or_false,
        List.length_cons, beq_iff_eq, if_false]
      omega
    · by_cases h2 : p.2 = x
      · simp only [h1, h2, beq_self_eq_true, if_true, decide_True, decide_False, Bool.or_true,
          List.length_cons, beq_iff_eq, if_false]
        omega
      · simp only [h1, h2, decide_False, Bool.or_false, beq_iff_eq, if_false,
          Bool.false_eq_true]
        omega

/-- The incidence count of `rm_cor_sbat` is the number of violating pairs that a
position takes part in. -/
theorem cor_count_eq {α : Type} [LinearOrderedField α] (R : List (List α)) (c : α)
    (m : Nat) (x : Nat) :
    cor_count R c m x
      = ((cor_pairs R c m).filter (fun p => decide (p.1 = x) || decide (p.2 = x))).length := by
  unfold cor_count
  exact count_fst_add_count_snd _ (fun p hp => ((mem_cor_pairs R c m p).mp hp).1.1) x

/-- Membership in the removal list of `rm_cor_sbat`. -/
theorem mem_rm_cor_sbat {α : Type} [LinearOrderedField α] (R : List (List α)) (c : α)
    (m : Nat) (x : Nat) :
    x ∈ rm_cor_sbat R c m [] ↔ ∃ p ∈ cor_pairs R c m, cor_choice R c m p = x := by
  rw [rm_cor_sbat_eq, mem_unique_stable_sort, List.mem_map]

/-- C16: with the incidence count of a position being the number of violating pairs
(`|R(i,j)| > cutoff`, `j < i < m`) it takes part in, `rm_cor_sbat` puts in the removal
list, for every violating pair `(i, j)`, the member with the strictly higher count, and
the larger index `i` when the counts are equal; the removal list is exactly the
strictly ascending list of the members chosen in this way. -/
theorem rm_cor_sbat_greedy_choice {α : Type} [LinearOrderedField α] (R : List (List α))
    (R_cutoff : α) (m : Nat) :
    (∀ x, cor_count R R_cutoff m x
      = ((lower_pairs m).filter (fun p =>
          decide (|entry R p.1 p.2| > R_cutoff ∧ (p.1 = x ∨ p.2 = x)))).length) ∧
    (∀ i j, j < i → i < m → |entry R i j| > R_cutoff →
      (cor_count R R_cutoff m j < cor_count R R_cutoff m i → i ∈ rm_cor_sbat R R_cutoff m []) ∧
      (cor_count R R_cutoff m i < cor_count R R_cutoff m j → j ∈ rm_cor_sbat R R_cutoff m []) ∧
      (cor_count R R_cutoff m i = cor_count R R_cutoff m j → i ∈ rm_cor_sbat R R_cutoff m [])) ∧
    (∀ x ∈ rm_cor_sbat R R_cutoff m [], ∃ i j, j < i ∧ i < m ∧ |entry R i j| > R_cutoff ∧
      ((x = i ∧ cor_count R R_cutoff m j ≤ cor_count R R_cutoff m i) ∨
       (x = j ∧ cor_count R R_cutoff m i < cor_count R R_cutoff m j))) ∧
    (rm_cor_sbat R R_cutoff m []).Pairwise (· < ·) := by
  refine ⟨?_, ?_, ?_, ?_⟩
  · intro x
    rw [cor_count_eq]
    unfold cor_pairs
    rw [List.filter_filter]
    congr 1
    apply List.filter_congr
    intro p _
    simp [and_comm]
  · intro i j hji him hv
    have hp : (i, j) ∈ cor_pairs R R_cutoff m :=
      (mem_cor_pairs R R_cutoff m (i, j)).mpr ⟨⟨hji, him⟩, hv⟩
    have hmem : cor_choice R R_cutoff m (i, j) ∈ rm_cor_sbat R R_cutoff m [] :=
      (mem_rm_cor_sbat R R_cutoff m _).mpr ⟨(i, j), hp, rfl⟩
    unfold cor_choice at hmem
    simp only at hmem
    refine ⟨?_, ?_, ?_⟩
    · intro h
      rw [if_neg (by omega)] at hmem
      exact hmem
    · intro h
      rw [if_pos h] at hmem
      exact hmem
    · intro h
      rw [if_neg (by omega)] at hmem
      exact hmem
  · intro x hx
    obtain ⟨p, hp, hch⟩ := (mem_rm_cor_sbat R R_cutoff m x).mp hx
    obtain ⟨⟨h1, h2⟩, h3⟩ := (mem_cor_pairs R R_cutoff m p).mp hp
    refine ⟨p.1, p.2, h1, h2, h3, ?_⟩
    unfold cor_choice at hch
    by_cases hlt : cor_count R R_cutoff m p.1 < cor_count R R_cutoff m p.2
    · rw [if_pos hlt] at hch
      exact Or.inr ⟨hch.symm, hlt⟩
    · rw [if_neg hlt] at hch
      exact Or.inl ⟨hch.symm, by omega⟩
  · rw [rm_cor_sbat_eq]
    exact unique_stable_sort_strict _

/-! ## Size of the removal list of the pairwise pruner -/

/-- `unique` never lengthens a list. -/
theorem length_unique_le {β : Type} [DecidableEq β] :
    ∀ l : List β, (unique l).length ≤ l.length
  | [] => by simp [unique]
  | [a] => by simp [unique]
  | a :: b :: t => by
    have ih := length_unique_le (b :: t)
    unfold unique
    split
    · simp only [List.length_cons] at ih ⊢
      omega
    · simp only [List.length_cons] at ih ⊢
      omega

/-- C18, counterexample: on the four-variant cycle `R_cycle` with a cutoff of `47/50`
the violating pairs are the four pairs of neighbours; `rm_cor_sbat` removes the three
positions 1, 2, 3, although the two positions 1 and 3 already contain a member of
every violating pair.  Any cutoff from `23/25` up to, but excluding, `19/20` gives the
same pairs; the square root of `0.9` is one of them. -/
theorem rm_cor_sbat_not_minimal :
    rm_cor_sbat R_cycle (47 / 50) 4 [] = [1, 2, 3] ∧
    cor_pairs R_cycle (47 / 50) 4 = [(1, 0), (2, 1), (3, 0), (3, 2)] ∧
    (∀ p ∈ cor_pairs R_cycle (47 / 50) 4, p.1 ∈ [1, 3] ∨ p.2 ∈ [1, 3]) ∧
    ¬ (∀ cover : List Nat,
        (∀ p ∈ cor_pairs R_cycle (47 / 50) 4, p.1 ∈ cover ∨ p.2 ∈ cover) →
        (rm_cor_sbat R_cycle (47 / 50) 4 []).length ≤ cover.length) := by
  have h1 : rm_cor_sbat R_cycle (47 / 50) 4 [] = [1, 2, 3] := by decide!
  have h2 : cor_pairs R_cycle (47 / 50) 4 = [(1, 0), (2, 1), (3, 0), (3, 2)] := by decide!
  have h3 : ∀ p ∈ cor_pairs R_cycle (47 / 50) 4, p.1 ∈ [1, 3] ∨ p.2 ∈ [1, 3] := by
    rw [h2]
    decide
  refine ⟨h1, h2, h3, ?_⟩
  intro hmin
  have := hmin [1, 3] h3
  rw [h1] at this
  simp at this

/-- C18, as amended: the removal list of `rm_cor_sbat` contains a member of every
violating pair, each of its entries is a member of a violating pair, and it is never
longer than the list of violating pairs. -/
theorem rm_cor_sbat_cover_size {α : Type} [LinearOrderedField α] (R : List (List α))
    (R_cutoff : α) (m : Nat) :
    (∀ p ∈ cor_pairs R R_cutoff m,
      p.1 ∈ rm_cor_sbat R R_cutoff m [] ∨ p.2 ∈ rm_cor_sbat R R_cutoff m []) ∧
    (∀ x ∈ rm_cor_sbat R R_cutoff m [], ∃ p ∈ cor_pairs R R_cutoff m, x = p.1 ∨ x = p.2) ∧
    (rm_cor_sbat R R_cutoff m []).length ≤ (cor_pairs R R_cutoff m).length := by
  refine ⟨?_, ?_, ?_⟩
  · intro p hp
    obtain ⟨⟨h1, h2⟩, h3⟩ := (mem_cor_pairs R R_cutoff m p).mp hp
    exact rm_cor_sbat_covers R R_cutoff m p.1 p.2 h1 h2 h3
  · intro x hx
    obtain ⟨p, hp, hch⟩ := (mem_rm_cor_sbat R R_cutoff m x).mp hx
    refine ⟨p, hp, ?_⟩
    unfold cor_choice at hch
    split at hch
    · exact Or.inr hch.symm
    · exact Or.inl hch.symm
  · rw [rm_cor_sbat_eq]
    refine (length_unique_le _).trans ?_
    unfold stable_sort
    rw [List.length_insertionSort]
    simp

/-! ## Pairwise pruning never empties a set -/

/-- Among the positions below `m` there is one of minimal incidence count that has the
lowest index among those of that count. -/
theorem exists_min_count (cnt : Nat → Nat) (m : Nat) (hm : 1 ≤ m) :
    ∃ v, v < m ∧ ∀ u, u < m → cnt v ≤ cnt u ∧ (cnt u = cnt v → v ≤ u) := by
  obtain ⟨v, hv, hmin⟩ := Finset.exists_min_image (Finset.range m)
    (fun u => cnt u * m + u) ⟨0, Finset.mem_range.mpr (by omega)⟩
  rw [Finset.mem_range] at hv
  refine ⟨v, hv, ?_⟩
  intro u hu
  have hk := hmin u (Finset.mem_range.mpr hu)
  simp only at hk
  constructor
  · by_contra hlt
    have h : (cnt u + 1) * m ≤ cnt v * m := Nat.mul_le_mul_right m (by omega)
    rw [Nat.add_mul] at h
    omega
  · intro heq
    rw [heq] at hk
    omega

/-- C20: for every `m >= 1`, every matrix and every cutoff, the removal list of
`rm_cor_sbat` leaves out a position of `[0, m)`, namely the lowest-indexed position
among those of minimal incidence count, so the keep list that `recalculate_ndx` builds
from it for the collinearity stage is not empty. -/
theorem rm_cor_sbat_keeps_one {α : Type} [LinearOrderedField α] (R : List (List α))
    (R_cutoff : α) (m : Nat) (hm : 1 ≤ m) :
    ∃ v, v < m ∧
      (∀ u, u < m → cor_count R R_cutoff m v ≤ cor_count R R_cutoff m u ∧
        (cor_count R R_cutoff m u = cor_count R R_cutoff m v → v ≤ u)) ∧
      v ∉ rm_cor_sbat R R_cutoff m [] ∧
      v ∈ recalculate_ndx m (rm_cor_sbat R R_cutoff m []) [] ∧
      recalculate_ndx m (rm_cor_sbat R R_cutoff m []) [] ≠ [] := by
  obtain ⟨v, hv, hmin⟩ := exists_min_count (cor_count R R_cutoff m) m hm
  have hnot : v ∉ rm_cor_sbat R R_cutoff m [] := by
    intro hmem
    obtain ⟨p, hp, hch⟩ := (mem_rm_cor_sbat R R_cutoff m v).mp hmem
    obtain ⟨⟨h1, h2⟩, _⟩ := (mem_cor_pairs R R_cutoff m p).mp hp
    have hm1 := hmin p.1 h2
    have hm2 := hmin p.2 (by omega)
    unfold cor_choice at hch
    by_cases hlt : cor_count R R_cutoff m p.1 < cor_count R R_cutoff m p.2
    · rw [if_pos hlt] at hch
      rw [hch] at hlt
      omega
    · rw [if_neg hlt] at hch
      rw [hch] at hlt h1
      have := hm2.2 (by omega)
      omega
  have hkeep : v ∈ recalculate_ndx m (rm_cor_sbat R R_cutoff m []) [] :=
    (mem_recalculate_ndx m _ [] (rm_cor_sbat_strict R R_cutoff m) v).mpr ⟨hv, hnot⟩
  exact ⟨v, hv, hmin, hnot, hkeep, List.ne_nil_of_mem hkeep⟩

/-- Witness for C20: the pair of variants of `R_pair` with the cutoff `9/10`. -/
theorem rm_cor_sbat_keeps_one_witness :
    ∃ v, v < 2 ∧
      (∀ u, u < 2 → cor_count R_pair (9 / 10) 2 v ≤ cor_count R_pair (9 / 10) 2 u ∧
        (cor_count R_pair (9 / 10) 2 u = cor_count R_pair (9 / 10) 2 v → v ≤ u)) ∧
      v ∉ rm_cor_sbat R_pair (9 / 10) 2 [] ∧
      v ∈ recalculate_ndx 2 (rm_cor_sbat R_pair (9 / 10) 2 []) [] ∧
      recalculate_ndx 2 (rm_cor_sbat R_pair (9 / 10) 2 []) [] ≠ [] :=
  rm_cor_sbat_keeps_one R_pair (9 / 10) 2 (by decide)

/-! ## The variance inflation factor and pairwise collinearity -/

/-- Invariant of the scan of `maxCoeff`: the retained value is a coefficient of the
vector and dominates the coefficients visited so far. -/
theorem maxCoeff_fold {α : Type} [LinearOrderedField α] (v : List α) (n : Nat) :
    ((List.range n).foldl
        (fun (best : Nat × α) k => if v.getD k 0 > best.2 then (k, v.getD k 0) else best)
        (0, v.getD 0 0)).2
      = v.getD ((List.range n).foldl
          (fun (best : Nat × α) k => if v.getD k 0 > best.2 then (k, v.getD k 0) else best)
          (0, v.getD 0 0)).1 0 ∧
    ∀ k, k < n → v.getD k 0 ≤ ((List.range n).foldl
        (fun (best : Nat × α) k => if v.getD k 0 > best.2 then (k, v.getD k 0) else best)
        (0, v.getD 0 0)).2 := by
  induction n with
  | zero => exact ⟨rfl, fun k hk => absurd hk (Nat.not_lt_zero k)⟩
  | succ n ih =>
    rw [List.range_succ, List.foldl_append, List.foldl_cons, List.foldl_nil]
    obtain ⟨h1, h2⟩ := ih
    generalize (List.range n).foldl
      (fun (best : Nat × α) k => if v.getD k 0 > best.2 then (k, v.getD k 0) else best)
      (0, v.getD 0 0) = best at h1 h2
    by_cases hgt : v.getD n 0 > best.2
    · simp only [hgt, if_true]
      refine ⟨trivial, ?_⟩
      intro k hk
      by_cases hkn : k = n
      · subst hkn; exact le_refl _
      · exact le_of_lt (lt_of_le_of_lt (h2 k (by omega)) hgt)
    · simp only [hgt, if_false]
      refine ⟨h1, ?_⟩
      intro k hk
      by_cases hkn : k = n
      · subst hkn; exact not_lt.mp hgt
      · exact h2 k (by omega)

/-- The coefficient at the position returned by `maxCoeff` is a largest coefficient. -/
theorem le_getD_maxCoeff {α : Type} [LinearOrderedField α] (v : List α) (k : Nat)
    (hk : k < v.length) : v.getD k 0 ≤ v.getD (maxCoeff v) 0 := by
  obtain ⟨h1, h2⟩ := maxCoeff_fold v v.length
  unfold maxCoeff
  rw [← h1]
  exact h2 k hk

/-- Cell of the matrix of squared correlations with zeroed diagonal. -/
theorem VIF_R_sq_entry {α : Type} [LinearOrderedField α] (R : List (List α)) (i j : Nat)
    (hi : i < R.length) (hj : j < R.length) :
    entry (VIF_R_sq R) i j = if i = j then 0 else entry R i j * entry R i j := by
  unfold VIF_R_sq
  rw [entry_tabulate, if_pos ⟨hi, hj⟩]
  split <;> simp

/-- The largest squared correlation of column `j`, read from `max_rsq_buf`. -/
theorem VIF_max_rsq_getD {α : Type} [LinearOrderedField α] (R : List (List α)) (j : Nat)
    (hj : j < R.length) :
    (VIF_max_rsq R).getD j 0
      = ((List.range R.length).map (fun i => entry (VIF_R_sq R) i j)).getD
          (maxCoeff ((List.range R.length).map (fun i => entry (VIF_R_sq R) i j))) 0 := by
  unfold VIF_max_rsq
  rw [getD_tabulate, if_pos hj]

/-- Bounds on `max_rsq_buf[j]`: it dominates every squared correlation of column `j`
off the diagonal, and lies in `[0, 1]` when the correlations do. -/
theorem VIF_max_rsq_bounds {α : Type} [LinearOrderedField α] (R : List (List α)) (j : Nat)
    (hj : j < R.length)
    (hoff : ∀ i, i < R.length → i ≠ j → |entry R i j| ≤ 1) :
    (∀ i, i < R.length → i ≠ j → entry R i j * entry R i j ≤ (VIF_max_rsq R).getD j 0) ∧
    0 ≤ (VIF_max_rsq R).getD j 0 ∧ (VIF_max_rsq R).getD j 0 ≤ 1 := by
  rw [VIF_max_rsq_getD R j hj]
  have hcol : ∀ k, k < R.length →
      ((List.range R.length).map (fun i => entry (VIF_R_sq R) i j)).getD k 0
        = if k = j then 0 else entry R k j * entry R k j := by
    intro k hk
    rw [getD_tabulate, if_pos hk, VIF_R_sq_entry R k j hk hj]
  have hmax := fun k (hk : k < R.length) =>
    le_getD_maxCoeff ((List.range R.length).map (fun i => entry (VIF_R_sq R) i j)) k
      (by simpa using hk)
  refine ⟨?_, ?_, ?_⟩
  · intro i hi hij
    have := hmax i hi
    rw [hcol i hi, if_neg hij] at this
    exact this
  · have := hmax j hj
    rw [hcol j hj, if_pos rfl] at this
    exact this
  · by_cases hlt : maxCoeff ((List.range R.length).map (fun i => entry (VIF_R_sq R) i j))
        < R.length
    · rw [hcol _ hlt]
      split
      · exact zero_le_one
      · rename_i hne
        have h := hoff _ hlt hne
        have h2 := abs_mul_abs_self (entry R
          (maxCoeff ((List.range R.length).map (fun i => entry (VIF_R_sq R) i j))) j)
        rw [← h2]
        exact mul_le_one₀ h (abs_nonneg _) h
    · rw [getD_tabulate, if_neg hlt]
      exact zero_le_one

/-- Bounds on `multi_rsq_buf[j]` when the last loop starts. -/
theorem VIF_multi_rsq_bounds {α : Type} [LinearOrderedField α]
    (pca : List (List α) → EigenSolver α) (R : List (List α)) (j : Nat)
    (hj : j < R.length)
    (hoff : ∀ i, i < R.length → i ≠ j → |entry R i j| ≤ 1) :
    (VIF_max_rsq R).getD j 0 ≤ (VIF_multi_rsq pca R).getD j 0 ∧
    (VIF_multi_rsq pca R).getD j 0 ≤ 1 := by
  obtain ⟨_, _, h1⟩ := VIF_max_rsq_bounds R j hj hoff
  have hinit : (VIF_multi_rsq_init (VIF_R_i pca R) R).getD j 0 ≤ 1 := by
    unfold VIF_multi_rsq_init
    rw [getD_tabulate, if_pos hj]
    simp only
    generalize (if |(VIF_Q_diag (VIF_R_i pca R) R).getD j 0 - 1| < 1 / 100
      then 1 - 1 / entry (VIF_R_i pca R) j j else 1) = v
    by_cases hv : v > 1
    · rw [if_pos hv]
    · rw [if_neg hv]; exact not_lt.mp hv
  unfold VIF_multi_rsq
  rw [getD_tabulate, if_pos hj]
  split
  · exact ⟨le_refl _, h1⟩
  · rename_i h
    exact ⟨not_lt.mp h, hinit⟩

/-- The value stored in `vif[j]` for a `multi_rsq_buf[j]` in `[0, 1]` is at least `1`,
and exceeds `10` as soon as `multi_rsq_buf[j]` exceeds `0.9`. -/
theorem VIF_value_bounds {α : Type} [LinearOrderedField α] (x : α) (h0 : 0 ≤ x) (h1 : x ≤ 1) :
    1 ≤ VIF_value x ∧ (9 / 10 < x → 10 < VIF_value x) := by
  unfold VIF_value
  by_cases hs : |1 - x| < 1 / 100000
  · rw [if_pos hs]
    exact ⟨by norm_num, fun _ => by norm_num⟩
  · rw [if_neg hs]
    have hnn : 0 ≤ 1 - x := by linarith
    rw [abs_of_nonneg hnn] at hs
    have hpos : 0 < 1 - x := by
      have : (1 : α) / 100000 ≤ 1 - x := not_lt.mp hs
      have h5 : (0 : α) < 1 / 100000 := by norm_num
      linarith
    rw [abs_of_pos (by positivity)]
    constructor
    · rw [le_div_iff₀ hpos]
      linarith
    · intro h9
      rw [lt_div_iff₀ hpos]
      linarith

/-- The vector `vif` holds, at every position, the value computed from `multi_rsq_buf`. -/
theorem sbat_VIF_vif_getD {α : Type} [LinearOrderedField α]
    (pca : List (List α) → EigenSolver α) (R : List (List α)) (j : Nat) (hj : j < R.length) :
    (sbat_VIF_vif pca R).getD j 0 = VIF_value ((VIF_multi_rsq pca R).getD j 0) :=
  (VIF_fold_invariant (VIF_multi_rsq pca R) R.length R.length (le_refl _)).2.1 j hj

/-- A position whose `vif` value exceeds `10` makes `sbat_VIF_iter_rm_colin` return a
position. -/
theorem sbat_VIF_ne_of_gt {α : Type} [LinearOrderedField α]
    (pca : List (List α) → EigenSolver α) (R : List (List α)) (j : Nat) (hj : j < R.length)
    (hgt : 10 < VIF_value ((VIF_multi_rsq pca R).getD j 0)) :
    sbat_VIF_iter_rm_colin pca R ≠ -1 := by
  obtain ⟨_, _, hsel⟩ := VIF_fold_invariant (VIF_multi_rsq pca R) R.length R.length (le_refl _)
  have hdef : sbat_VIF_iter_rm_colin pca R
      = ((List.range R.length).foldl (VIF_step (VIF_multi_rsq pca R))
          { vif := List.replicate R.length 0, max := 0, pos := -1 }).pos := rfl
  rcases hsel with ⟨_, _, hall⟩ | ⟨p, _, hp, _⟩
  · exact absurd hgt (not_lt.mpr (hall j hj))
  · rw [hdef, hp]
    omega

/-- C17: for a matrix `R` whose off-diagonal cells lie in `[-1, 1]` (symmetry and the
unit diagonal are not needed) and every position `j`, the multi-R^2 used for `VIF(j)`
is at least every squared correlation `R(i,j)^2`, `i != j`, and at most `1`, and
`VIF(j) >= 1`; if some `R(i,j)^2`, `i != j`, exceeds `0.9` then `VIF(j) > 10` and
`sbat_VIF_iter_rm_colin` does not return `-1`. -/
theorem sbat_VIF_never_understates {α : Type} [LinearOrderedField α]
    (pca : List (List α) → EigenSolver α) (R : List (List α))
    (hoff : ∀ i j, i < R.length → j < R.length → i ≠ j → |entry R i j| ≤ 1)
    (j : Nat) (hj : j < R.length) :
    (∀ i, i < R.length → i ≠ j → entry R i j ^ 2 ≤ (VIF_multi_rsq pca R).getD j 0) ∧
    (VIF_multi_rsq pca R).getD j 0 ≤ 1 ∧
    1 ≤ (sbat_VIF_vif pca R).getD j 0 ∧
    ((∃ i, i < R.length ∧ i ≠ j ∧ entry R i j ^ 2 > 9 / 10) →
      10 < (sbat_VIF_vif pca R).getD j 0 ∧ sbat_VIF_iter_rm_colin pca R ≠ -1) := by
  have hoffj : ∀ i, i < R.length → i ≠ j → |entry R i j| ≤ 1 :=
    fun i hi hij => hoff i j hi hj hij
  obtain ⟨hmax, hmax0, _⟩ := VIF_max_rsq_bounds R j hj hoffj
  obtain ⟨hlow, hup⟩ := VIF_multi_rsq_bounds pca R j hj hoffj
  have h0 : 0 ≤ (VIF_multi_rsq pca R).getD j 0 := le_trans hmax0 hlow
  obtain ⟨hv1, hv10⟩ := VIF_value_bounds _ h0 hup
  have hsq : ∀ i, i < R.length → i ≠ j →
      entry R i j ^ 2 ≤ (VIF_multi_rsq pca R).getD j 0 := by
    intro i hi hij
    rw [pow_two]
    exact le_trans (hmax i hi hij) hlow
  refine ⟨hsq, hup, ?_, ?_⟩
  · rw [sbat_VIF_vif_getD pca R j hj]
    exact hv1
  · rintro ⟨i, hi, hij, hbig⟩
    have hgt : 10 < VIF_value ((VIF_multi_rsq pca R).getD j 0) :=
      hv10 (lt_of_lt_of_le hbig (hsq i hi hij))
    refine ⟨?_, sbat_VIF_ne_of_gt pca R j hj hgt⟩
    rw [sbat_VIF_vif_getD pca R j hj]
    exact hgt

/-- Witness for C17: the pair of variants of `R_pair`, whose squared correlation
exceeds `0.9`, at position 0. -/
theorem sbat_VIF_never_understates_witness :
    (∀ i, i < R_pair.length → i ≠ 0 →
      entry R_pair i 0 ^ 2 ≤ (VIF_multi_rsq pca_diag R_pair).getD 0 0) ∧
    (VIF_multi_rsq pca_diag R_pair).getD 0 0 ≤ 1 ∧
    1 ≤ (sbat_VIF_vif pca_diag R_pair).getD 0 0 ∧
    ((∃ i, i < R_pair.length ∧ i ≠ 0 ∧ entry R_pair i 0 ^ 2 > 9 / 10) →
      10 < (sbat_VIF_vif pca_diag R_pair).getD 0 0 ∧
      sbat_VIF_iter_rm_colin pca_diag R_pair ≠ -1) :=
  sbat_VIF_never_understates pca_diag R_pair (by
    intro i j hi hj _
    have hi2 : i < 2 := hi
    have hj2 : j < 2 := hj
    interval_cases i <;> interval_cases j <;> norm_num [entry, R_pair, abs_le])
    0 (by decide)

/-! ## The sign-mismatch filter on small sets -/

/-- The keep list and the outputs of `beta_qc`, in terms of `beta_qc_rm`. -/
theorem beta_qc_eq {α : Type} [LinearOrderedField α] (sqrt : α → α) (st : SetData α) :
    beta_qc sqrt st
      = if (recalculate_ndx (st.C.getD 0 []).length (beta_qc_rm sqrt st).rm_ID0 []).length = 0
        then (st, (recalculate_ndx (st.C.getD 0 []).length
          (beta_qc_rm sqrt st).rm_ID0 []).length)
        else (rebuild_matrix st (recalculate_ndx (st.C.getD 0 []).length
            (beta_qc_rm sqrt st).rm_ID0 []),
          (recalculate_ndx (st.C.getD 0 []).length (beta_qc_rm sqrt st).rm_ID0 []).length) :=
  rfl

/-- With an empty removal list `recalculate_ndx` keeps every position. -/
theorem recalculate_ndx_nil (msnps : Nat) (prev : List Nat) :
    recalculate_ndx msnps [] prev = List.range msnps := by
  rw [recalculate_ndx_filter msnps [] prev List.Pairwise.nil]
  apply List.filter_eq_self.mpr
  intro a _
  simp

/-- When no pair is flagged, `beta_qc` keeps every variant. -/
theorem beta_qc_of_no_flag {α : Type} [LinearOrderedField α] (sqrt : α → α) (st : SetData α)
    (hnf : beta_flagged (beta_qc_VR st.C st.snp_beta) (st.C.getD 0 []).length
      (beta_qc_off_m (beta_qc_VR st.C st.snp_beta) (st.C.getD 0 []).length)
      (sqrt (beta_qc_off_v (beta_qc_VR st.C st.snp_beta) (st.C.getD 0 []).length
        (beta_qc_off_m (beta_qc_VR st.C st.snp_beta) (st.C.getD 0 []).length))) = []) :
    beta_qc_rm sqrt st = { rm_ID0 := [], rm_IDi := [], rm_IDj := [] } ∧
    (beta_qc sqrt st).2 = (st.C.getD 0 []).length ∧
    (1 ≤ (st.C.getD 0 []).length →
      (beta_qc sqrt st).1 = rebuild_matrix st (List.range (st.C.getD 0 []).length)) := by
  have hrm : beta_qc_rm sqrt st = { rm_ID0 := [], rm_IDi := [], rm_IDj := [] } := by
    unfold beta_qc_rm
    simp only
    rw [rm_ld_inv_beta_eq, hnf]
    rfl
  refine ⟨hrm, ?_, ?_⟩
  · rw [beta_qc_eq, hrm]
    simp only [recalculate_ndx_nil, List.length_range]
    split <;> rfl
  · intro h1
    rw [beta_qc_eq, hrm]
    simp only [recalculate_ndx_nil, List.length_range]
    rw [if_neg (by omega)]

/-- On a set of at most two variants no pair can be flagged: the only
lower-triangular cell is its own mean. -/
theorem beta_flagged_small {α : Type} [LinearOrderedField α] (sqrt : α → α)
    (hs0 : sqrt 0 = 0) (VR : List (List α)) (m : Nat) (hm : m ≤ 2) :
    beta_flagged VR m (beta_qc_off_m VR m)
      (sqrt (beta_qc_off_v VR m (beta_qc_off_m VR m))) = [] := by
  unfold beta_flagged
  rw [List.filter_eq_nil_iff]
  intro p hp
  obtain ⟨h1, h2⟩ := (mem_lower_pairs m p).mp hp
  have hm2 : m = 2 := by omega
  have hp1 : p.1 = 1 := by omega
  have hp2 : p.2 = 0 := by omega
  subst hm2
  rw [hp1, hp2, STN_DEV_eq]
  have hnum : beta_qc_off_num (α := α) 2 = 1 := by
    unfold beta_qc_off_num
    norm_num
  have hv : beta_qc_off_v VR 2 (beta_qc_off_m VR 2) = 0 := by
    unfold beta_qc_off_v
    rw [hnum, sub_self, div_zero]
  have hmean : beta_qc_off_m VR 2 = entry VR 1 0 := by
    unfold beta_qc_off_m
    rw [hnum, div_one]
    simp only [List.range', List.foldl_cons, List.foldl_nil, zero_add, entry]
    cases VR.getD 1 [] with
    | nil => simp
    | cons a t => simp
  rw [hv, hs0, hmean]
  simp

/-- With a bound on the collinearity loop above the size of the set,
`sbat_multi_calcu_V` returns. -/
theorem sbat_multi_calcu_V_returns {α : Type} [LinearOrderedField α] (lib : Lib α)
    (fuel : Nat) (X : List (List α)) (snp_indx : List Nat) (set_beta set_se : List α)
    (Vchisq Vpvalue : α) (snp_count : Nat) (snp_kept : List String)
    (hfuel : snp_indx.length < fuel) :
    ∃ out, sbat_multi_calcu_V lib fuel X snp_indx set_beta set_se Vchisq Vpvalue snp_count
      snp_kept = some out := by
  unfold sbat_multi_calcu_V
  simp only
  split
  · exact ⟨_, rfl⟩
  · obtain ⟨keep1, hk1, hk1m, hlen, _, _⟩ := beta_qc_keep lib.sqrt
      (⟨set_beta, set_se, snp_kept, make_cor_matrix lib.sqrt X snp_indx⟩ : SetData α)
    have hcols := make_cor_matrix_cols lib.sqrt X snp_indx
    have hk1len : keep1.length ≤ snp_indx.length := by
      have := (sublist_range_of_strict keep1 _ hk1 hk1m).length_le
      simp only [List.length_range] at this
      simp only at hcols
      omega
    have hrm := rm_cor_sbat_strict
      (beta_qc lib.sqrt ⟨set_beta, set_se, snp_kept, make_cor_matrix lib.sqrt X snp_indx⟩).1.C
      (lib.sqrt (9 / 10))
      (beta_qc lib.sqrt ⟨set_beta, set_se, snp_kept, make_cor_matrix lib.sqrt X snp_indx⟩).2
    have hk2 := recalculate_ndx_length_le
      (beta_qc lib.sqrt ⟨set_beta, set_se, snp_kept, make_cor_matrix lib.sqrt X snp_indx⟩).2
      _ [] hrm
    obtain ⟨o, ho⟩ := colin_loop_total lib.pca fuel
      (rebuild_matrix (beta_qc lib.sqrt
          ⟨set_beta, set_se, snp_kept, make_cor_matrix lib.sqrt X snp_indx⟩).1
        (recalculate_ndx (beta_qc lib.sqrt
            ⟨set_beta, set_se, snp_kept, make_cor_matrix lib.sqrt X snp_indx⟩).2
          (rm_cor_sbat (beta_qc lib.sqrt
              ⟨set_beta, set_se, snp_kept, make_cor_matrix lib.sqrt X snp_indx⟩).1.C
            (lib.sqrt (9 / 10))
            (beta_qc lib.sqrt
              ⟨set_beta, set_se, snp_kept, make_cor_matrix lib.sqrt X snp_indx⟩).2 []) []))
      0 (by rw [rebuild_matrix_eq]; simp only [List.length_map]; omega)
    rw [ho]
    exact ⟨_, rfl⟩

/-- C14, counterexample: for two variants with correlation `-9/10`, unit diagonal and
effect sizes `[1/2, 1/2]`, the filter flags nothing (all three output vectors of
`rm_ld_inv_beta` are empty), two variants remain, and `sbat_multi_calcu_V` runs the
test and returns the value of the chi-square tail function, not the sentinel `2`. -/
theorem sbat_scenario_C_counterexample :
    make_cor_matrix lib_rat.sqrt X_neg [0, 1] = [[1, -9/10], [-9/10, 1]] ∧
    beta_qc_rm lib_rat.sqrt ⟨[1/2, 1/2], [1, 1], ["rs1", "rs2"], [[1, -9/10], [-9/10, 1]]⟩
      = { rm_ID0 := [], rm_IDi := [], rm_IDj := [] } ∧
    (beta_qc lib_rat.sqrt
      ⟨[1/2, 1/2], [1, 1], ["rs1", "rs2"], [[1, -9/10], [-9/10, 1]]⟩).2 = 2 ∧
    (sbat_multi_calcu_V lib_rat 3 X_neg [0, 1] [1/2, 1/2] [1, 1] 0 0 0 ["rs1", "rs2"]).map
      (fun o => (o.beta_inv_remain, o.tested, o.Vpvalue)) = some (2, true, 1 / 2) := by
  refine ⟨?_, ?_, ?_, ?_⟩ <;> decide!

/-- C14, as amended: for two variants with correlation `-9/10`, unit diagonal and
effect sizes `[1/2, 1/2]`, the sign-mismatch filter flags no pair (the single
lower-triangular cell of `VR` is its own mean), both variants remain, and
`sbat_multi_calcu_V` does not take the sentinel branch: it runs the test and its
p-value output is the value of the chi-square tail function. -/
theorem sbat_scenario_C_no_flag {α : Type} [LinearOrderedField α] (lib : Lib α) (fuel : Nat)
    (X : List (List α)) (snp_indx : List Nat) (s0 s1 : α) (n0 n1 : String)
    (Vchisq Vpvalue : α) (snp_count : Nat)
    (hC : make_cor_matrix lib.sqrt X snp_indx = [[1, -(9 / 10)], [-(9 / 10), 1]])
    (hs0 : lib.sqrt 0 = 0) (hfuel : 2 < fuel) :
    beta_qc_rm lib.sqrt ⟨[1 / 2, 1 / 2], [s0, s1], [n0, n1], [[1, -(9 / 10)], [-(9 / 10), 1]]⟩
      = { rm_ID0 := [], rm_IDi := [], rm_IDj := [] } ∧
    (beta_qc lib.sqrt
      ⟨[1 / 2, 1 / 2], [s0, s1], [n0, n1], [[1, -(9 / 10)], [-(9 / 10), 1]]⟩).2 = 2 ∧
    ∃ out, sbat_multi_calcu_V lib fuel X snp_indx [1 / 2, 1 / 2] [s0, s1] Vchisq Vpvalue
        snp_count [n0, n1] = some out ∧
      out.beta_inv_remain = 2 ∧ out.tested = true ∧
      out.Vpvalue = lib.pchisq out.Vchisq out.st.snp_beta.length := by
  have hnf := beta_flagged_small lib.sqrt hs0
    (beta_qc_VR [[1, -(9 / 10)], [-(9 / 10), 1]] [1 / 2, 1 / 2]) 2 (le_refl 2)
  obtain ⟨hrm, hrem, _⟩ := beta_qc_of_no_flag lib.sqrt
    (⟨[1 / 2, 1 / 2], [s0, s1], [n0, n1], [[1, -(9 / 10)], [-(9 / 10), 1]]⟩ : SetData α) hnf
  have hrem2 : (beta_qc lib.sqrt
      ⟨[1 / 2, 1 / 2], [s0, s1], [n0, n1], [[1, -(9 / 10)], [-(9 / 10), 1]]⟩).2 = 2 := hrem
  refine ⟨hrm, hrem2, ?_⟩
  have hlen : snp_indx.length = 2 := by
    have := congrArg List.length hC
    simpa [make_cor_matrix] using this
  obtain ⟨out, hrun⟩ := sbat_multi_calcu_V_returns lib fuel X snp_indx [1 / 2, 1 / 2] [s0, s1]
    Vchisq Vpvalue snp_count [n0, n1] (by omega)
  refine ⟨out, hrun, ?_⟩
  have hcase := sbat_multi_calcu_V_run lib fuel X snp_indx [1 / 2, 1 / 2] [s0, s1] Vchisq
    Vpvalue snp_count [n0, n1] out hrun
  rw [hC] at hcase
  rcases hcase with ⟨hlt, _⟩ | ⟨_, ht, hp, _⟩
  · rw [hrem2] at hlt
    omega
  · refine ⟨?_, ht, hp⟩
    unfold sbat_multi_calcu_V at hrun
    simp only [hC] at hrun
    split at hrun
    · rename_i hlt
      rw [hrem2] at hlt
      omega
    · split at hrun
      · simp at hrun
      · simp only [Option.some.injEq] at hrun
        rw [← hrun]
        exact hrem2

/-- Witness for C14 as amended: the genotypes `X_neg` and the routines `lib_rat`. -/
theorem sbat_scenario_C_no_flag_witness :
    beta_qc_rm lib_rat.sqrt ⟨[1 / 2, 1 / 2], [1, 1], ["rs1", "rs2"],
        [[1, -(9 / 10)], [-(9 / 10), 1]]⟩
      = { rm_ID0 := [], rm_IDi := [], rm_IDj := [] } ∧
    (beta_qc lib_rat.sqrt
      ⟨[1 / 2, 1 / 2], [1, 1], ["rs1", "rs2"], [[1, -(9 / 10)], [-(9 / 10), 1]]⟩).2 = 2 ∧
    ∃ out, sbat_multi_calcu_V lib_rat 3 X_neg [0, 1] [1 / 2, 1 / 2] [1, 1] 0 0
        0 ["rs1", "rs2"] = some out ∧
      out.beta_inv_remain = 2 ∧ out.tested = true ∧
      out.Vpvalue = lib_rat.pchisq out.Vchisq out.st.snp_beta.length :=
  sbat_scenario_C_no_flag lib_rat 3 X_neg [0, 1] 1 1 "rs1" "rs2" 0 0 0
    (by decide!) (by decide!) (by decide)

/-! ## Applying the sign-mismatch filter twice -/

/-- Tabulating the cells of a `k x k` matrix gives the matrix back. -/
theorem tabulate_entry_self {α : Type} [LinearOrderedField α] (M : List (List α)) (k : Nat)
    (hM : M.length = k) (hrows : ∀ row ∈ M, row.length = k) :
    (List.range k).map (fun a => (List.range k).map (fun b => entry M a b)) = M := by
  apply List.ext_getElem
  · simp [hM]
  · intro n h1 h2
    rw [List.getElem_map, List.getElem_range]
    have hrow : M[n].length = k := hrows _ (List.getElem_mem h2)
    apply List.ext_getElem
    · simp [hrow]
    · intro b hb1 hb2
      rw [List.getElem_map, List.getElem_range]
      unfold entry
      rw [List.getD_eq_getElem _ _ h2, List.getD_eq_getElem _ _ hb2]

/-- Re-indexing the result of a re-indexing through all its positions changes nothing. -/
theorem rebuild_rebuild_range {α : Type} [LinearOrderedField α] (st : SetData α)
    (K : List Nat) :
    rebuild_matrix (rebuild_matrix st K) (List.range K.length) = rebuild_matrix st K := by
  rw [rebuild_matrix_eq (rebuild_matrix st K), rebuild_matrix_eq st K]
  simp only [SetData.mk.injEq]
  have e1 := map_range_getD (K.map (fun a => st.snp_beta.getD a 0)) 0 id
  have e2 := map_range_getD (K.map (fun a => st.snp_btse.getD a 0)) 0 id
  have e3 := map_range_getD (K.map (fun a => st.snp_keep.getD a "")) "" id
  simp only [List.length_map, id] at e1 e2 e3
  rw [List.map_id] at e1 e2 e3
  refine ⟨e1, e2, e3, ?_⟩
  apply tabulate_entry_self
  · simp
  · intro row hrow
    simp only [List.mem_map] at hrow
    obtain ⟨a, _, rfl⟩ := hrow
    simp

/-- C15, counterexample: on the seven-variant matrix `C_twice` with unit effect sizes a
first application of `beta_qc` flags the pair `(6, 5)` only and leaves the five variants
of `C_twice_block`; a second application recomputes the mean and the standard deviation
from the reduced matrix, flags the pair `(1, 0)` and removes two more variants.  First
pass: mean `-3/70`, variance `107/3500`; the cell `-4/5` lies more than `1.96` standard
deviations below the mean, the cell `-1/10` less than one.  Second pass: mean `-1/100`,
variance `1/1000`; the cell `-1/10` lies more than `1.96` standard deviations below the
mean.  The outcome is the same for a threshold of `1` and of `1.96` standard
deviations. -/
theorem beta_qc_not_idempotent :
    (beta_qc_off_m (beta_qc_VR C_twice [1, 1, 1, 1, 1, 1, 1]) 7 = -3 / 70 ∧
      beta_qc_off_v (beta_qc_VR C_twice [1, 1, 1, 1, 1, 1, 1]) 7 (-3 / 70) = 107 / 3500 ∧
      (49 / 25 : ℚ) ^ 2 * (107 / 3500) < (-4 / 5 - -3 / 70) ^ 2 ∧
      (-1 / 10 - -3 / 70 : ℚ) ^ 2 < 107 / 3500) ∧
    beta_qc_rm sqrt_rat ⟨[1, 1, 1, 1, 1, 1, 1], [1, 1, 1, 1, 1, 1, 1],
        ["a", "b", "c", "d", "e", "f", "g"], C_twice⟩
      = { rm_ID0 := [5, 6], rm_IDi := [6], rm_IDj := [5] } ∧
    beta_qc sqrt_rat ⟨[1, 1, 1, 1, 1, 1, 1], [1, 1, 1, 1, 1, 1, 1],
        ["a", "b", "c", "d", "e", "f", "g"], C_twice⟩
      = (⟨[1, 1, 1, 1, 1], [1, 1, 1, 1, 1], ["a", "b", "c", "d", "e"], C_twice_block⟩, 5) ∧
    (beta_qc_off_m (beta_qc_VR C_twice_block [1, 1, 1, 1, 1]) 5 = -1 / 100 ∧
      beta_qc_off_v (beta_qc_VR C_twice_block [1, 1, 1, 1, 1]) 5 (-1 / 100) = 1 / 1000 ∧
      (49 / 25 : ℚ) ^ 2 * (1 / 1000) < (-1 / 10 - -1 / 100) ^ 2) ∧
    beta_qc_rm sqrt_rat ⟨[1, 1, 1, 1, 1], [1, 1, 1, 1, 1], ["a", "b", "c", "d", "e"],
        C_twice_block⟩
      = { rm_ID0 := [0, 1], rm_IDi := [1], rm_IDj := [0] } ∧
    (beta_qc sqrt_rat ⟨[1, 1, 1, 1, 1], [1, 1, 1, 1, 1], ["a", "b", "c", "d", "e"],
        C_twice_block⟩).2 = 3 := by
  refine ⟨⟨by decide!, by decide!, by norm_num, by norm_num⟩, by decide!, by decide!,
    ⟨by decide!, by decide!, by norm_num⟩, by decide!, by decide!⟩

/-- C15, as amended: when a first application of `beta_qc` leaves one or two variants,
a second application to the reduced structures, with the mean and the standard
deviation recomputed from the reduced matrix, flags no pair, removes no variant and
returns the reduced structures unchanged. -/
theorem beta_qc_twice_small {α : Type} [LinearOrderedField α] (sqrt : α → α)
    (hs0 : sqrt 0 = 0) (st : SetData α)
    (h1 : 1 ≤ (beta_qc sqrt st).2) (h2 : (beta_qc sqrt st).2 ≤ 2) :
    beta_qc_rm sqrt (beta_qc sqrt st).1 = { rm_ID0 := [], rm_IDi := [], rm_IDj := [] } ∧
    (beta_qc sqrt (beta_qc sqrt st).1).2 = (beta_qc sqrt st).2 ∧
    (beta_qc sqrt (beta_qc sqrt st).1).1 = (beta_qc sqrt st).1 := by
  obtain ⟨keep, _, _, hlen, _, hreb⟩ := beta_qc_keep sqrt st
  have hst := hreb (by omega)
  have hcols : (((beta_qc sqrt st).1).C.getD 0 []).length = keep.length := by
    rw [hst, rebuild_matrix_eq]
    simp only
    rw [List.getD_eq_getElem _ _ (by simp; omega)]
    simp
  have hnf := beta_flagged_small sqrt hs0
    (beta_qc_VR (beta_qc sqrt st).1.C (beta_qc sqrt st).1.snp_beta)
    (((beta_qc sqrt st).1).C.getD 0 []).length (by omega)
  obtain ⟨hrm, hrem, hkeepall⟩ := beta_qc_of_no_flag sqrt (beta_qc sqrt st).1 hnf
  refine ⟨hrm, by rw [hrem, hcols, hlen], ?_⟩
  rw [hkeepall (by omega), hcols, hst]
  exact rebuild_rebuild_range st keep

/-- Witness for C15 as amended: on the six variants of `C_pairs` with unit effect sizes
the cells `-3/5` of the pairs `(1, 0)` and `(3, 2)` lie more than `1.96` standard
deviations below the mean (mean `-2/25`, variance `39/875`), so a first application
removes four variants and leaves two. -/
theorem beta_qc_twice_small_witness :
    (beta_qc sqrt_rat ⟨[1, 1, 1, 1, 1, 1], [1, 1, 1, 1, 1, 1],
        ["a", "b", "c", "d", "e", "f"], C_pairs⟩).2 = 2 ∧
    beta_qc_rm sqrt_rat (beta_qc sqrt_rat ⟨[1, 1, 1, 1, 1, 1], [1, 1, 1, 1, 1, 1],
        ["a", "b", "c", "d", "e", "f"], C_pairs⟩).1
      = { rm_ID0 := [], rm_IDi := [], rm_IDj := [] } ∧
    (beta_qc sqrt_rat
      (beta_qc sqrt_rat ⟨[1, 1, 1, 1, 1, 1], [1, 1, 1, 1, 1, 1],
        ["a", "b", "c", "d", "e", "f"], C_pairs⟩).1).2
      = (beta_qc sqrt_rat ⟨[1, 1, 1, 1, 1, 1], [1, 1, 1, 1, 1, 1],
        ["a", "b", "c", "d", "e", "f"], C_pairs⟩).2 ∧
    (beta_qc sqrt_rat
      (beta_qc sqrt_rat ⟨[1, 1, 1, 1, 1, 1], [1, 1, 1, 1, 1, 1],
        ["a", "b", "c", "d", "e", "f"], C_pairs⟩).1).1
      = (beta_qc sqrt_rat ⟨[1, 1, 1, 1, 1, 1], [1, 1, 1, 1, 1, 1],
        ["a", "b", "c", "d", "e", "f"], C_pairs⟩).1 :=
  ⟨by decide!,
    beta_qc_twice_small sqrt_rat (by decide!)
      ⟨[1, 1, 1, 1, 1, 1], [1, 1, 1, 1, 1, 1], ["a", "b", "c", "d", "e", "f"], C_pairs⟩
      (by decide!) (by decide!)⟩

/-- The flagged cells of `C_pairs` lie outside the band of `1.96` standard deviations:
mean `-2/25`, variance `39/875`, and `(49/25)^2 * 39/875 < (-3/5 + 2/25)^2`. -/
theorem C_pairs_outside_band :
    beta_qc_off_m (beta_qc_VR C_pairs [1, 1, 1, 1, 1, 1]) 6 = -2 / 25 ∧
    beta_qc_off_v (beta_qc_VR C_pairs [1, 1, 1, 1, 1, 1]) 6 (-2 / 25) = 39 / 875 ∧
    ((49 / 25 : ℚ) ^ 2 * (39 / 875) < (-3 / 5 - -2 / 25) ^ 2) := by
  refine ⟨by decide!, by decide!, by norm_num⟩

/-! ## Two highly correlated variants -/

/-- On two variants whose correlation exceeds the cutoff, `rm_cor_sbat` removes
position 1. -/
theorem rm_cor_sbat_pair {α : Type} [LinearOrderedField α] (R : List (List α)) (c : α)
    (hv : |entry R 1 0| > c) : rm_cor_sbat R c 2 [] = [1] := by
  have hpairs : cor_pairs R c 2 = [(1, 0)] := by
    unfold cor_pairs
    have hl : lower_pairs 2 = [(1, 0)] := by decide
    rw [hl, List.filter_cons_of_pos (by simpa using hv)]
    rfl
  have hch : cor_choice R c 2 (1, 0) = 1 := by
    unfold cor_choice cor_count
    rw [hpairs]
    decide
  rw [rm_cor_sbat_eq, hpairs, List.map_cons, hch]
  rfl

/-- One iteration of the collinearity loop on a single variant with unit diagonal ends
the loop and keeps the variant. -/
theorem colin_loop_single {α : Type} [LinearOrderedField α]
    (pca : List (List α) → EigenSolver α)
    (hpca : (pca [[1]]).eigenvalues = [1] ∧
      ∃ v, (pca [[1]]).eigenvectors = [[v]] ∧ v * v = 1)
    (fuel : Nat) (b s : α) (n : String) (count : Nat) :
    colin_loop pca (fuel + 1) ⟨[b], [s], [n], [[1]]⟩ count
      = some { st := ⟨[b], [s], [n], [[1]]⟩, new_C_indx := [0], count := count + 1 } := by
  unfold colin_loop
  simp only
  rw [VIF_one pca hpca]
  have hidx : colin_new_C_indx ([[1]] : List (List α)).length (-1) = [0] := rfl
  have hng : ¬ ((-1 : Int) > -1) := by omega
  rw [if_neg hng, hidx, rebuild_matrix_eq]
  simp [entry]

/-- The run of `sbat_multi_calcu_V` once the result of `beta_qc` (at least one variant
left) and of the collinearity loop are known. -/
theorem sbat_multi_calcu_V_of_stages {α : Type} [LinearOrderedField α] (lib : Lib α)
    (fuel : Nat) (X : List (List α)) (snp_indx : List Nat) (set_beta set_se : List α)
    (Vchisq Vpvalue : α) (snp_count : Nat) (snp_kept : List String)
    (st1 : SetData α) (k : Nat) (o : ColinOut α)
    (hqc : beta_qc lib.sqrt ⟨set_beta, set_se, snp_kept, make_cor_matrix lib.sqrt X snp_indx⟩
      = (st1, k))
    (hk : 1 ≤ k)
    (hloop : colin_loop lib.pca fuel
      (rebuild_matrix st1 (recalculate_ndx k (rm_cor_sbat st1.C (lib.sqrt (9 / 10)) k []) []))
      0 = some o) :
    ∃ out, sbat_multi_calcu_V lib fuel X snp_indx set_beta set_se Vchisq Vpvalue snp_count
        snp_kept = some out ∧
      out.tested = true ∧ out.beta_inv_remain = k ∧
      out.pairwise_remain
        = (recalculate_ndx k (rm_cor_sbat st1.C (lib.sqrt (9 / 10)) k []) []).length ∧
      out.removed_colinear = o.count - 1 ∧ out.snp_count = o.new_C_indx.length ∧
      out.snp_kept = o.st.snp_keep ∧ out.st = o.st ∧
      out.Vchisq = quad_form o.st.snp_beta (lib.comput_inverse_logdet_LDLT
        (List.zipWith (fun rowS rowC => List.zipWith (fun x c => x * c) rowS rowC)
          (o.st.snp_btse.map (fun a => o.st.snp_btse.map (fun b => a * b))) o.st.C)).2 ∧
      out.Vpvalue = lib.pchisq out.Vchisq o.st.snp_beta.length := by
  unfold sbat_multi_calcu_V
  simp only
  rw [hqc]
  simp only
  rw [if_neg (by omega), hloop]
  exact ⟨_, rfl, rfl, rfl, rfl, rfl, rfl, rfl, rfl, rfl, rfl⟩

/-- C13: for a set of two variants with unit-diagonal correlation matrix and
`C(0,1) = C(1,0) = 0.95`, with a cutoff `sqrt(0.9)` below `0.95`, `sqrt 0 = 0` and an
eigen-solver that is exact on the `1 x 1` matrix `[1]`, the pipeline keeps both variants
in the sign-mismatch filter, removes the variant at position 1 in the pairwise pruning
(equal incidence counts: the higher index goes), removes nothing in the collinearity
loop, and ends with exactly one surviving variant, the one at original position 0. -/
theorem sbat_scenario_B {α : Type} [LinearOrderedField α] (lib : Lib α) (fuel : Nat)
    (X : List (List α)) (snp_indx : List Nat) (b0 b1 s0 s1 : α) (n0 n1 : String)
    (Vchisq Vpvalue : α) (snp_count : Nat)
    (hC : make_cor_matrix lib.sqrt X snp_indx = [[1, 19 / 20], [19 / 20, 1]])
    (hs0 : lib.sqrt 0 = 0) (hcut : lib.sqrt (9 / 10) < 19 / 20)
    (hpca : (lib.pca [[1]]).eigenvalues = [1] ∧
      ∃ v, (lib.pca [[1]]).eigenvectors = [[v]] ∧ v * v = 1) :
    ∃ out, sbat_multi_calcu_V lib (fuel + 1) X snp_indx [b0, b1] [s0, s1] Vchisq Vpvalue
        snp_count [n0, n1] = some out ∧
      out.tested = true ∧ out.beta_inv_remain = 2 ∧ out.pairwise_remain = 1 ∧
      out.removed_colinear = 0 ∧ out.snp_count = 1 ∧
      out.snp_kept = [n0] ∧ out.st.snp_beta = [b0] ∧ out.st.snp_btse = [s0] ∧
      out.st.C = [[1]] := by
  have hnf := beta_flagged_small lib.sqrt hs0
    (beta_qc_VR [[1, 19 / 20], [19 / 20, 1]] [b0, b1]) 2 (le_refl 2)
  obtain ⟨_, hrem, hkeep⟩ := beta_qc_of_no_flag lib.sqrt
    (⟨[b0, b1], [s0, s1], [n0, n1], [[1, 19 / 20], [19 / 20, 1]]⟩ : SetData α) hnf
  have hqc : beta_qc lib.sqrt ⟨[b0, b1], [s0, s1], [n0, n1], [[1, 19 / 20], [19 / 20, 1]]⟩
      = (⟨[b0, b1], [s0, s1], [n0, n1], [[1, 19 / 20], [19 / 20, 1]]⟩, 2) := by
    apply Prod.ext
    · rw [hkeep (by simp), rebuild_matrix_eq]
      simp [entry, List.range_succ]
    · exact hrem
  have hrm : rm_cor_sbat ([[1, 19 / 20], [19 / 20, 1]] : List (List α)) (lib.sqrt (9 / 10)) 2 []
      = [1] := by
    apply rm_cor_sbat_pair
    have h : entry ([[1, 19 / 20], [19 / 20, 1]] : List (List α)) 1 0 = 19 / 20 := by
      simp [entry]
    rw [h, abs_of_pos (by norm_num)]
    exact hcut
  have hidx : recalculate_ndx 2 [1] [] = [0] := by decide
  have hreb : rebuild_matrix
      (⟨[b0, b1], [s0, s1], [n0, n1], [[1, 19 / 20], [19 / 20, 1]]⟩ : SetData α) [0]
      = ⟨[b0], [s0], [n0], [[1]]⟩ := by
    rw [rebuild_matrix_eq]
    simp [entry]
  have hqc2 : beta_qc lib.sqrt ⟨[b0, b1], [s0, s1], [n0, n1], make_cor_matrix lib.sqrt X snp_indx⟩
      = (⟨[b0, b1], [s0, s1], [n0, n1], [[1, 19 / 20], [19 / 20, 1]]⟩, 2) := by
    rw [hC]
    exact hqc
  have hloop : colin_loop lib.pca (fuel + 1)
      (rebuild_matrix (⟨[b0, b1], [s0, s1], [n0, n1], [[1, 19 / 20], [19 / 20, 1]]⟩ : SetData α)
        (recalculate_ndx 2 (rm_cor_sbat
          (⟨[b0, b1], [s0, s1], [n0, n1], [[1, 19 / 20], [19 / 20, 1]]⟩ : SetData α).C
          (lib.sqrt (9 / 10)) 2 []) [])) 0
      = some { st := ⟨[b0], [s0], [n0], [[1]]⟩, new_C_indx := [0], count := 0 + 1 } := by
    simp only
    rw [hrm, hidx, hreb]
    exact colin_loop_single lib.pca hpca fuel b0 s0 n0 0
  obtain ⟨out, hrun, h1, h2, h3, h4, h5, h6, h7, _, _⟩ :=
    sbat_multi_calcu_V_of_stages lib (fuel + 1) X snp_indx [b0, b1] [s0, s1] Vchisq Vpvalue
      snp_count [n0, n1] _ 2 _ hqc2 (by decide) hloop
  refine ⟨out, hrun, h1, h2, ?_, h4, h5, h6, ?_, ?_, ?_⟩
  · rw [h3]
    simp only
    rw [hrm, hidx]
    rfl
  · rw [h7]
  · rw [h7]
  · rw [h7]

/-- Witness for C13: genotypes with correlation `19/20` and the routines `lib_rat`,
whose cutoff is `0.94868`. -/
theorem sbat_scenario_B_witness :
    ∃ out, sbat_multi_calcu_V lib_rat (2 + 1) X_pos [0, 1] [1, 2] [1, 1] 0 0
        0 ["rs1", "rs2"] = some out ∧
      out.tested = true ∧ out.beta_inv_remain = 2 ∧ out.pairwise_remain = 1 ∧
      out.removed_colinear = 0 ∧ out.snp_count = 1 ∧
      out.snp_kept = ["rs1"] ∧ out.st.snp_beta = [1] ∧ out.st.snp_btse = [1] ∧
      out.st.C = [[1]] :=
  sbat_scenario_B lib_rat 2 X_pos [0, 1] 1 2 1 1 "rs1" "rs2" 0 0 0
    (by decide!) (by decide!) (by decide!)
    ⟨by decide!, 1, by decide!, by norm_num⟩

/-! ## Uncorrelated variants -/

/-- A sum over `0 .. n-1` with a single non-zero term. -/
theorem sum_range_single {α : Type} [LinearOrderedField α] (n j : Nat) (f : Nat → α) :
    ((List.range n).map (fun k => if k = j then f k else 0)).sum
      = if j < n then f j else 0 := by
  induction n with
  | zero => simp
  | succ n ih =>
    rw [List.range_succ, List.map_append, List.sum_append, ih]
    by_cases hjn : j = n
    · subst hjn
      simp
    · by_cases hlt : j < n
      · have h2 : j < n + 1 := by omega
        have h3 : ¬ n = j := fun h => hjn h.symm
        simp [hlt, h2, h3]
      · have h2 : ¬ j < n + 1 := by omega
        have h3 : ¬ n = j := fun h => hjn h.symm
        simp [hlt, h2, h3]

/-- Cell of the identity matrix. -/
theorem entry_identity {α : Type} [LinearOrderedField α] (n i j : Nat) :
    entry (identity_matrix n : List (List α)) i j
      = if i < n ∧ j < n then (if i = j then 1 else 0) else 0 := by
  unfold identity_matrix
  exact entry_tabulate n (fun i j => if i = j then 1 else 0) i j

/-- Off the diagonal the identity matrix is zero. -/
theorem entry_identity_ne {α : Type} [LinearOrderedField α] (n i j : Nat) (h : i ≠ j) :
    entry (identity_matrix n : List (List α)) i j = 0 := by
  rw [entry_identity]
  simp [h]

/-- Shape of the identity matrix. -/
theorem identity_matrix_shape {α : Type} [LinearOrderedField α] (n : Nat) :
    (identity_matrix n : List (List α)).length = n ∧
    ∀ row ∈ (identity_matrix n : List (List α)), row.length = n := by
  unfold identity_matrix
  refine ⟨by simp, ?_⟩
  intro row hrow
  simp only [List.mem_map] at hrow
  obtain ⟨a, _, rfl⟩ := hrow
  simp

/-- Two tabulated matrices with the same cells are equal. -/
theorem tabulate_congr {α : Type} (n : Nat) (f g : Nat → Nat → α)
    (h : ∀ i j, i < n → j < n → f i j = g i j) :
    (List.range n).map (fun i => (List.range n).map (fun j => f i j))
      = (List.range n).map (fun i => (List.range n).map (fun j => g i j)) := by
  apply List.map_congr_left
  intro i hi
  apply List.map_congr_left
  intro j hj
  exact h i j (List.mem_range.mp hi) (List.mem_range.mp hj)

/-- With unit eigenvalues and the identity as eigenvectors, the pseudo-inverse of
`sbat_VIF_iter_rm_colin` is the identity. -/
theorem VIF_R_i_identity {α : Type} [LinearOrderedField α]
    (pca : List (List α) → EigenSolver α) (n : Nat)
    (hpca : (pca (identity_matrix n)).eigenvalues = List.replicate n 1 ∧
      (pca (identity_matrix n)).eigenvectors = identity_matrix n) :
    VIF_R_i pca (identity_matrix n) = identity_matrix n := by
  unfold VIF_R_i
  simp only [(identity_matrix_shape n).1, hpca.1, hpca.2]
  have hdiag : as_diagonal n (VIF_d_i (List.replicate n (1 : α)) n) = identity_matrix n := by
    unfold as_diagonal identity_matrix VIF_d_i
    apply tabulate_congr
    intro i j hi _
    by_cases hij : i = j
    · rw [if_pos hij, if_pos hij, getD_tabulate, if_pos hi]
      have h1 : (List.replicate n (1 : α)).getD i 0 = 1 := by
        rw [List.getD_eq_getElem?_getD, List.getElem?_replicate, if_pos hi]
        rfl
      rw [h1]
      norm_num
    · rw [if_neg hij, if_neg hij]
  have hmul : mat_mul n (identity_matrix n : List (List α)) (identity_matrix n)
      = identity_matrix n := by
    unfold mat_mul
    conv_rhs => unfold identity_matrix
    apply tabulate_congr
    intro i j hi hj
    have hterm : (fun k => entry (identity_matrix n : List (List α)) i k
          * entry (identity_matrix n : List (List α)) k j)
        = (fun k => if k = i then entry (identity_matrix n : List (List α)) k j else 0) := by
      funext k
      by_cases hki : k = i
      · subst hki
        rw [if_pos rfl, entry_identity n k k]
        by_cases hk : k < n
        · simp [hk]
        · exact absurd hi hk
      · rw [if_neg hki, entry_identity_ne n i k (fun h => hki h.symm), zero_mul]
    rw [hterm, sum_range_single, if_pos hi, entry_identity, if_pos ⟨hi, hj⟩]
  have htr : mat_transpose n (identity_matrix n : List (List α)) = identity_matrix n := by
    unfold mat_transpose
    conv_rhs => unfold identity_matrix
    apply tabulate_congr
    intro i j hi hj
    rw [entry_identity, if_pos ⟨hj, hi⟩]
    by_cases hij : i = j
    · rw [if_pos hij, if_pos hij.symm]
    · rw [if_neg hij, if_neg (fun h => hij h.symm)]
  rw [hdiag, hmul, htr, hmul]

/-- On the identity matrix every `multi_rsq_buf[j]` is `0`. -/
theorem VIF_multi_rsq_identity {α : Type} [LinearOrderedField α]
    (pca : List (List α) → EigenSolver α) (n : Nat)
    (hpca : (pca (identity_matrix n)).eigenvalues = List.replicate n 1 ∧
      (pca (identity_matrix n)).eigenvectors = identity_matrix n) (j : Nat) :
    (VIF_multi_rsq pca (identity_matrix n)).getD j 0 = 0 := by
  unfold VIF_multi_rsq
  rw [getD_tabulate, (identity_matrix_shape n).1]
  by_cases hj : j < n
  · rw [if_pos hj]
    have hmax : (VIF_max_rsq (identity_matrix n : List (List α))).getD j 0 = 0 := by
      have hb := VIF_max_rsq_bounds (identity_matrix n : List (List α)) j
        (by rw [(identity_matrix_shape n).1]; exact hj)
        (fun i _ hij => by rw [entry_identity_ne n i j hij]; simp)
      rw [VIF_max_rsq_getD _ j (by rw [(identity_matrix_shape n).1]; exact hj)] at hb ⊢
      rw [(identity_matrix_shape n).1] at hb ⊢
      by_cases hlt : maxCoeff ((List.range n).map
          (fun i => entry (VIF_R_sq (identity_matrix n : List (List α))) i j)) < n
      · rw [getD_tabulate, if_pos hlt,
          VIF_R_sq_entry _ _ j (by rw [(identity_matrix_shape n).1]; exact hlt)
            (by rw [(identity_matrix_shape n).1]; exact hj)]
        split
        · rfl
        · rename_i hne
          rw [entry_identity_ne n _ j hne, zero_mul]
      · rw [getD_tabulate, if_neg hlt]
    have hinit : (VIF_multi_rsq_init (VIF_R_i pca (identity_matrix n))
        (identity_matrix n)).getD j 0 = 0 := by
      rw [VIF_R_i_identity pca n hpca]
      unfold VIF_multi_rsq_init VIF_Q_diag
      rw [getD_tabulate, (identity_matrix_shape n).1, if_pos hj]
      simp only
      rw [getD_tabulate, if_pos hj]
      have hterm : (fun k => entry (identity_matrix n : List (List α)) k j
            * entry (identity_matrix n : List (List α)) j k)
          = (fun k => if k = j then (1 : α) else 0) := by
        funext k
        by_cases hkj : k = j
        · subst hkj
          rw [if_pos rfl, entry_identity, if_pos ⟨hj, hj⟩, if_pos rfl, one_mul]
        · rw [if_neg hkj, entry_identity_ne n k j hkj, zero_mul]
      have hq : ((List.range n).map (fun k => entry (identity_matrix n : List (List α)) k j
          * entry (identity_matrix n : List (List α)) j k)).sum = 1 := by
        rw [hterm, sum_range_single, if_pos hj]
      have he : entry (identity_matrix n : List (List α)) j j = 1 := by
        rw [entry_identity, if_pos ⟨hj, hj⟩, if_pos rfl]
      rw [hq, he]
      norm_num
    rw [hmax, hinit]
    simp
  · rw [if_neg hj]

/-- On the identity matrix `sbat_VIF_iter_rm_colin` returns `-1`. -/
theorem VIF_identity {α : Type} [LinearOrderedField α]
    (pca : List (List α) → EigenSolver α) (n : Nat)
    (hpca : (pca (identity_matrix n)).eigenvalues = List.replicate n 1 ∧
      (pca (identity_matrix n)).eigenvectors = identity_matrix n) :
    sbat_VIF_iter_rm_colin pca (identity_matrix n) = -1 := by
  by_contra hne
  obtain ⟨_, _, hsel⟩ := VIF_fold_invariant (VIF_multi_rsq pca (identity_matrix n))
    (identity_matrix n : List (List α)).length (identity_matrix n : List (List α)).length
    (le_refl _)
  have hdef : sbat_VIF_iter_rm_colin pca (identity_matrix n)
      = ((List.range (identity_matrix n : List (List α)).length).foldl
          (VIF_step (VIF_multi_rsq pca (identity_matrix n)))
          { vif := List.replicate (identity_matrix n : List (List α)).length 0,
            max := 0, pos := -1 }).pos := rfl
  rcases hsel with ⟨hpos, _, _⟩ | ⟨p, _, _, _, hgt, _, _⟩
  · exact hne (hdef.trans hpos)
  · rw [VIF_multi_rsq_identity pca n hpca p] at hgt
    unfold VIF_value at hgt
    norm_num at hgt

/-- Element-wise product of two vectors, read with default `0`. -/
theorem getD_zipWith_mul {α : Type} [LinearOrderedField α] (a b : List α) (j : Nat) :
    (List.zipWith (fun c b => c * b) a b).getD j 0 = a.getD j 0 * b.getD j 0 := by
  induction a generalizing b j with
  | nil => simp
  | cons x a ih =>
    cases b with
    | nil => simp
    | cons y b =>
      cases j with
      | zero => simp
      | succ j =>
        simp only [List.zipWith_cons_cons, List.getD_cons_succ]
        exact ih b j

/-- Element-wise product of two matrices, read with `entry`. -/
theorem entry_zipWith_mul {α : Type} [LinearOrderedField α] (A B : List (List α))
    (i j : Nat) :
    entry (List.zipWith (fun rowC rowB => List.zipWith (fun c b => c * b) rowC rowB) A B) i j
      = entry A i j * entry B i j := by
  induction A generalizing B i with
  | nil => simp [entry]
  | cons x A ih =>
    cases B with
    | nil => simp [entry]
    | cons y B =>
      cases i with
      | zero =>
        simp only [entry, List.zipWith_cons_cons, List.getD_cons_zero]
        exact getD_zipWith_mul x y j
      | succ i =>
        have h := ih B i
        simp only [entry, List.zipWith_cons_cons, List.getD_cons_succ] at h ⊢
        exact h

/-- The function `zipWith` on two lists tabulated over the same index list. -/
theorem zipWith_map_map {ι β γ δ : Type} (h : β → γ → δ) (f : ι → β) (g : ι → γ)
    (l : List ι) :
    List.zipWith h (l.map f) (l.map g) = l.map (fun i => h (f i) (g i)) := by
  induction l with
  | nil => rfl
  | cons a l ih => simp [ih]

/-- A list as the tabulation of its reads. -/
theorem range_map_getD_self {β : Type} (l : List β) (d : β) (n : Nat) (hl : l.length = n) :
    (List.range n).map (fun i => l.getD i d) = l := by
  have e := map_range_getD l d id
  simp only [id] at e
  rw [List.map_id, hl] at e
  exact e

/-- The function `zipWith` on two lists of the same length, as a tabulation. -/
theorem zipWith_eq_tabulate {β γ δ : Type} (h : β → γ → δ) (a : List β) (b : List γ)
    (da : β) (db : γ) (n : Nat) (ha : a.length = n) (hb : b.length = n) :
    List.zipWith h a b = (List.range n).map (fun i => h (a.getD i da) (b.getD i db)) := by
  rw [← zipWith_map_map h (fun i => a.getD i da) (fun i => b.getD i db),
    range_map_getD_self a da n ha, range_map_getD_self b db n hb]

/-- First row of the identity matrix. -/
theorem identity_matrix_msnps {α : Type} [LinearOrderedField α] (n : Nat) (hn : 1 ≤ n) :
    ((identity_matrix n : List (List α)).getD 0 []).length = n := by
  have hlen := (identity_matrix_shape (α := α) n).1
  have h0 : 0 < (identity_matrix n : List (List α)).length := by omega
  rw [List.getD_eq_getElem _ _ h0]
  exact (identity_matrix_shape (α := α) n).2 _ (List.getElem_mem h0)

/-- On the identity matrix the sign-mismatch filter flags no pair. -/
theorem beta_flagged_identity {α : Type} [LinearOrderedField α] (n : Nat) (beta : List α)
    (m : Nat) (off_m off_sd : α) :
    beta_flagged (beta_qc_VR (identity_matrix n) beta) m off_m off_sd = [] := by
  rw [List.eq_nil_iff_forall_not_mem]
  intro p hp
  obtain ⟨⟨h1, _⟩, hneg, _⟩ := (mem_beta_flagged _ m off_m off_sd p).mp hp
  unfold beta_qc_VR at hneg
  simp only at hneg
  rw [entry_zipWith_mul, entry_identity_ne n p.1 p.2 (by omega), zero_mul] at hneg
  exact lt_irrefl _ hneg

/-- On the identity matrix the pairwise pruning removes nothing when the cutoff is not
negative. -/
theorem rm_cor_sbat_identity {α : Type} [LinearOrderedField α] (n m : Nat) (c : α)
    (hc : 0 ≤ c) :
    rm_cor_sbat (identity_matrix n) c m [] = [] := by
  rw [rm_cor_sbat_eq]
  have hnil : cor_pairs (identity_matrix n : List (List α)) c m = [] := by
    rw [List.eq_nil_iff_forall_not_mem]
    intro p hp
    obtain ⟨⟨h1, _⟩, hgt⟩ := (mem_cor_pairs _ c m p).mp hp
    rw [entry_identity_ne n p.1 p.2 (by omega), abs_zero] at hgt
    exact absurd hc (not_le.mpr hgt)
  rw [hnil]
  rfl

/-- The positions other than `-1` are all positions. -/
theorem colin_new_C_indx_neg_one (size : Nat) :
    colin_new_C_indx size (-1) = List.range size := by
  rw [colin_new_C_indx_eq]
  apply List.filter_eq_self.mpr
  intro a _
  have h : (-1 : Int) ≠ (a : Int) := by omega
  simp [h]

/-- On the identity matrix the collinearity loop stops after one iteration and removes
nothing. -/
theorem colin_loop_identity {α : Type} [LinearOrderedField α]
    (pca : List (List α) → EigenSolver α) (n : Nat)
    (hpca : (pca (identity_matrix n)).eigenvalues = List.replicate n 1 ∧
      (pca (identity_matrix n)).eigenvectors = identity_matrix n)
    (fuel : Nat) (st : SetData α) (hC : st.C = identity_matrix n)
    (hself : rebuild_matrix st (List.range n) = st) (count : Nat) :
    colin_loop pca (fuel + 1) st count
      = some { st := st, new_C_indx := List.range n, count := count + 1 } := by
  unfold colin_loop
  simp only
  rw [hC, VIF_identity pca n hpca, colin_new_C_indx_neg_one, (identity_matrix_shape n).1]
  have hng : ¬ ((-1 : Int) > -1) := by omega
  rw [if_neg hng, hself]

/-- Re-indexing a set whose matrix is the identity through all its positions keeps the
effects, the errors and the matrix. -/
theorem rebuild_identity_range {α : Type} [LinearOrderedField α] (st : SetData α) (n : Nat)
    (hC : st.C = identity_matrix n) (hb : st.snp_beta.length = n)
    (hs : st.snp_btse.length = n) :
    (rebuild_matrix st (List.range n)).snp_beta = st.snp_beta ∧
    (rebuild_matrix st (List.range n)).snp_btse = st.snp_btse ∧
    (rebuild_matrix st (List.range n)).C = identity_matrix n := by
  rw [rebuild_matrix_eq]
  refine ⟨range_map_getD_self _ 0 n hb, range_map_getD_self _ 0 n hs, ?_⟩
  simp only
  rw [hC]
  exact tabulate_entry_self _ n (identity_matrix_shape n).1 (identity_matrix_shape n).2

/-- The matrix `V = C .* (se * se^T)` of a set with identity correlation matrix is the
diagonal matrix of the squared standard errors. -/
theorem V_identity {α : Type} [LinearOrderedField α] (se : List α) (n : Nat)
    (hs : se.length = n) :
    List.zipWith (fun rowS rowC => List.zipWith (fun x c => x * c) rowS rowC)
        (se.map (fun a => se.map (fun b => a * b))) (identity_matrix n)
      = as_diagonal n (se.map (fun s => s * s)) := by
  have h1 : se.map (fun a => se.map (fun b => a * b))
      = (List.range n).map (fun i => (List.range n).map
          (fun j => se.getD i 0 * se.getD j 0)) := by
    have e := map_range_getD se 0 (fun a => se.map (fun b => a * b))
    rw [hs] at e
    rw [← e]
    apply List.map_congr_left
    intro i _
    have e2 := map_range_getD se 0 (fun b => se.getD i 0 * b)
    rw [hs] at e2
    exact e2.symm
  rw [h1]
  unfold identity_matrix as_diagonal
  rw [zipWith_map_map]
  apply List.map_congr_left
  intro i hi
  rw [zipWith_map_map]
  apply List.map_congr_left
  intro j _
  have hi2 : i < se.length := by rw [hs]; exact List.mem_range.mp hi
  by_cases hij : i = j
  · subst hij
    rw [if_pos rfl, if_pos rfl, mul_one, List.getD_eq_getElem _ _ hi2,
      List.getD_eq_getElem _ _ (by rw [List.length_map]; exact hi2), List.getElem_map]
  · rw [if_neg hij, if_neg hij, mul_zero]

/-- Quadratic form of a diagonal matrix. -/
theorem quad_form_diagonal {α : Type} [LinearOrderedField α] (beta d : List α) :
    quad_form beta (as_diagonal beta.length d)
      = ((List.range beta.length).map
          (fun i => beta.getD i 0 * d.getD i 0 * beta.getD i 0)).sum := by
  unfold quad_form
  congr 1
  apply List.map_congr_left
  intro i hi
  have hi2 := List.mem_range.mp hi
  have hterm : (fun j => beta.getD i 0 * entry (as_diagonal beta.length d) i j
        * beta.getD j 0)
      = (fun j => if j = i then beta.getD i 0 * d.getD i 0 * beta.getD j 0 else 0) := by
    funext j
    unfold as_diagonal
    rw [entry_tabulate]
    by_cases hji : j = i
    · subst hji
      simp [hi2]
    · have hij : ¬ i = j := fun h => hji h.symm
      simp [hji, hij]
  rw [hterm, sum_range_single, if_pos hi2]
/-- The routine `inv_diag` inverts diagonal matrices entry by entry. -/
theorem inv_diag_exact (n : Nat) (d : List ℚ) (hd : d.length = n) :
    (inv_diag (as_diagonal n d)).2 = as_diagonal n (d.map (fun x => 1 / x)) := by
  unfold inv_diag
  simp only
  have hlen : (as_diagonal n d).length = n := by
    unfold as_diagonal
    simp
  rw [hlen]
  congr 1
  have e := map_range_getD d 0 (fun x => 1 / x)
  rw [hd] at e
  rw [← e]
  apply List.map_congr_left
  intro i hi
  have hi2 := List.mem_range.mp hi
  unfold as_diagonal
  rw [entry_tabulate, if_pos ⟨hi2, hi2⟩, if_pos rfl]

/-- C12: when the correlation matrix of a set of `N >= 1` variants is the `N x N`
identity and all standard errors are non-zero (with a non-negative cutoff `sqrt(0.9)`,
an eigen-solver that is exact on the identity and an inverse routine that is exact on
diagonal matrices with non-zero diagonal), the sign-mismatch filter, the pairwise
pruning and the collinearity loop remove nothing (all three counts are `N`, effects and
errors are unchanged), the chi-square statistic is the sum over the variants of
`(beta_i / se_i)^2`, and the p-value is taken at `N` degrees of freedom. -/
theorem sbat_scenario_A {α : Type} [LinearOrderedField α] (lib : Lib α) (fuel N : Nat)
    (X : List (List α)) (snp_indx : List Nat) (set_beta set_se : List α)
    (Vchisq Vpvalue : α) (snp_count : Nat) (snp_kept : List String)
    (hN : 1 ≤ N) (hb : set_beta.length = N) (hs : set_se.length = N)
    (hC : make_cor_matrix lib.sqrt X snp_indx = identity_matrix N)
    (hse : ∀ s ∈ set_se, s ≠ 0)
    (hcut : 0 ≤ lib.sqrt (9 / 10))
    (hpca : (lib.pca (identity_matrix N)).eigenvalues = List.replicate N 1 ∧
      (lib.pca (identity_matrix N)).eigenvectors = identity_matrix N)
    (hinv : ∀ d : List α, d.length = N → (∀ x ∈ d, x ≠ 0) →
      (lib.comput_inverse_logdet_LDLT (as_diagonal N d)).2
        = as_diagonal N (d.map (fun x => 1 / x))) :
    ∃ out, sbat_multi_calcu_V lib (fuel + 1) X snp_indx set_beta set_se Vchisq Vpvalue
        snp_count snp_kept = some out ∧
      out.tested = true ∧ out.beta_inv_remain = N ∧ out.pairwise_remain = N ∧
      out.removed_colinear = 0 ∧ out.snp_count = N ∧
      out.st.snp_beta = set_beta ∧ out.st.snp_btse = set_se ∧
      out.st.C = identity_matrix N ∧
      out.Vchisq = (List.zipWith (fun b s => (b / s) ^ 2) set_beta set_se).sum ∧
      out.Vpvalue = lib.pchisq out.Vchisq N := by
  have hflag := beta_qc_of_no_flag lib.sqrt
    (⟨set_beta, set_se, snp_kept, identity_matrix N⟩ : SetData α)
    (beta_flagged_identity N set_beta _ _ _)
  simp only [identity_matrix_msnps N hN] at hflag
  obtain ⟨_, hk, hst⟩ := hflag
  have hqc : beta_qc lib.sqrt ⟨set_beta, set_se, snp_kept, make_cor_matrix lib.sqrt X snp_indx⟩
      = (rebuild_matrix ⟨set_beta, set_se, snp_kept, identity_matrix N⟩ (List.range N), N) := by
    rw [hC]
    exact Prod.ext (hst hN) hk
  obtain ⟨h1b, h1s, h1C⟩ := rebuild_identity_range
    (⟨set_beta, set_se, snp_kept, identity_matrix N⟩ : SetData α) N rfl hb hs
  have hself : rebuild_matrix
      (rebuild_matrix (⟨set_beta, set_se, snp_kept, identity_matrix N⟩ : SetData α)
        (List.range N)) (List.range N)
      = rebuild_matrix ⟨set_beta, set_se, snp_kept, identity_matrix N⟩ (List.range N) := by
    have h := rebuild_rebuild_range
      (⟨set_beta, set_se, snp_kept, identity_matrix N⟩ : SetData α) (List.range N)
    rw [List.length_range] at h
    exact h
  have hidx : recalculate_ndx N (rm_cor_sbat
      (rebuild_matrix (⟨set_beta, set_se, snp_kept, identity_matrix N⟩ : SetData α)
        (List.range N)).C (lib.sqrt (9 / 10)) N []) [] = List.range N := by
    rw [h1C, rm_cor_sbat_identity N N _ hcut, recalculate_ndx_nil]
  have hloop : colin_loop lib.pca (fuel + 1)
      (rebuild_matrix
        (rebuild_matrix (⟨set_beta, set_se, snp_kept, identity_matrix N⟩ : SetData α)
          (List.range N))
        (recalculate_ndx N (rm_cor_sbat
          (rebuild_matrix (⟨set_beta, set_se, snp_kept, identity_matrix N⟩ : SetData α)
            (List.range N)).C (lib.sqrt (9 / 10)) N []) [])) 0
      = some { st := rebuild_matrix ⟨set_beta, set_se, snp_kept, identity_matrix N⟩
                 (List.range N),
               new_C_indx := List.range N, count := 0 + 1 } := by
    rw [hidx, hself]
    exact colin_loop_identity lib.pca N hpca fuel _ h1C hself 0
  obtain ⟨out, hrun, ht, hbi, hpr, hrc, hsc, _, hst2, hchi, hpv⟩ :=
    sbat_multi_calcu_V_of_stages lib (fuel + 1) X snp_indx set_beta set_se Vchisq Vpvalue
      snp_count snp_kept _ N _ hqc hN hloop
  simp only at hrc hsc hst2 hchi hpv
  have hVchisq : out.Vchisq
      = (List.zipWith (fun b s => (b / s) ^ 2) set_beta set_se).sum := by
    rw [hchi, h1b, h1s, h1C, V_identity set_se N hs,
      hinv (set_se.map (fun s => s * s)) (by rw [List.length_map]; exact hs)
        (by
          intro x hx
          obtain ⟨s, hsm, rfl⟩ := List.mem_map.mp hx
          exact mul_ne_zero (hse s hsm) (hse s hsm))]
    have hq := quad_form_diagonal set_beta
      ((set_se.map (fun s => s * s)).map (fun x => 1 / x))
    rw [hb] at hq
    rw [hq, zipWith_eq_tabulate (fun b s => (b / s) ^ 2) set_beta set_se 0 0 N hb hs]
    congr 1
    apply List.map_congr_left
    intro i hi
    have hi2 : i < set_se.length := by rw [hs]; exact List.mem_range.mp hi
    have hd : (List.map (fun x => 1 / x) (List.map (fun s => s * s) set_se)).getD i 0
        = 1 / (set_se.getD i 0 * set_se.getD i 0) := by
      have hi3 : i < (List.map (fun x => 1 / x)
          (List.map (fun s => s * s) set_se)).length := by
        rw [List.length_map, List.length_map]
        exact hi2
      rw [List.getD_eq_getElem _ _ hi3, List.getD_eq_getElem set_se _ hi2]
      simp only [List.getElem_map]
    rw [hd]
    ring
  refine ⟨out, hrun, ht, hbi, ?_, ?_, ?_, ?_, ?_, ?_, hVchisq, ?_⟩
  · rw [hpr, hidx, List.length_range]
  · rw [hrc]
  · rw [hsc, List.length_range]
  · rw [hst2, h1b]
  · rw [hst2, h1s]
  · rw [hst2, h1C]
  · rw [hpv, h1b, hb]

/-- Witness for C12: three uncorrelated variants with effects `0.1, 0.2, 0.15` and
standard errors `0.05`: three survivors and a chi-square statistic of
`4 + 16 + 9 = 29`. -/
theorem sbat_scenario_A_witness :
    (∃ out, sbat_multi_calcu_V lib_diag (0 + 1) X_id3 [0, 1, 2] [1 / 10, 1 / 5, 3 / 20]
        [1 / 20, 1 / 20, 1 / 20] 0 0 0 ["rs1", "rs2", "rs3"] = some out ∧
      out.tested = true ∧ out.beta_inv_remain = 3 ∧ out.pairwise_remain = 3 ∧
      out.removed_colinear = 0 ∧ out.snp_count = 3 ∧
      out.st.snp_beta = [1 / 10, 1 / 5, 3 / 20] ∧
      out.st.snp_btse = [1 / 20, 1 / 20, 1 / 20] ∧
      out.st.C = identity_matrix 3 ∧
      out.Vchisq = (List.zipWith (fun b s => (b / s) ^ 2) [1 / 10, 1 / 5, 3 / 20]
        [1 / 20, 1 / 20, (1 / 20 : ℚ)]).sum ∧
      out.Vpvalue = lib_diag.pchisq out.Vchisq 3) ∧
    (List.zipWith (fun b s => (b / s) ^ 2) [1 / 10, 1 / 5, 3 / 20]
        [1 / 20, 1 / 20, (1 / 20 : ℚ)]).sum = 29 :=
  ⟨sbat_scenario_A lib_diag 0 3 X_id3 [0, 1, 2] [1 / 10, 1 / 5, 3 / 20]
      [1 / 20, 1 / 20, 1 / 20] 0 0 0 ["rs1", "rs2", "rs3"]
      (by decide) rfl rfl (by decide!) (by decide!) (by decide!)
      ⟨by decide!, by decide!⟩
      (fun d hd _ => inv_diag_exact 3 d hd),
    by norm_num⟩

/-! ## The driver `sbat_multi` -/

/-- An iteration of the main loop reads inside the vectors exactly when the set is in
the list of sets and either is skipped or passes `sbat_multi_reads_ok`. -/
theorem sbat_multi_step_isSome_iff {α : Type} [LinearOrderedField α] (lib : Lib α)
    (XMat : List Nat → List (List α)) (snp_name_map snp_A1 : List String)
    (snp_beta snp_btse : List α) (snpset : List (List String))
    (s : MultiState α) (i : Nat) :
    (sbat_multi_step lib XMat snp_name_map snp_A1 snp_beta snp_btse snpset s i).isSome = true
      ↔ i < snpset.length ∧
        (sbat_multi_skip snp_name_map (snpset.getD i []) = true ∨
          sbat_multi_reads_ok snp_A1 snp_beta snp_btse s.snp_name
            (sbat_multi_snp_indx snp_name_map (snpset.getD i [])) = true) := by
  unfold sbat_multi_step
  by_cases hi : i < snpset.length
  · rw [if_pos hi]
    simp only
    by_cases hskip : sbat_multi_skip snp_name_map (snpset.getD i []) = true
    · rw [if_pos hskip]
      exact ⟨fun _ => ⟨hi, Or.inl hskip⟩, fun _ => rfl⟩
    · rw [if_neg hskip]
      by_cases hok : sbat_multi_reads_ok snp_A1 snp_beta snp_btse s.snp_name
          (sbat_multi_snp_indx snp_name_map (snpset.getD i [])) = true
      · rw [if_pos hok]
        obtain ⟨out, hout⟩ := sbat_multi_calcu_V_returns lib
          ((sbat_multi_snp_indx snp_name_map (snpset.getD i [])).length + 1)
          (XMat (sbat_multi_snp_indx snp_name_map (snpset.getD i [])))
          (sbat_multi_snp_indx snp_name_map (snpset.getD i []))
          ((sbat_multi_snp_indx snp_name_map (snpset.getD i [])).map
            (fun k => snp_beta.getD k 0))
          ((sbat_multi_snp_indx snp_name_map (snpset.getD i [])).map
            (fun k => snp_btse.getD k 0))
          s.Vchisq s.Vpvalue 0 s.snp_name (Nat.lt_succ_self _)
        rw [hout]
        exact ⟨fun _ => ⟨hi, Or.inr hok⟩, fun _ => rfl⟩
      · rw [if_neg hok]
        constructor
        · intro h
          exact Bool.noConfusion h
        · rintro ⟨_, h | h⟩
          · exact absurd h hskip
          · exact absurd h hok
  · rw [if_neg hi]
    constructor
    · intro h
      exact Bool.noConfusion h
    · rintro ⟨h, _⟩
      exact absurd h hi

/-- Effect of one iteration of the main loop that reads inside the vectors, on the
trace of calls and on `set_pval`: a skipped set adds no call and stores the sentinel
`2`; a set that is not skipped adds a call with its index, its mapped positions and a
name list that covers them; any iteration touches `set_pval` at its own index only and
keeps the calls already traced. -/
theorem sbat_multi_step_spec {α : Type} [LinearOrderedField α] (lib : Lib α)
    (XMat : List Nat → List (List α)) (snp_name_map snp_A1 : List String)
    (snp_beta snp_btse : List α) (snpset : List (List String))
    (s s' : MultiState α) (i : Nat)
    (h : sbat_multi_step lib XMat snp_name_map snp_A1 snp_beta snp_btse snpset s i = some s') :
    s'.set_pval.length = s.set_pval.length ∧
    (∀ j, j ≠ i → s'.set_pval.getD j 0 = s.set_pval.getD j 0) ∧
    (∀ c ∈ s'.calls,
      c ∈ s.calls ∨ (c.i = i ∧ sbat_multi_skip snp_name_map (snpset.getD i []) = false)) ∧
    (sbat_multi_skip snp_name_map (snpset.getD i []) = true → i < s.set_pval.length →
      s'.set_pval.getD i 0 = 2) ∧
    (∀ c ∈ s.calls, c ∈ s'.calls) ∧
    (sbat_multi_skip snp_name_map (snpset.getD i []) = false →
      ∃ c ∈ s'.calls, c.i = i ∧
        c.snp_indx = sbat_multi_snp_indx snp_name_map (snpset.getD i []) ∧
        c.snp_indx.length ≤ c.snp_kept.length) := by
  unfold sbat_multi_step at h
  by_cases hi : i < snpset.length
  · rw [if_pos hi] at h
    simp only at h
    by_cases hskip : sbat_multi_skip snp_name_map (snpset.getD i []) = true
    · rw [if_pos hskip] at h
      simp only [Option.some.injEq] at h
      subst h
      refine ⟨by simp, ?_, ?_, ?_, fun c hc => hc, ?_⟩
      · intro j hj
        simp only
        rw [getD_set, if_neg (fun h => hj h.1.symm)]
      · intro c hc
        exact Or.inl hc
      · intro _ hlt
        simp only
        rw [getD_set, if_pos ⟨rfl, hlt⟩]
      · intro hf
        rw [hskip] at hf
        exact Bool.noConfusion hf
    · rw [if_neg hskip] at h
      have hfalse : sbat_multi_skip snp_name_map (snpset.getD i []) = false := by
        cases hb : sbat_multi_skip snp_name_map (snpset.getD i []) with
        | false => rfl
        | true => exact absurd hb hskip
      by_cases hok : sbat_multi_reads_ok snp_A1 snp_beta snp_btse s.snp_name
          (sbat_multi_snp_indx snp_name_map (snpset.getD i [])) = true
      · rw [if_pos hok] at h
        have hlen : (sbat_multi_snp_indx snp_name_map (snpset.getD i [])).length
            ≤ s.snp_name.length := by
          unfold sbat_multi_reads_ok at hok
          rw [Bool.and_eq_true, decide_eq_true_eq] at hok
          exact hok.2
        split at h
        · exact Option.noConfusion h
        · simp only [Option.some.injEq] at h
          subst h
          refine ⟨by simp, ?_, ?_, ?_, ?_, ?_⟩
          · intro j hj
            simp only
            rw [getD_set, if_neg (fun h => hj h.1.symm)]
          · intro c hc
            simp only [List.mem_append, List.mem_singleton] at hc
            rcases hc with hc | hc
            · exact Or.inl hc
            · exact Or.inr ⟨by rw [hc], hfalse⟩
          · intro h
            exact absurd h hskip
          · intro c hc
            exact List.mem_append.mpr (Or.inl hc)
          · intro _
            exact ⟨_, List.mem_append.mpr (Or.inr (List.mem_singleton.mpr rfl)), rfl, rfl,
              hlen⟩
      · rw [if_neg hok] at h
        exact Option.noConfusion h
  · rw [if_neg hi] at h
    exact Option.noConfusion h

/-- One more iteration of the main loop. -/
theorem sbat_multi_fold_succ {α : Type} [LinearOrderedField α] (lib : Lib α)
    (XMat : List Nat → List (List α)) (snp_name_map snp_A1 : List String)
    (snp_beta snp_btse : List α) (snpset : List (List String))
    (s0 : MultiState α) (n : Nat) :
    sbat_multi_fold lib XMat snp_name_map snp_A1 snp_beta snp_btse snpset s0 (n + 1)
      = (sbat_multi_fold lib XMat snp_name_map snp_A1 snp_beta snp_btse snpset s0 n).bind
          (fun s => sbat_multi_step lib XMat snp_name_map snp_A1 snp_beta snp_btse snpset s n) := by
  unfold sbat_multi_fold
  rw [List.range_succ, List.foldl_append]
  rfl

/-- The main loop goes on when the next iteration reads inside the vectors. -/
theorem sbat_multi_fold_step {α : Type} [LinearOrderedField α] (lib : Lib α)
    (XMat : List Nat → List (List α)) (snp_name_map snp_A1 : List String)
    (snp_beta snp_btse : List α) (snpset : List (List String))
    (s0 s s' : MultiState α) (n : Nat)
    (h1 : sbat_multi_fold lib XMat snp_name_map snp_A1 snp_beta snp_btse snpset s0 n = some s)
    (h2 : sbat_multi_step lib XMat snp_name_map snp_A1 snp_beta snp_btse snpset s n = some s') :
    sbat_multi_fold lib XMat snp_name_map snp_A1 snp_beta snp_btse snpset s0 (n + 1)
      = some s' := by
  rw [sbat_multi_fold_succ, h1]
  exact h2

/-- Invariant of the main loop after `n` iterations that read inside the vectors: the
length of `set_pval` is kept, every call in the trace belongs to an earlier set that was
not skipped, every earlier skipped set has the sentinel `2`, and every earlier set that
was not skipped has a call in the trace, with its mapped positions as `snp_indx` and a
name list that covers them. -/
theorem sbat_multi_fold_invariant {α : Type} [LinearOrderedField α] (lib : Lib α)
    (XMat : List Nat → List (List α)) (snp_name_map snp_A1 : List String)
    (snp_beta snp_btse : List α) (snpset : List (List String))
    (s0 : MultiState α) (hcalls : s0.calls = []) (n : Nat) (s : MultiState α)
    (h : sbat_multi_fold lib XMat snp_name_map snp_A1 snp_beta snp_btse snpset s0 n = some s) :
    s.set_pval.length = s0.set_pval.length ∧
    (∀ c ∈ s.calls, c.i < n ∧ sbat_multi_skip snp_name_map (snpset.getD c.i []) = false) ∧
    (∀ i, i < n → i < s0.set_pval.length →
      sbat_multi_skip snp_name_map (snpset.getD i []) = true → s.set_pval.getD i 0 = 2) ∧
    (∀ i, i < n → sbat_multi_skip snp_name_map (snpset.getD i []) = false →
      ∃ c ∈ s.calls, c.i = i ∧
        c.snp_indx = sbat_multi_snp_indx snp_name_map (snpset.getD i []) ∧
        c.snp_indx.length ≤ c.snp_kept.length) := by
  induction n generalizing s with
  | zero =>
    have hs : s0 = s := by
      have h' : some s0 = some s := h
      exact Option.some.inj h'
    subst hs
    refine ⟨rfl, ?_, ?_, ?_⟩
    · intro c hc
      rw [hcalls] at hc
      exact absurd hc (List.not_mem_nil c)
    · intro i hi
      omega
    · intro i hi
      omega
  | succ n ih =>
    rw [sbat_multi_fold_succ] at h
    obtain ⟨s1, hs1, hstep⟩ := Option.bind_eq_some.mp h
    obtain ⟨ih1, ih2, ih3, ih4⟩ := ih s1 hs1
    obtain ⟨h1, h2, h3, h4, h5, h6⟩ := sbat_multi_step_spec lib XMat snp_name_map snp_A1
      snp_beta snp_btse snpset s1 s n hstep
    refine ⟨h1.trans ih1, ?_, ?_, ?_⟩
    · intro c hc
      rcases h3 c hc with hc2 | ⟨hci, hsk⟩
      · obtain ⟨hlt, hsk⟩ := ih2 c hc2
        exact ⟨by omega, hsk⟩
      · rw [hci]
        exact ⟨by omega, hsk⟩
    · intro i hi hlen hsk
      by_cases hin : i = n
      · subst hin
        exact h4 hsk (by rw [ih1]; exact hlen)
      · rw [h2 i hin]
        exact ih3 i (by omega) hlen hsk
    · intro i hi hsk
      by_cases hin : i = n
      · subst hin
        exact h6 hsk
      · obtain ⟨c, hc, hci, hcx, hcl⟩ := ih4 i (by omega) hsk
        exact ⟨c, h5 c hc, hci, hcx, hcl⟩

/-- Closed form of the output loop: one line for every set whose `set_pval` is not
above `1.5`, in the order of the sets. -/
theorem sbat_multi_rows_eq {α : Type} [LinearOrderedField α] (set_name : List String)
    (s : MultiState α) :
    sbat_multi_rows set_name s
      = ((List.range set_name.length).filter
          (fun i => decide (¬ s.set_pval.getD i 0 > 3 / 2))).map
          (fun i => (⟨i, set_name.getD i "", s.snp_num_in_set.getD i 0,
            s.num_snp_tested.getD i 0, s.chisq_o.getD i 0, s.set_pval.getD i 0⟩ :
              MbatRow α)) := by
  unfold sbat_multi_rows
  generalize set_name.length = n
  induction n with
  | zero => rfl
  | succ n ih =>
    rw [List.range_succ, List.foldl_append, ih, List.filter_append, List.map_append]
    simp only [List.foldl_cons, List.foldl_nil]
    by_cases h : s.set_pval.getD n 0 > 3 / 2
    · rw [if_pos h, List.filter_cons_of_neg (by simp only [decide_eq_true_eq, not_not]; exact h)]
      simp only [List.filter_nil, List.map_nil, List.append_nil]
    · rw [if_neg h, List.filter_cons_of_pos (by simp only [decide_eq_true_eq]; exact h)]
      rfl

/-- A line for the set `i` is written exactly when `i` is a set index and `set_pval[i]`
is at most `1.5`. -/
theorem sbat_multi_rows_index {α : Type} [LinearOrderedField α] (set_name : List String)
    (s : MultiState α) (i : Nat) :
    (∃ r ∈ sbat_multi_rows set_name s, r.i = i)
      ↔ i < set_name.length ∧ s.set_pval.getD i 0 ≤ 3 / 2 := by
  rw [sbat_multi_rows_eq]
  constructor
  · rintro ⟨r, hr, hri⟩
    simp only [List.mem_map, List.mem_filter, List.mem_range, decide_eq_true_eq] at hr
    obtain ⟨a, ⟨ha, hp⟩, rfl⟩ := hr
    simp only at hri
    subst hri
    exact ⟨ha, not_lt.mp hp⟩
  · rintro ⟨hi, hp⟩
    refine ⟨⟨i, set_name.getD i "", s.snp_num_in_set.getD i 0,
      s.num_snp_tested.getD i 0, s.chisq_o.getD i 0, s.set_pval.getD i 0⟩, ?_, rfl⟩
    simp only [List.mem_map, List.mem_filter, List.mem_range, decide_eq_true_eq]
    exact ⟨i, ⟨hi, not_lt.mpr hp⟩, rfl⟩

/-- A set that repeats one mapped name `n` times has `n` mapped members. -/
theorem sbat_multi_snp_indx_replicate (snp_name : List String) (s : String) (k n : Nat)
    (hfind : snp_name_map_find snp_name s = some k) :
    sbat_multi_snp_indx snp_name (List.replicate n s) = List.replicate n k := by
  unfold sbat_multi_snp_indx
  induction n with
  | zero => rfl
  | succ n ih =>
    rw [List.replicate_succ, List.filterMap_cons, hfind, ih]
    rfl

/-- The condition `skip` in words: the set is empty or more than 20000 of its names
are mapped. -/
theorem sbat_multi_skip_iff (snp_name_map : List String) (snpset_i : List String) :
    sbat_multi_skip snp_name_map snpset_i = true
      ↔ snpset_i = [] ∨ (sbat_multi_snp_indx snp_name_map snpset_i).length > 20000 := by
  unfold sbat_multi_skip
  rw [Bool.or_eq_true, decide_eq_true_eq, decide_eq_true_eq]
  constructor
  · rintro (h | h)
    · exact Or.inl (List.length_eq_zero.mp (by omega))
    · exact Or.inr h
  · rintro (h | h)
    · exact Or.inl (by rw [h]; exact Nat.zero_lt_one)
    · exact Or.inr h

/-- A run of `sbat_multi` that reads inside its vectors ends in the final state of the
main loop and writes the lines of the output loop. -/
theorem sbat_multi_eq_some {α : Type} [LinearOrderedField α] (lib : Lib α)
    (XMat : List Nat → List (List α)) (snp_name snp_A1 : List String)
    (snp_beta snp_btse : List α) (set_name : List String) (snpset : List (List String))
    (r : MultiState α × List (MbatRow α))
    (hrun : sbat_multi lib XMat snp_name snp_A1 snp_beta snp_btse set_name snpset = some r) :
    sbat_multi_fold lib XMat snp_name snp_A1 snp_beta snp_btse snpset
        ⟨snp_name, [], 0, 0, 0, List.replicate set_name.length 0,
          List.replicate set_name.length 0, List.replicate set_name.length 0,
          List.replicate set_name.length 0, []⟩ set_name.length = some r.1 ∧
    r.2 = sbat_multi_rows set_name r.1 := by
  unfold sbat_multi sbat_multi_loop at hrun
  obtain ⟨s, hs, hr⟩ := Option.map_eq_some.mp hrun
  subst hr
  exact ⟨hs, rfl⟩

/-- C11: in a run of `sbat_multi` that reads inside its vectors, for a set `i` with more
than 20000 mapped member variants `sbat_multi_calcu_V` (and hence `make_cor_matrix`) is
not called, the recorded p-value of the set is the sentinel `2`, and no line is written
for it; and for every set, a line is written for it if and only if its recorded p-value
is at most `1.5`. -/
theorem sbat_multi_cap_and_rows {α : Type} [LinearOrderedField α] (lib : Lib α)
    (XMat : List Nat → List (List α)) (snp_name snp_A1 : List String)
    (snp_beta snp_btse : List α) (set_name : List String) (snpset : List (List String))
    (r : MultiState α × List (MbatRow α))
    (hrun : sbat_multi lib XMat snp_name snp_A1 snp_beta snp_btse set_name snpset = some r)
    (i : Nat) (hi : i < set_name.length) :
    ((sbat_multi_snp_indx snp_name (snpset.getD i [])).length > 20000 →
      (∀ c ∈ r.1.calls, c.i ≠ i) ∧ r.1.set_pval.getD i 0 = 2 ∧ (∀ row ∈ r.2, row.i ≠ i)) ∧
    ((∃ row ∈ r.2, row.i = i) ↔ r.1.set_pval.getD i 0 ≤ 3 / 2) := by
  obtain ⟨hfold, hrows⟩ := sbat_multi_eq_some lib XMat snp_name snp_A1 snp_beta snp_btse
    set_name snpset r hrun
  obtain ⟨_, hcalls, hpval, _⟩ := sbat_multi_fold_invariant lib XMat snp_name snp_A1 snp_beta
    snp_btse snpset _ rfl set_name.length r.1 hfold
  have hiff := sbat_multi_rows_index set_name r.1 i
  rw [← hrows] at hiff
  refine ⟨?_, ?_⟩
  · intro hcap
    have hskip : sbat_multi_skip snp_name (snpset.getD i []) = true :=
      (sbat_multi_skip_iff snp_name (snpset.getD i [])).mpr (Or.inr hcap)
    have h2 : r.1.set_pval.getD i 0 = 2 :=
      hpval i hi (by simp only [List.length_replicate]; exact hi) hskip
    refine ⟨?_, h2, ?_⟩
    · intro c hc hci
      have hns := (hcalls c hc).2
      rw [hci, hskip] at hns
      exact Bool.noConfusion hns
    · intro row hr hri
      have hle := (hiff.mp ⟨row, hr, hri⟩).2
      rw [h2] at hle
      norm_num at hle
  · rw [hiff]
    exact ⟨fun h => h.2, fun h => ⟨hi, h⟩⟩

/-- Witness for C11: two variants and two sets, the first with both variants, the
second listing one variant 20001 times.  The run reads inside its vectors; the second
set gets no call, the sentinel `2` and no line. -/
theorem sbat_multi_cap_and_rows_witness :
    ∃ r, sbat_multi lib_rat XMat_ones ["rs1", "rs2"] ["A", "C"] [1, 1] [1, 1] ["g1", "g2"]
        [["rs1", "rs2"], List.replicate 20001 "rs1"] = some r ∧
      (∀ c ∈ r.1.calls, c.i ≠ 1) ∧ r.1.set_pval.getD 1 0 = 2 ∧
      (∀ row ∈ r.2, row.i ≠ 1) := by
  have hcap : (sbat_multi_snp_indx ["rs1", "rs2"]
      (List.getD [["rs1", "rs2"], List.replicate 20001 "rs1"] 1 [])).length > 20000 := by
    have h := sbat_multi_snp_indx_replicate ["rs1", "rs2"] "rs1" 0 20001 (by decide)
    have hg : List.getD [["rs1", "rs2"], List.replicate 20001 "rs1"] 1 []
        = List.replicate 20001 "rs1" := rfl
    rw [hg, h, List.length_replicate]
    omega
  have h0 := (sbat_multi_step_isSome_iff lib_rat XMat_ones ["rs1", "rs2"] ["A", "C"] [1, 1]
    [1, 1] [["rs1", "rs2"], List.replicate 20001 "rs1"]
    ⟨["rs1", "rs2"], [], 0, 0, 0, List.replicate 2 0, List.replicate 2 0,
      List.replicate 2 0, List.replicate 2 0, []⟩ 0).mpr
    ⟨by decide, Or.inr (by decide!)⟩
  obtain ⟨s1, hs1⟩ := Option.isSome_iff_exists.mp h0
  have h1 := (sbat_multi_step_isSome_iff lib_rat XMat_ones ["rs1", "rs2"] ["A", "C"] [1, 1]
    [1, 1] [["rs1", "rs2"], List.replicate 20001 "rs1"] s1 1).mpr
    ⟨by decide, Or.inl ((sbat_multi_skip_iff _ _).mpr (Or.inr hcap))⟩
  obtain ⟨s2, hs2⟩ := Option.isSome_iff_exists.mp h1
  have hfold := sbat_multi_fold_step lib_rat XMat_ones ["rs1", "rs2"] ["A", "C"] [1, 1]
    [1, 1] [["rs1", "rs2"], List.replicate 20001 "rs1"] _ s1 s2 1
    (sbat_multi_fold_step lib_rat XMat_ones ["rs1", "rs2"] ["A", "C"] [1, 1]
      [1, 1] [["rs1", "rs2"], List.replicate 20001 "rs1"] _ _ s1 0 rfl hs1) hs2
  have hrun : sbat_multi lib_rat XMat_ones ["rs1", "rs2"] ["A", "C"] [1, 1] [1, 1]
      ["g1", "g2"] [["rs1", "rs2"], List.replicate 20001 "rs1"]
      = some (s2, sbat_multi_rows ["g1", "g2"] s2) := by
    unfold sbat_multi sbat_multi_loop
    rw [show ["g1", "g2"].length = 2 from rfl, hfold]
    rfl
  exact ⟨_, hrun, (sbat_multi_cap_and_rows lib_rat XMat_ones ["rs1", "rs2"] ["A", "C"]
    [1, 1] [1, 1] ["g1", "g2"] [["rs1", "rs2"], List.replicate 20001 "rs1"] _ hrun 1
    (by decide)).1 hcap⟩

/-- C19, the code at the failing input: three variants `rs1, rs2, rs3` with alleles
`A, C, G` and two sets, `g1 = {rs2}` and `g2 = {rs3}`; every read of the run is inside
its vector.  The call for `g1` has `snp_indx = [1]` and receives the whole name list,
whose position 0 is `rs1`, not `rs2`; it leaves the caller with the name list `[rs1]`.
The call for `g2` has `snp_indx = [2]` and receives the name list `[rs1]` and the
allele list `[C, G]`, whose position 0 is the allele of `rs2`; the labels of the
variants of the two sets would be `[rs2]`, `[C]` and `[rs3]`, `[G]`.  After the loop the
name list is `[rs1]`. -/
theorem sbat_multi_labels_out_of_step :
    (sbat_multi lib_rat XMat_ones ["rs1", "rs2", "rs3"] ["A", "C", "G"] [1, 1, 1] [1, 1, 1]
        ["g1", "g2"] [["rs2"], ["rs3"]]).map (fun r => r.1.calls.map
        (fun c => (c.i, c.snp_indx, c.snp_kept, c.set_A1)))
      = some [(0, [1], ["rs1", "rs2", "rs3"], ["C"]), (1, [2], ["rs1"], ["C", "G"])] ∧
    (sbat_multi lib_rat XMat_ones ["rs1", "rs2", "rs3"] ["A", "C", "G"] [1, 1, 1] [1, 1, 1]
        ["g1", "g2"] [["rs2"], ["rs3"]]).map (fun r => r.1.calls.map
        (fun c => (c.snp_indx.map (fun k => ["rs1", "rs2", "rs3"].getD k ""),
          c.snp_indx.map (fun k => ["A", "C", "G"].getD k ""))))
      = some [(["rs2"], ["C"]), (["rs3"], ["G"])] ∧
    (sbat_multi lib_rat XMat_ones ["rs1", "rs2", "rs3"] ["A", "C", "G"] [1, 1, 1] [1, 1, 1]
        ["g1"] [["rs2"]]).map (fun r => r.1.snp_name) = some ["rs1"] ∧
    (sbat_multi lib_rat XMat_ones ["rs1", "rs2", "rs3"] ["A", "C", "G"] [1, 1, 1] [1, 1, 1]
        ["g1", "g2"] [["rs2"], ["rs3"]]).map (fun r => r.1.snp_name) = some ["rs1"] ∧
    (sbat_multi lib_rat XMat_ones ["rs1", "rs2", "rs3"] ["A", "C", "G"] [1, 1, 1] [1, 1, 1]
        ["g1", "g2"] [["rs2"], ["rs3"]]).map
        (fun r => r.2.map (fun row => (row.i, row.num_snp_tested, row.chisq_o)))
      = some [(0, 1, 1), (1, 1, 1)] := by
  refine ⟨?_, ?_, ?_, ?_, ?_⟩ <;> decide!

/-- The caller's name list at a set that needs more names than the previous call left:
with the sets `{rs2}`, `{rs2, rs3}` the second call would read position 1 of the name
list `[rs1]`; the source reads outside the vector there. -/
theorem sbat_multi_reads_outside :
    sbat_multi lib_rat XMat_ones ["rs1", "rs2", "rs3"] ["A", "C", "G"] [1, 1, 1] [1, 1, 1]
        ["g1", "g2"] [["rs2"], ["rs2", "rs3"]] = none := by
  decide!

/-! ## The reader `sbat_multi_read_snpAssoc` -/

/-- C21, the code at the failing input: the reference holds `rs1` (alleles `A/G`) and
`rs2` (alleles `C/T`), both included, and the file holds the three lines `records_dup`,
all accepted.  The reading loop stores three entries in every vector; the removal of
repeated names shortens the name list to `[rs1, rs2]` and leaves the other four vectors
with three entries.  The output at position 1 has the name `rs2` with the effect,
standard error, p-value and allele `2, 1/5, 1/4, G` of the second line, whose name is
`rs1`; the line of `rs2` has `3, 3/10, 1/8, C`. -/
theorem read_snpAssoc_misaligned :
    read_snpAssoc_buffers [("rs1", 0), ("rs2", 1)] ["A", "C"] ["G", "T"] ["A", "C"]
        records_dup
      = ⟨["G", "C"], ["rs1", "rs2"], [1, 2, 3], [1 / 10, 1 / 5, 3 / 10],
          [1 / 2, 1 / 4, 1 / 8], ["A", "G", "C"]⟩ ∧
    sbat_multi_read_snpAssoc [("rs1", 0), ("rs2", 1)] ["A", "C"] ["G", "T"] ["A", "C"]
        ["rs1", "rs2"] [0, 1] records_dup
      = some ⟨["rs1", "rs2"], [1 / 2, 1 / 4], [1, 2], [1 / 10, 1 / 5], ["A", "G"]⟩ ∧
    records_dup.filter (fun r => decide (r.name = "rs2"))
      = [⟨"rs2", "C", "T", 3, 3 / 10, 1 / 8⟩] := by
  decide!

/-- One iteration of the reading loop either drops the line or appends its name,
effect, standard error and p-value, and one allele, to the five vectors. -/
theorem read_snpAssoc_line_cases {α : Type} (snp_name_map : List (String × Nat))
    (allele1 allele2 : List String) (s : AssocBuf α) (r : AssocRecord α) :
    read_snpAssoc_line snp_name_map allele1 allele2 s r = s ∨
    ∃ a, (read_snpAssoc_line snp_name_map allele1 allele2 s r).snp_name
          = s.snp_name ++ [r.name] ∧
      (read_snpAssoc_line snp_name_map allele1 allele2 s r).snp_beta
          = s.snp_beta ++ [r.beta] ∧
      (read_snpAssoc_line snp_name_map allele1 allele2 s r).snp_btse
          = s.snp_btse ++ [r.se] ∧
      (read_snpAssoc_line snp_name_map allele1 allele2 s r).snp_pval
          = s.snp_pval ++ [r.pval] ∧
      (read_snpAssoc_line snp_name_map allele1 allele2 s r).snp_A1
          = s.snp_A1 ++ [a] := by
  unfold read_snpAssoc_line
  split
  · exact Or.inl rfl
  · split
    · exact Or.inl rfl
    · split
      · exact Or.inl rfl
      · exact Or.inr ⟨_, rfl, rfl, rfl, rfl, rfl⟩

/-- Invariant of the reading loop: the entries appended to the five vectors are, position
by position, the fields of the accepted lines, in the order of the file. -/
theorem read_snpAssoc_fold_accepted {α : Type} (snp_name_map : List (String × Nat))
    (allele1 allele2 : List String) (records : List (AssocRecord α)) (s0 : AssocBuf α) :
    ∃ acc : List (AssocRecord α), acc.Sublist records ∧
      (records.foldl (read_snpAssoc_line snp_name_map allele1 allele2) s0).snp_name
        = s0.snp_name ++ acc.map (fun r => r.name) ∧
      (records.foldl (read_snpAssoc_line snp_name_map allele1 allele2) s0).snp_beta
        = s0.snp_beta ++ acc.map (fun r => r.beta) ∧
      (records.foldl (read_snpAssoc_line snp_name_map allele1 allele2) s0).snp_btse
        = s0.snp_btse ++ acc.map (fun r => r.se) ∧
      (records.foldl (read_snpAssoc_line snp_name_map allele1 allele2) s0).snp_pval
        = s0.snp_pval ++ acc.map (fun r => r.pval) ∧
      (records.foldl (read_snpAssoc_line snp_name_map allele1 allele2) s0).snp_A1.length
        = s0.snp_A1.length + acc.length := by
  induction records generalizing s0 with
  | nil => exact ⟨[], List.Sublist.refl _, by simp, by simp, by simp, by simp, by simp⟩
  | cons r rest ih =>
    rw [List.foldl_cons]
    obtain ⟨acc, hsub, h1, h2, h3, h4, h5⟩ :=
      ih (read_snpAssoc_line snp_name_map allele1 allele2 s0 r)
    rcases read_snpAssoc_line_cases snp_name_map allele1 allele2 s0 r with hs | ⟨a, e1, e2, e3, e4, e5⟩
    · rw [hs] at h1 h2 h3 h4 h5 ⊢
      exact ⟨acc, List.Sublist.cons r hsub, h1, h2, h3, h4, h5⟩
    · refine ⟨r :: acc, List.Sublist.cons₂ r hsub, ?_, ?_, ?_, ?_, ?_⟩
      · rw [h1, e1]; simp
      · rw [h2, e2]; simp
      · rw [h3, e3]; simp
      · rw [h4, e4]; simp
      · rw [h5, e5]; simp; omega

/-- A position found in a map that was filled from a list is a position of the list. -/
theorem lookup_zip_range_lt (l : List String) (s : String) (k p : Nat)
    (h : List.lookup s (List.zip l (List.range' k l.length)) = some p) :
    k ≤ p ∧ p < k + l.length := by
  induction l generalizing k with
  | nil => simp at h
  | cons a l ih =>
    rw [List.length_cons, List.range'_succ, List.zip_cons_cons, List.lookup_cons] at h
    split at h
    · simp only [Option.some.injEq] at h
      rw [List.length_cons]
      omega
    · have := ih (k + 1) h
      rw [List.length_cons]
      omega

/-- A position returned by `snp_name_map_find` is a position of the name list. -/
theorem snp_name_map_find_lt (l : List String) (s : String) (p : Nat)
    (h : snp_name_map_find l s = some p) : p < l.length := by
  unfold snp_name_map_find at h
  rw [List.range_eq_range'] at h
  have := lookup_zip_range_lt l s 0 p h
  omega

/-- Read of a mapped list inside its range. -/
theorem getD_map_of_lt {β γ : Type} (l : List β) (f : β → γ) (d : γ) (j : Nat)
    (hj : j < l.length) : (l.map f).getD j d = f (l.get ⟨j, hj⟩) := by
  have hj2 : j < (l.map f).length := by rw [List.length_map]; exact hj
  rw [List.getD_eq_getElem _ _ hj2, List.getElem_map]
  rfl

/-- Read of a twice mapped list inside its range. -/
theorem getD_map_map {β γ δ : Type} (l : List β) (g : β → γ) (f : γ → δ) (d : δ) (j : Nat)
    (hj : j < l.length) : ((l.map g).map f).getD j d = f (g (l.get ⟨j, hj⟩)) := by
  rw [List.map_map, getD_map_of_lt l (f ∘ g) d j hj]
  rfl

/-- Alignment of `sbat_multi_read_snpAssoc` when the removal of repeated names changes
nothing (no two consecutive accepted lines carry the same name): every output position
holds the name, effect, standard error and p-value of one and the same accepted line. -/
theorem sbat_multi_read_snpAssoc_aligned {α : Type} [Zero α]
    (snp_name_map : List (String × Nat))
    (allele1 allele2 ref_A gcta_snp_name : List String) (gcta_include : List Nat)
    (records : List (AssocRecord α)) (o : AssocOut α)
    (hnodup : unique (read_snpAssoc_loop snp_name_map allele1 allele2 ref_A records).snp_name
      = (read_snpAssoc_loop snp_name_map allele1 allele2 ref_A records).snp_name)
    (hout : sbat_multi_read_snpAssoc snp_name_map allele1 allele2 ref_A gcta_snp_name
      gcta_include records = some o) :
    o.snp_name.length = gcta_include.length ∧ o.snp_beta.length = gcta_include.length ∧
    o.snp_btse.length = gcta_include.length ∧ o.snp_pval.length = gcta_include.length ∧
    o.snp_A1.length = gcta_include.length ∧
    ∃ acc : List (AssocRecord α), acc.Sublist records ∧
      ∀ j, j < gcta_include.length → ∃ r ∈ acc,
        o.snp_name.getD j "" = r.name ∧ o.snp_beta.getD j 0 = r.beta ∧
        o.snp_btse.getD j 0 = r.se ∧ o.snp_pval.getD j 0 = r.pval := by
  obtain ⟨acc, hsub, h1, h2, h3, h4, _⟩ := read_snpAssoc_fold_accepted snp_name_map allele1
    allele2 records ⟨ref_A, [], [], [], [], []⟩
  simp only [List.nil_append] at h1 h2 h3 h4
  unfold sbat_multi_read_snpAssoc read_snpAssoc_buffers at hout
  simp only [hnodup] at hout
  split at hout
  · rename_i hall
    simp only [Option.some.injEq] at hout
    subst hout
    refine ⟨by simp, by simp, by simp, by simp, by simp, acc, hsub, ?_⟩
    intro j hj
    simp only [List.all_eq_true, List.mem_map, forall_exists_index, and_imp,
      forall_apply_eq_imp_iff₂] at hall
    have hsome := hall (gcta_include.get ⟨j, hj⟩) (List.get_mem _ _ _)
    obtain ⟨p, hp⟩ := Option.isSome_iff_exists.mp hsome
    have hplt := snp_name_map_find_lt _ _ p hp
    have hnames : (read_snpAssoc_loop snp_name_map allele1 allele2 ref_A records).snp_name
        = acc.map (fun r => r.name) := h1
    have hbeta : (read_snpAssoc_loop snp_name_map allele1 allele2 ref_A records).snp_beta
        = acc.map (fun r => r.beta) := h2
    have hse : (read_snpAssoc_loop snp_name_map allele1 allele2 ref_A records).snp_btse
        = acc.map (fun r => r.se) := h3
    have hpv : (read_snpAssoc_loop snp_name_map allele1 allele2 ref_A records).snp_pval
        = acc.map (fun r => r.pval) := h4
    rw [hnames, List.length_map] at hplt
    refine ⟨acc.get ⟨p, hplt⟩, List.get_mem _ _ _, ?_, ?_, ?_, ?_⟩
    · rw [getD_map_map _ _ _ _ j hj, hp, hnames, Option.getD_some,
        getD_map_of_lt _ _ _ p hplt]
    · rw [getD_map_map _ _ _ _ j hj, hp, hbeta, Option.getD_some,
        getD_map_of_lt _ _ _ p hplt]
    · rw [getD_map_map _ _ _ _ j hj, hp, hse, Option.getD_some,
        getD_map_of_lt _ _ _ p hplt]
    · rw [getD_map_map _ _ _ _ j hj, hp, hpv, Option.getD_some,
        getD_map_of_lt _ _ _ p hplt]
  · exact Option.noConfusion hout

/-! ## The skip condition of `sbat_multi` -/

/-- A name of the list is found in the map that was filled from the list. -/
theorem lookup_zip_range_isSome (l : List String) (s : String) (k : Nat) (h : s ∈ l) :
    (List.lookup s (List.zip l (List.range' k l.length))).isSome = true := by
  induction l generalizing k with
  | nil => exact absurd h (List.not_mem_nil s)
  | cons a l ih =>
    rw [List.length_cons, List.range'_succ, List.zip_cons_cons, List.lookup_cons]
    split
    · rfl
    · rename_i hne
      rcases List.mem_cons.mp h with h1 | h1
      · rw [h1] at hne
        simp at hne
      · exact ih (k + 1) h1

/-- Every name of the list is found by `snp_name_map_find`. -/
theorem snp_name_map_find_isSome (l : List String) (s : String) (h : s ∈ l) :
    (snp_name_map_find l s).isSome = true := by
  unfold snp_name_map_find
  rw [List.range_eq_range']
  exact lookup_zip_range_isSome l s 0 h

/-- A set whose names are all association records has as many mapped members as
names. -/
theorem sbat_multi_snp_indx_length (snp_name snpset_i : List String)
    (h : ∀ s ∈ snpset_i, s ∈ snp_name) :
    (sbat_multi_snp_indx snp_name snpset_i).length = snpset_i.length := by
  unfold sbat_multi_snp_indx
  induction snpset_i with
  | nil => rfl
  | cons a t ih =>
    obtain ⟨p, hp⟩ := Option.isSome_iff_exists.mp
      (snp_name_map_find_isSome snp_name a (h a (List.mem_cons_self a t)))
    rw [List.filterMap_cons, hp]
    simp only [List.length_cons]
    rw [ih (fun s hs => h s (List.mem_cons_of_mem a hs))]

/-- The mapped positions of a set are positions of the name list. -/
theorem sbat_multi_snp_indx_lt (snp_name snpset_i : List String) (k : Nat)
    (h : k ∈ sbat_multi_snp_indx snp_name snpset_i) : k < snp_name.length := by
  unfold sbat_multi_snp_indx at h
  obtain ⟨s, _, hs⟩ := List.mem_filterMap.mp h
  exact snp_name_map_find_lt snp_name s k hs

/-- The unchecked reads of an iteration are inside the vectors when the association
vectors are as long as the name list from which the map was filled and the current
name list covers the set positions. -/
theorem sbat_multi_reads_ok_of_lengths {α : Type} (snp_A1 : List String)
    (snp_beta snp_btse : List α) (snp_name_map cur snpset_i : List String)
    (hb : snp_name_map.length ≤ snp_beta.length) (hs : snp_name_map.length ≤ snp_btse.length)
    (ha : snp_name_map.length ≤ snp_A1.length)
    (hlen : (sbat_multi_snp_indx snp_name_map snpset_i).length ≤ cur.length) :
    sbat_multi_reads_ok snp_A1 snp_beta snp_btse cur
      (sbat_multi_snp_indx snp_name_map snpset_i) = true := by
  unfold sbat_multi_reads_ok
  rw [Bool.and_eq_true, List.all_eq_true]
  refine ⟨?_, decide_eq_true hlen⟩
  intro k hk
  have hlt := sbat_multi_snp_indx_lt snp_name_map snpset_i k hk
  rw [Bool.and_eq_true, Bool.and_eq_true, decide_eq_true_eq, decide_eq_true_eq,
    decide_eq_true_eq]
  omega

/-- C22: in a run of `sbat_multi` that reads inside its vectors, a set `i` gets the
sentinel p-value `2` without a call of `sbat_multi_calcu_V` if and only if its list of
member names is empty or more than 20000 of its names are mapped; a set that is not
empty with at most 20000 mapped names is passed to `sbat_multi_calcu_V` with its mapped
positions; in particular a set with exactly 20000 mapped names is passed on, and a set
that is not empty and has no mapped name is passed on with an empty `snp_indx`. -/
theorem sbat_multi_skip_exact {α : Type} [LinearOrderedField α] (lib : Lib α)
    (XMat : List Nat → List (List α)) (snp_name snp_A1 : List String)
    (snp_beta snp_btse : List α) (set_name : List String) (snpset : List (List String))
    (r : MultiState α × List (MbatRow α))
    (hrun : sbat_multi lib XMat snp_name snp_A1 snp_beta snp_btse set_name snpset = some r)
    (i : Nat) (hi : i < set_name.length) :
    (((∀ c ∈ r.1.calls, c.i ≠ i) ∧ r.1.set_pval.getD i 0 = 2)
      ↔ (snpset.getD i [] = [] ∨
          (sbat_multi_snp_indx snp_name (snpset.getD i [])).length > 20000)) ∧
    (snpset.getD i [] ≠ [] →
      (sbat_multi_snp_indx snp_name (snpset.getD i [])).length ≤ 20000 →
      ∃ c ∈ r.1.calls, c.i = i ∧
        c.snp_indx = sbat_multi_snp_indx snp_name (snpset.getD i [])) ∧
    ((sbat_multi_snp_indx snp_name (snpset.getD i [])).length = 20000 →
      ∃ c ∈ r.1.calls, c.i = i ∧ c.snp_indx.length = 20000) ∧
    (snpset.getD i [] ≠ [] →
      (sbat_multi_snp_indx snp_name (snpset.getD i [])).length = 0 →
      ∃ c ∈ r.1.calls, c.i = i ∧ c.snp_indx = []) := by
  obtain ⟨hfold, _⟩ := sbat_multi_eq_some lib XMat snp_name snp_A1 snp_beta snp_btse
    set_name snpset r hrun
  obtain ⟨_, hcalls, hpval, hadd⟩ := sbat_multi_fold_invariant lib XMat snp_name snp_A1
    snp_beta snp_btse snpset _ rfl set_name.length r.1 hfold
  have hrun2 : snpset.getD i [] ≠ [] →
      (sbat_multi_snp_indx snp_name (snpset.getD i [])).length ≤ 20000 →
      ∃ c ∈ r.1.calls, c.i = i ∧
        c.snp_indx = sbat_multi_snp_indx snp_name (snpset.getD i []) := by
    intro hne hle
    have hfalse : sbat_multi_skip snp_name (snpset.getD i []) = false := by
      cases hsk : sbat_multi_skip snp_name (snpset.getD i []) with
      | false => rfl
      | true =>
        rcases (sbat_multi_skip_iff snp_name (snpset.getD i [])).mp hsk with h | h
        · exact absurd h hne
        · omega
    obtain ⟨c, hc, hci, hcx, _⟩ := hadd i hi hfalse
    exact ⟨c, hc, hci, hcx⟩
  refine ⟨⟨?_, ?_⟩, hrun2, ?_, ?_⟩
  · rintro ⟨hno, _⟩
    by_contra hcon
    rw [not_or] at hcon
    obtain ⟨c, hc, hci, _⟩ := hrun2 hcon.1 (by omega)
    exact hno c hc hci
  · intro hcond
    have hskip := (sbat_multi_skip_iff snp_name (snpset.getD i [])).mpr hcond
    refine ⟨?_, hpval i hi (by simp only [List.length_replicate]; exact hi) hskip⟩
    intro c hc hci
    have hns := (hcalls c hc).2
    rw [hci, hskip] at hns
    exact Bool.noConfusion hns
  · intro h20
    have hne : snpset.getD i [] ≠ [] := by
      intro h
      rw [h] at h20
      have h0 : (sbat_multi_snp_indx snp_name []).length = 0 := rfl
      omega
    obtain ⟨c, hc, hci, hcx⟩ := hrun2 hne (by omega)
    exact ⟨c, hc, hci, by rw [hcx]; exact h20⟩
  · intro hne h0
    obtain ⟨c, hc, hci, hcx⟩ := hrun2 hne (by omega)
    exact ⟨c, hc, hci, by rw [hcx]; exact List.length_eq_zero.mp h0⟩

/-- Witness for C22: with 20000 association records, a set that lists all 20000 names
is passed on (the run reads inside its vectors: the name list has 20000 entries); and a
set whose only name is unknown is passed on with an empty `snp_indx`. -/
theorem sbat_multi_skip_exact_witness :
    (∃ r, sbat_multi lib_rat XMat_ones names_20000 (List.replicate 20000 "A")
        (List.replicate 20000 1) (List.replicate 20000 1) ["g1"] [names_20000] = some r ∧
      ∃ c ∈ r.1.calls, c.i = 0 ∧ c.snp_indx.length = 20000) ∧
    (∃ r, sbat_multi lib_rat XMat_ones ["rs1"] ["A"] [1] [1] ["g1"] [["rs9"]] = some r ∧
      ∃ c ∈ r.1.calls, c.i = 0 ∧ c.snp_indx = []) := by
  have hlen : names_20000.length = 20000 := by
    unfold names_20000
    rw [List.length_map, List.length_range]
  have hg : List.getD [names_20000] 0 [] = names_20000 := List.getD_cons_zero
  have hmapped : (sbat_multi_snp_indx names_20000 (List.getD [names_20000] 0 [])).length
      = 20000 := by
    rw [hg, sbat_multi_snp_indx_length names_20000 names_20000 (fun s h => h), hlen]
  refine ⟨?_, ?_⟩
  · have hok := sbat_multi_reads_ok_of_lengths (List.replicate 20000 "A")
      (List.replicate 20000 (1 : ℚ)) (List.replicate 20000 (1 : ℚ)) names_20000 names_20000
      (List.getD [names_20000] 0 [])
      (by rw [hlen, List.length_replicate]) (by rw [hlen, List.length_replicate])
      (by rw [hlen, List.length_replicate]) (by rw [hmapped, hlen])
    have h0 := (sbat_multi_step_isSome_iff lib_rat XMat_ones names_20000
      (List.replicate 20000 "A") (List.replicate 20000 1) (List.replicate 20000 1)
      [names_20000]
      ⟨names_20000, [], 0, 0, 0, List.replicate 1 0, List.replicate 1 0,
        List.replicate 1 0, List.replicate 1 0, []⟩ 0).mpr
      ⟨Nat.zero_lt_one, Or.inr hok⟩
    obtain ⟨s1, hs1⟩ := Option.isSome_iff_exists.mp h0
    have hfold := sbat_multi_fold_step lib_rat XMat_ones names_20000
      (List.replicate 20000 "A") (List.replicate 20000 1) (List.replicate 20000 1)
      [names_20000]
      ⟨names_20000, [], 0, 0, 0, List.replicate 1 0, List.replicate 1 0,
        List.replicate 1 0, List.replicate 1 0, []⟩ _ s1 0 rfl hs1
    have hrun : sbat_multi lib_rat XMat_ones names_20000 (List.replicate 20000 "A")
        (List.replicate 20000 1) (List.replicate 20000 1) ["g1"] [names_20000]
        = some (s1, sbat_multi_rows ["g1"] s1) := by
      unfold sbat_multi sbat_multi_loop
      rw [show ["g1"].length = 1 from rfl, hfold]
      rfl
    exact ⟨_, hrun, (sbat_multi_skip_exact lib_rat XMat_ones names_20000
      (List.replicate 20000 "A") (List.replicate 20000 1) (List.replicate 20000 1) ["g1"]
      [names_20000] _ hrun 0 Nat.zero_lt_one).2.2.1 hmapped⟩
  · have h0 := (sbat_multi_step_isSome_iff lib_rat XMat_ones ["rs1"] ["A"] [1] [1]
      [["rs9"]]
      ⟨["rs1"], [], 0, 0, 0, List.replicate 1 0, List.replicate 1 0,
        List.replicate 1 0, List.replicate 1 0, []⟩ 0).mpr
      ⟨Nat.zero_lt_one, Or.inr (by decide!)⟩
    obtain ⟨s1, hs1⟩ := Option.isSome_iff_exists.mp h0
    have hfold := sbat_multi_fold_step lib_rat XMat_ones ["rs1"] ["A"] [1] [1] [["rs9"]]
      ⟨["rs1"], [], 0, 0, 0, List.replicate 1 0, List.replicate 1 0,
        List.replicate 1 0, List.replicate 1 0, []⟩ _ s1 0 rfl hs1
    have hrun : sbat_multi lib_rat XMat_ones ["rs1"] ["A"] [1] [1] ["g1"] [["rs9"]]
        = some (s1, sbat_multi_rows ["g1"] s1) := by
      unfold sbat_multi sbat_multi_loop
      rw [show ["g1"].length = 1 from rfl, hfold]
      rfl
    exact ⟨_, hrun, (sbat_multi_skip_exact lib_rat XMat_ones ["rs1"] ["A"] [1] [1] ["g1"]
      [["rs9"]] _ hrun 0 Nat.zero_lt_one).2.2.2 (by decide!) (by decide!)⟩

end gcta
